import Mathlib

set_option maxHeartbeats 1000000

/-!
Shallow embedding of src/maze.js: a rectangular maze generator using
randomized depth-first search (recursive backtracker).

Modelling conventions:
* JS numbers used as array indices and coordinates are `Int`; wall masks are
  `Nat` (the code only ever applies 32-bit bitwise ops to small nonnegative
  values, so `a & ~b` is modelled as `a &&& (b ^^^ (2 ^ 32 - 1))`).
* JS array reads `l[i]` yield `undefined` off the ends; this is `Option`.
  Reading or writing a property of `undefined` throws a TypeError, modelled
  by `JSError.typeError`.  `JSError.rangeError` exists only to state claims
  that speak about range errors; the code never produces it.
* `Math.floor(Math.random() * n)` is an arbitrary index below `n`: the
  generator takes a stream `rs : Nat → Nat` of random draws and uses
  `rs k % n`, which ranges over exactly the indices `0 .. n-1`.
* The self-recursion of `Maze.prototype.generate` is modelled with a fuel
  parameter bounding the recursion depth; the inner `while` loop gets its
  own fuel, bounded by the number of unvisited neighbours, which the code's
  loop strictly shrinks every iteration.
-/

inductive JSError : Type
  | typeError
  | rangeError
deriving DecidableEq, Repr

structure Coordinate : Type where
  x : Int
  y : Int
deriving DecidableEq, Repr

/-- maze.js line 8: WALL_TOP = 1 << 3 -/
def WALL_TOP : Nat := 1 <<< 3

/-- maze.js line 11: WALL_RIGHT = 1 << 2 -/
def WALL_RIGHT : Nat := 1 <<< 2

/-- maze.js line 14: WALL_BOTTOM = 1 << 1 -/
def WALL_BOTTOM : Nat := 1 <<< 1

/-- maze.js line 17: WALL_LEFT = 1 << 0 -/
def WALL_LEFT : Nat := 1 <<< 0

/-- maze.js lines 33-64: a cell of the maze.  The constructor stores the
coordinates and walls and starts with an empty adjacency list and
`visited = false`; `Maze.prototype.reset` fills the adjacency list. -/
structure MazeCell : Type where
  x : Int
  y : Int
  walls : Nat
  adjacentCells : List Coordinate
  visited : Bool
deriving DecidableEq, Repr

/-- JS `a & ~b` on 32-bit integers, for nonnegative operands. -/
def jsAndNot (a b : Nat) : Nat := a &&& (b ^^^ (2 ^ 32 - 1))

/-- maze.js lines 104-110: the wall shifted to the opposite side
(`wall >> 2` for top/right, `wall << 2` otherwise). -/
def oppositeWall (wall : Nat) : Nat :=
  if wall = WALL_TOP ∨ wall = WALL_RIGHT then wall >>> 2 else wall <<< 2

/-- maze.js lines 99-113: clear `wall` on cellA and the opposite wall on
cellB, returning the two updated cells. -/
def breakCellWalls (cellA cellB : MazeCell) (wall : Nat) : MazeCell × MazeCell :=
  let cellA2 : MazeCell := { cellA with walls := jsAndNot cellA.walls wall }
  let cellB2 : MazeCell := { cellB with walls := jsAndNot cellB.walls (oppositeWall wall) }
  (cellA2, cellB2)

/-- maze.js lines 121-134: the maze object.  `cells` is empty until `reset`
builds the grid (the constructor only stores the dimensions). -/
structure Maze : Type where
  width : Nat
  height : Nat
  cells : List (List MazeCell)
deriving DecidableEq, Repr

/-- JS array read `l[i]`: `undefined` (here `none`) off the ends or at a
negative index. -/
def listGetI {α : Type} (l : List α) (i : Int) : Option α :=
  if 0 ≤ i then l[i.toNat]? else none

/-- Update the element at JS index `i` in place (no element to update means
no change; the generator only ever updates slots it has already read). -/
def listSetI {α : Type} (l : List α) (i : Int) (f : α → α) : List α :=
  if 0 ≤ i then
    match l[i.toNat]? with
    | some a => l.set i.toNat (f a)
    | none => l
  else l

/-- `this.cells[c.y][c.x]` -/
def Maze.cellAt (m : Maze) (c : Coordinate) : Option MazeCell :=
  match listGetI m.cells c.y with
  | some row => listGetI row c.x
  | none => none

/-- In-place mutation of the cell object stored at `c`. -/
def Maze.modifyCell (m : Maze) (c : Coordinate) (f : MazeCell → MazeCell) : Maze :=
  { m with cells := listSetI m.cells c.y (fun row => listSetI row c.x f) }

/-- `current.visited = true` (maze.js line 185) -/
def Maze.setVisited (m : Maze) (c : Coordinate) : Maze :=
  m.modifyCell c (fun cell => { cell with visited := true })

/-- `breakCellWalls(cellA, cellB, wall)` applied to the cell objects stored
at `a` and `b`: first `cellA.walls = cellA.walls & ~wall` (line 101), then
`cellB.walls = cellB.walls & ~oppositeWall` (line 112).  The two updates are
sequential, which also matches JS if both references alias one object. -/
def Maze.breakAt (m : Maze) (a b : Coordinate) (wall : Nat) : Maze :=
  let m1 := m.modifyCell a (fun cell => { cell with walls := jsAndNot cell.walls wall })
  m1.modifyCell b (fun cell => { cell with walls := jsAndNot cell.walls (oppositeWall wall) })

/-- maze.js lines 149-168: the list of in-bounds orthogonal neighbour
coordinates pushed for the cell at `(x, y)`, in source order
left, right, top, bottom. -/
def resetAdjacents (w h : Nat) (x y : Nat) : List Coordinate :=
  (if 0 ≤ (x : Int) - 1 then [⟨(x : Int) - 1, (y : Int)⟩] else []) ++
  (if x + 1 < w then [⟨(x : Int) + 1, (y : Int)⟩] else []) ++
  (if 0 ≤ (y : Int) - 1 then [⟨(x : Int), (y : Int) - 1⟩] else []) ++
  (if y + 1 < h then [⟨(x : Int), (y : Int) + 1⟩] else [])

/-- maze.js line 147 together with lines 149-168: the cell built by `reset`
for position `(x, y)`: all four walls, precomputed adjacency, unvisited. -/
def mkResetCell (w h x y : Nat) : MazeCell :=
  { x := x, y := y,
    walls := WALL_TOP ||| WALL_RIGHT ||| WALL_BOTTOM ||| WALL_LEFT,
    adjacentCells := resetAdjacents w h x y,
    visited := false }

/-- maze.js lines 137-175: rebuild the whole grid. -/
def Maze.reset (m : Maze) : Maze :=
  { m with
    cells := (List.range m.height).map (fun y =>
      (List.range m.width).map (fun x => mkResetCell m.width m.height x y)) }

/-- The loop of maze.js lines 75-80: look every coordinate up in the grid
and keep `{x: cell.x, y: cell.y}` for the unvisited ones, in order.  A
failed lookup is the TypeError JS throws at `cell.visited`. -/
def getUnvisitedListAux (m : Maze) : List Coordinate → Except JSError (List Coordinate)
  | [] => .ok []
  | c :: rest =>
    match m.cellAt c with
    | none => .error .typeError
    | some cell =>
      match getUnvisitedListAux m rest with
      | .error e => .error e
      | .ok l => .ok (if cell.visited then l else ⟨cell.x, cell.y⟩ :: l)

/-- maze.js lines 71-83: `MazeCell.prototype.getUnvisitedAdjacents`. -/
def MazeCell.getUnvisitedAdjacents (c : MazeCell) (m : Maze) : Except JSError (List Coordinate) :=
  getUnvisitedListAux m c.adjacentCells

/-- maze.js lines 195-201: the first `if/else if`, breaking the horizontal
wall pair when `next` differs from `coord` in x. -/
def breakStepX (m : Maze) (coord next : Coordinate) : Maze :=
  if next.x > coord.x then m.breakAt coord next WALL_RIGHT
  else if next.x < coord.x then m.breakAt coord next WALL_LEFT else m

/-- maze.js lines 203-209: the second `if/else if`, breaking the vertical
wall pair when `next` differs from `coord` in y. -/
def breakStepY (m : Maze) (coord next : Coordinate) : Maze :=
  if next.y > coord.y then m.breakAt coord next WALL_BOTTOM
  else if next.y < coord.y then m.breakAt coord next WALL_TOP else m

/-- The `while` loop of maze.js lines 188-213, with `rec` standing for the
recursive `this.generate(next)` call.  One fuel unit per iteration; the
emptiness test is the loop condition `adjacents.length > 0`.  Returns the
maze and the number of random draws consumed; `none` means the fuel ran out. -/
def genLoop (rs : Nat → Nat) (rec : Maze → Nat → Coordinate → Option (Except JSError (Maze × Nat))) :
    Nat → Maze → Nat → Coordinate → List Coordinate → Option (Except JSError (Maze × Nat))
  | _, m, k, _, [] => some (.ok (m, k))
  | 0, _, _, _, _ :: _ => none
  | lf + 1, m, k, coord, a :: as =>
    let next := (a :: as).getD (rs k % (a :: as).length) a
    match m.cellAt next with
    | none => some (.error .typeError)
    | some _ =>
      let m3 := breakStepY (breakStepX m coord next) coord next
      match rec m3 (k + 1) next with
      | none => none
      | some (.error e) => some (.error e)
      | some (.ok (m4, k2)) =>
        match m4.cellAt coord with
        | none => some (.error .typeError)
        | some cur2 =>
          match getUnvisitedListAux m4 cur2.adjacentCells with
          | .error e => some (.error e)
          | .ok adj2 => genLoop rs rec lf m4 k2 coord adj2

/-- maze.js lines 182-214: `Maze.prototype.generate`.  `fuel` bounds the
depth of the self-recursion (`none` = fuel exhausted), `k` indexes the
random stream.  An out-of-bounds start makes `this.cells[coord.y][coord.x]`
undefined and line 185 throw a TypeError. -/
def Maze.generate (rs : Nat → Nat) : Nat → Maze → Nat → Coordinate → Option (Except JSError (Maze × Nat))
  | 0, _, _, _ => none
  | d + 1, m, k, coord =>
    match m.cellAt coord with
    | none => some (.error .typeError)
    | some current =>
      let m1 := m.setVisited coord
      match current.getUnvisitedAdjacents m1 with
      | .error e => some (.error e)
      | .ok adj => genLoop rs (Maze.generate rs d) adj.length m1 k coord adj

/-- Snapshot trace of the `while` loop: the grid after each executed
`breakCellWalls` call, then the snapshots of the recursive call, then the
rest of the loop.  `rec` recomputes the state the recursive call returns,
`recS` its snapshots. -/
def genLoopStates (rs : Nat → Nat)
    (rec : Maze → Nat → Coordinate → Option (Except JSError (Maze × Nat)))
    (recS : Maze → Nat → Coordinate → List Maze) :
    Nat → Maze → Nat → Coordinate → List Coordinate → List Maze
  | _, _, _, _, [] => []
  | 0, _, _, _, _ :: _ => []
  | lf + 1, m, k, coord, a :: as =>
    let next := (a :: as).getD (rs k % (a :: as).length) a
    match m.cellAt next with
    | none => []
    | some _ =>
      let m2 := breakStepX m coord next
      let m3 := breakStepY m2 coord next
      ((if next.x ≠ coord.x then [m2] else []) ++ (if next.y ≠ coord.y then [m3] else [])) ++
      recS m3 (k + 1) next ++
      (match rec m3 (k + 1) next with
       | some (.ok (m4, k2)) =>
         match m4.cellAt coord with
         | some cur2 =>
           match getUnvisitedListAux m4 cur2.adjacentCells with
           | .ok adj2 => genLoopStates rs rec recS lf m4 k2 coord adj2
           | .error _ => []
         | none => []
       | _ => [])

/-- Snapshot trace of `Maze.prototype.generate`: the grid after every
primitive mutation it performs (`current.visited = true` and each
`breakCellWalls` call), in execution order. -/
def Maze.generateStates (rs : Nat → Nat) : Nat → Maze → Nat → Coordinate → List Maze
  | 0, _, _, _ => []
  | d + 1, m, k, coord =>
    match m.cellAt coord with
    | none => []
    | some current =>
      let m1 := m.setVisited coord
      m1 :: (match current.getUnvisitedAdjacents m1 with
             | .error _ => []
             | .ok adj =>
               genLoopStates rs (Maze.generate rs d) (Maze.generateStates rs d)
                 adj.length m1 k coord adj)

/-- The source has no `cellWalls` accessor; the only read of wall state is
the renderer's direct indexing `this.cells[y][x].walls` (maze.js line 235).
This is that read at an arbitrary coordinate under JS semantics: an
out-of-bounds index yields `undefined`, and `.walls` on `undefined` throws
a TypeError. -/
def Maze.cellWallsRead (m : Maze) (c : Coordinate) : Except JSError Nat :=
  match m.cellAt c with
  | some cell => .ok cell.walls
  | none => .error .typeError

/-! ## Derived notions used to state the claims -/

/-- Grid lookup at nonnegative coordinates. -/
def cellAtN (m : Maze) (x y : Nat) : Option MazeCell := m.cellAt ⟨(x : Int), (y : Int)⟩

/-- The cell at `(x, y)` exists and is unvisited (used for counting). -/
def unvisitedAtB (m : Maze) (x y : Nat) : Bool :=
  match cellAtN m x y with
  | some c => !c.visited
  | none => false

/-- Number of unvisited cells in the grid rectangle. -/
def unvisitedCount (m : Maze) : Nat :=
  ((Finset.range m.width ×ˢ Finset.range m.height).filter
    (fun p => unvisitedAtB m p.1 p.2 = true)).card

/-- An edge of the grid graph: `((x, y), true)` joins `(x, y)` to `(x+1, y)`,
`((x, y), false)` joins `(x, y)` to `(x, y+1)`. -/
def edgeBrokenB (m : Maze) : (Nat × Nat) × Bool → Bool
  | ((x, y), true) =>
    match cellAtN m x y, cellAtN m (x + 1) y with
    | some a, some b => !a.walls.testBit 2 && !b.walls.testBit 0
    | _, _ => false
  | ((x, y), false) =>
    match cellAtN m x y, cellAtN m x (y + 1) with
    | some a, some b => !a.walls.testBit 1 && !b.walls.testBit 3
    | _, _ => false

/-- All candidate edges (the broken ones always have both endpoints in
bounds, since a broken edge needs both cells to exist). -/
def edgeUniv (w h : Nat) : Finset ((Nat × Nat) × Bool) :=
  (Finset.range w ×ˢ Finset.range h) ×ˢ (Finset.univ : Finset Bool)

/-- Number of broken wall-pairs: adjacent cell pairs whose two facing wall
bits are both cleared. -/
def brokenPairs (m : Maze) : Nat :=
  ((edgeUniv m.width m.height).filter (fun e => edgeBrokenB m e = true)).card

/-- Wall symmetry: for adjacent cells the two facing wall bits agree
(bit 2 = right faces bit 0 = left; bit 1 = bottom faces bit 3 = top). -/
def WallSym (m : Maze) : Prop :=
  (∀ x y a b, cellAtN m x y = some a → cellAtN m (x + 1) y = some b →
    a.walls.testBit 2 = b.walls.testBit 0) ∧
  (∀ x y a b, cellAtN m x y = some a → cellAtN m x (y + 1) = some b →
    a.walls.testBit 1 = b.walls.testBit 3)

/-- Every unvisited cell still has all four walls. -/
def UnvisitedFull (m : Maze) : Prop :=
  ∀ x y c, cellAtN m x y = some c → c.visited = false → c.walls = 15

/-- Every unvisited cell other than the one at `p` has all four walls. -/
def UnvisitedFullExcept (m : Maze) (p : Coordinate) : Prop :=
  ∀ x y c, cellAtN m x y = some c → ¬((x : Int) = p.x ∧ (y : Int) = p.y) →
    c.visited = false → c.walls = 15

/-- The grid is the rectangular lattice `reset` builds: full rows, and each
cell carries its own position and the precomputed adjacency list. -/
def WF (m : Maze) : Prop :=
  m.cells.length = m.height ∧
  (∀ row ∈ m.cells, row.length = m.width) ∧
  (∀ x y c, cellAtN m x y = some c →
    c.x = (x : Int) ∧ c.y = (y : Int) ∧
    c.adjacentCells = resetAdjacents m.width m.height x y)

/-- One cell only loses walls and only gains `visited`; position and
adjacency never change. -/
def cellEvolves (c c2 : MazeCell) : Prop :=
  c2.x = c.x ∧ c2.y = c.y ∧ c2.adjacentCells = c.adjacentCells ∧
  (c.visited = true → c2.visited = true) ∧ c2.walls &&& c.walls = c2.walls

def rowsEvolve (r r2 : List MazeCell) : Prop :=
  r2.length = r.length ∧
  ∀ (i : Nat) (c c2 : MazeCell), r[i]? = some c → r2[i]? = some c2 → cellEvolves c c2

/-- The whole grid evolves cellwise, dimensions unchanged. -/
def mazeEvolves (m m2 : Maze) : Prop :=
  m2.width = m.width ∧ m2.height = m.height ∧ m2.cells.length = m.cells.length ∧
  ∀ (j : Nat) (r r2 : List MazeCell),
    m.cells[j]? = some r → m2.cells[j]? = some r2 → rowsEvolve r r2

/-- `p` and `q` are orthogonally adjacent and the wall pair between them is
broken (both facing bits cleared). -/
def BrokenAdj (m : Maze) (p q : Coordinate) : Prop :=
  ∃ a b, m.cellAt p = some a ∧ m.cellAt q = some b ∧
    ((q.x = p.x + 1 ∧ q.y = p.y ∧ a.walls.testBit 2 = false ∧ b.walls.testBit 0 = false) ∨
     (q.x = p.x - 1 ∧ q.y = p.y ∧ a.walls.testBit 0 = false ∧ b.walls.testBit 2 = false) ∨
     (q.x = p.x ∧ q.y = p.y + 1 ∧ a.walls.testBit 1 = false ∧ b.walls.testBit 3 = false) ∨
     (q.x = p.x ∧ q.y = p.y - 1 ∧ a.walls.testBit 3 = false ∧ b.walls.testBit 1 = false))

/-- Reachability through broken walls. -/
inductive ReachBroken (m : Maze) : Coordinate → Coordinate → Prop
  | refl (p : Coordinate) : ReachBroken m p p
  | step {p q r : Coordinate} : ReachBroken m p q → BrokenAdj m q r → ReachBroken m p r

/-- The cell at `(x, y)` exists and has no unvisited neighbour. -/
def NoUnvisitedAdj (m : Maze) (x y : Nat) : Prop :=
  ∃ c, cellAtN m x y = some c ∧ getUnvisitedListAux m c.adjacentCells = .ok []

/-! ## List-level lemmas -/

theorem listGetI_neg {α : Type} (l : List α) {i : Int} (h : i < 0) : listGetI l i = none := by
  simp [listGetI, not_le.mpr h]

theorem listGetI_ofNat {α : Type} (l : List α) (n : Nat) : listGetI l (n : Int) = l[n]? := by
  simp [listGetI]

theorem listSetI_length {α : Type} (l : List α) (i : Int) (f : α → α) :
    (listSetI l i f).length = l.length := by
  unfold listSetI
  split
  · split <;> simp
  · rfl

theorem listSetI_neg {α : Type} (l : List α) {i : Int} (h : i < 0) (f : α → α) :
    listSetI l i f = l := by
  unfold listSetI
  rw [if_neg (not_le.mpr h)]

theorem listSetI_nonneg_some {α : Type} (l : List α) {a : Nat} {v : α}
    (h : l[a]? = some v) (f : α → α) : listSetI l (a : Int) f = l.set a (f v) := by
  unfold listSetI
  rw [if_pos (by omega : (0 : Int) ≤ (a : Int))]
  simp only [Int.toNat_ofNat, h]

theorem listSetI_nonneg_none {α : Type} (l : List α) {a : Nat}
    (h : l[a]? = none) (f : α → α) : listSetI l (a : Int) f = l := by
  unfold listSetI
  rw [if_pos (by omega : (0 : Int) ≤ (a : Int))]
  simp only [Int.toNat_ofNat, h]

theorem listGetI_setI {α : Type} (l : List α) (i j : Int) (f : α → α) :
    listGetI (listSetI l i f) j = if i = j then (listGetI l i).map f else listGetI l j := by
  rcases lt_or_le i 0 with hi | hi
  · rw [listSetI_neg l hi f]
    rcases eq_or_ne i j with rfl | hne
    · rw [if_pos rfl, listGetI_neg l hi]
      rfl
    · rw [if_neg hne]
  · rcases lt_or_le j 0 with hj | hj
    · rw [if_neg (by omega : ¬i = j), listGetI_neg _ hj, listGetI_neg _ hj]
    · obtain ⟨a, rfl⟩ : ∃ a : Nat, i = (a : Int) := ⟨i.toNat, (Int.toNat_of_nonneg hi).symm⟩
      obtain ⟨b, rfl⟩ : ∃ b : Nat, j = (b : Int) := ⟨j.toNat, (Int.toNat_of_nonneg hj).symm⟩
      cases hla : l[a]? with
      | none =>
        rw [listSetI_nonneg_none l hla f]
        rcases eq_or_ne a b with rfl | hab
        · rw [if_pos rfl, listGetI_ofNat, hla]
          rfl
        · rw [if_neg (by omega : ¬(a : Int) = (b : Int))]
      | some v =>
        rw [listSetI_nonneg_some l hla f]
        have hlen : a < l.length := (List.getElem?_eq_some_iff.mp hla).1
        rcases eq_or_ne a b with rfl | hab
        · rw [if_pos rfl, listGetI_ofNat, listGetI_ofNat, hla,
            List.getElem?_set_self hlen]
          rfl
        · rw [if_neg (by omega : ¬(a : Int) = (b : Int)), listGetI_ofNat, listGetI_ofNat,
            List.getElem?_set_ne hab]

/-! ## Grid lookup and update lemmas -/

/-- Start coordinate inside the grid rectangle. -/
def inBounds (m : Maze) (c : Coordinate) : Prop :=
  0 ≤ c.x ∧ c.x < (m.width : Int) ∧ 0 ≤ c.y ∧ c.y < (m.height : Int)

theorem cellAt_modifyCell (m : Maze) (c d : Coordinate) (f : MazeCell → MazeCell) :
    (m.modifyCell c f).cellAt d = if c = d then (m.cellAt c).map f else m.cellAt d := by
  obtain ⟨cx, cy⟩ := c
  obtain ⟨dx, dy⟩ := d
  simp only [Maze.cellAt, Maze.modifyCell, listGetI_setI, Coordinate.mk.injEq]
  rcases eq_or_ne cy dy with rfl | hy
  · rw [if_pos rfl]
    cases hrow : listGetI m.cells cy with
    | none => simp
    | some row =>
      simp only [Option.map_some', listGetI_setI]
      rcases eq_or_ne cx dx with rfl | hx
      · simp
      · simp [hx]
  · rw [if_neg hy]
    rw [if_neg (by tauto)]

theorem modifyCell_width (m : Maze) (c : Coordinate) (f : MazeCell → MazeCell) :
    (m.modifyCell c f).width = m.width := rfl

theorem modifyCell_height (m : Maze) (c : Coordinate) (f : MazeCell → MazeCell) :
    (m.modifyCell c f).height = m.height := rfl

theorem modifyCell_cells_length (m : Maze) (c : Coordinate) (f : MazeCell → MazeCell) :
    (m.modifyCell c f).cells.length = m.cells.length := by
  simp [Maze.modifyCell, listSetI_length]

theorem cellAt_setVisited (m : Maze) (c d : Coordinate) :
    (m.setVisited c).cellAt d =
      if c = d then (m.cellAt c).map (fun cell => { cell with visited := true })
      else m.cellAt d :=
  cellAt_modifyCell m c d _

theorem cellAt_breakAt (m : Maze) (a b d : Coordinate) (wall : Nat) (hab : a ≠ b) :
    (m.breakAt a b wall).cellAt d =
      if a = d then (m.cellAt a).map (fun cell => { cell with walls := jsAndNot cell.walls wall })
      else if b = d then
        (m.cellAt b).map (fun cell => { cell with walls := jsAndNot cell.walls (oppositeWall wall) })
      else m.cellAt d := by
  unfold Maze.breakAt
  rw [cellAt_modifyCell]
  rcases eq_or_ne b d with rfl | hbd
  · rw [if_pos rfl, cellAt_modifyCell, if_neg hab, if_neg hab, if_pos rfl]
  · rw [if_neg hbd, cellAt_modifyCell]
    rcases eq_or_ne a d with rfl | had
    · rw [if_pos rfl, if_pos rfl]
    · rw [if_neg had, if_neg had, if_neg hbd]

/-- Lookup at nonnegative integer coordinates is `cellAtN`. -/
theorem cellAt_nonneg (m : Maze) (c : Coordinate) (hx : 0 ≤ c.x) (hy : 0 ≤ c.y) :
    m.cellAt c = cellAtN m c.x.toNat c.y.toNat := by
  obtain ⟨cx, cy⟩ := c
  unfold cellAtN
  congr 1
  simp only at hx hy
  simp [Coordinate.mk.injEq, Int.toNat_of_nonneg hx, Int.toNat_of_nonneg hy]

theorem cellAt_neg_none (m : Maze) (c : Coordinate) (h : c.x < 0 ∨ c.y < 0) :
    m.cellAt c = none := by
  unfold Maze.cellAt
  rcases h with h | h
  · cases hrow : listGetI m.cells c.y with
    | none => rfl
    | some row => simp [listGetI_neg row h]
  · rw [listGetI_neg m.cells h]

/-! ## Reset lemmas -/

theorem reset_width (m : Maze) : (m.reset).width = m.width := rfl

theorem reset_height (m : Maze) : (m.reset).height = m.height := rfl

theorem reset_cells_length (m : Maze) : (m.reset).cells.length = m.height := by
  simp [Maze.reset]

theorem reset_row_length (m : Maze) (row : List MazeCell) (h : row ∈ (m.reset).cells) :
    row.length = m.width := by
  simp only [Maze.reset, List.mem_map] at h
  obtain ⟨y, _, rfl⟩ := h
  simp

theorem cellAtN_reset (m : Maze) (x y : Nat) :
    cellAtN (m.reset) x y =
      if x < m.width ∧ y < m.height then some (mkResetCell m.width m.height x y)
      else none := by
  unfold cellAtN Maze.cellAt Maze.reset
  simp only [listGetI_ofNat]
  rcases Nat.lt_or_ge y m.height with hy | hy
  · rw [List.getElem?_map, List.getElem?_range hy]
    simp only [Option.map_some', listGetI_ofNat]
    rcases Nat.lt_or_ge x m.width with hx | hx
    · rw [List.getElem?_map, List.getElem?_range hx, if_pos ⟨hx, hy⟩]
      rfl
    · rw [List.getElem?_map, List.getElem?_eq_none (by simpa using hx)]
      rw [if_neg (by omega)]
      rfl
  · rw [List.getElem?_eq_none (by simpa using hy), if_neg (by omega)]

theorem reset_walls (m : Maze) (x y : Nat) (c : MazeCell)
    (h : cellAtN (m.reset) x y = some c) : c.walls = 15 := by
  rw [cellAtN_reset] at h
  split at h
  · cases h
    rfl
  · cases h

/-- Membership in the reset adjacency list, as the four in-bounds orthogonal
neighbours. -/
theorem mem_resetAdjacents (w h x y : Nat) (c : Coordinate) :
    c ∈ resetAdjacents w h x y ↔
      ((1 ≤ x ∧ c = ⟨(x : Int) - 1, (y : Int)⟩) ∨
       (x + 1 < w ∧ c = ⟨(x : Int) + 1, (y : Int)⟩) ∨
       (1 ≤ y ∧ c = ⟨(x : Int), (y : Int) - 1⟩) ∨
       (y + 1 < h ∧ c = ⟨(x : Int), (y : Int) + 1⟩)) := by
  unfold resetAdjacents
  simp only [List.mem_append, List.mem_singleton]
  constructor
  · rintro (((h1 | h2) | h3) | h4)
    · rcases Decidable.em (0 ≤ (x : Int) - 1) with hc | hc
      · rw [if_pos hc] at h1
        simp only [List.mem_singleton] at h1
        exact Or.inl ⟨by omega, h1⟩
      · rw [if_neg hc] at h1
        cases h1
    · rcases Decidable.em (x + 1 < w) with hc | hc
      · rw [if_pos hc] at h2
        simp only [List.mem_singleton] at h2
        exact Or.inr (Or.inl ⟨hc, h2⟩)
      · rw [if_neg hc] at h2
        cases h2
    · rcases Decidable.em (0 ≤ (y : Int) - 1) with hc | hc
      · rw [if_pos hc] at h3
        simp only [List.mem_singleton] at h3
        exact Or.inr (Or.inr (Or.inl ⟨by omega, h3⟩))
      · rw [if_neg hc] at h3
        cases h3
    · rcases Decidable.em (y + 1 < h) with hc | hc
      · rw [if_pos hc] at h4
        simp only [List.mem_singleton] at h4
        exact Or.inr (Or.inr (Or.inr ⟨hc, h4⟩))
      · rw [if_neg hc] at h4
        cases h4
  · rintro (⟨hb, rfl⟩ | ⟨hb, rfl⟩ | ⟨hb, rfl⟩ | ⟨hb, rfl⟩)
    · exact Or.inl (Or.inl (Or.inl (by rw [if_pos (by omega : (0 : Int) ≤ (x : Int) - 1)]; simp)))
    · exact Or.inl (Or.inl (Or.inr (by rw [if_pos hb]; simp)))
    · exact Or.inl (Or.inr (by rw [if_pos (by omega : (0 : Int) ≤ (y : Int) - 1)]; simp))
    · exact Or.inr (by rw [if_pos hb]; simp)

/-- The grid a reset leaves behind is well-formed. -/
theorem WF_reset (m : Maze) : WF (m.reset) := by
  refine ⟨reset_cells_length m, fun row hrow => reset_row_length m row hrow, ?_⟩
  intro x y c hc
  rw [cellAtN_reset] at hc
  split at hc
  · cases hc
    exact ⟨rfl, rfl, rfl⟩
  · cases hc

theorem WallSym_reset (m : Maze) : WallSym (m.reset) := by
  constructor
  · intro x y a b ha hb
    rw [reset_walls m x y a ha, reset_walls m (x + 1) y b hb]
    decide
  · intro x y a b ha hb
    rw [reset_walls m x y a ha, reset_walls m x (y + 1) b hb]
    decide

theorem UnvisitedFull_reset (m : Maze) : UnvisitedFull (m.reset) := by
  intro x y c hc _
  exact reset_walls m x y c hc

/-! ## Evolution (monotonicity) machinery -/

/-- The cell object at `c` exists and is marked visited. -/
def visitedAtC (m : Maze) (c : Coordinate) : Prop :=
  ∃ cell, m.cellAt c = some cell ∧ cell.visited = true

theorem land_absorb_trans {a b c : Nat} (hcb : c &&& b = c) (hba : b &&& a = b) :
    c &&& a = c := by
  apply Nat.eq_of_testBit_eq
  intro i
  have h1 : (c.testBit i && b.testBit i) = c.testBit i := by
    rw [← Nat.testBit_land, hcb]
  have h2 : (b.testBit i && a.testBit i) = b.testBit i := by
    rw [← Nat.testBit_land, hba]
  rw [Nat.testBit_land]
  cases hc : c.testBit i <;> cases hb : b.testBit i <;> cases ha : a.testBit i <;> simp_all

theorem cellEvolves_refl (c : MazeCell) : cellEvolves c c := by
  refine ⟨rfl, rfl, rfl, fun h => h, ?_⟩
  apply Nat.eq_of_testBit_eq
  intro i
  rw [Nat.testBit_land, Bool.and_self]

theorem cellEvolves_trans {a b c : MazeCell} (h1 : cellEvolves a b) (h2 : cellEvolves b c) :
    cellEvolves a c := by
  obtain ⟨hx1, hy1, ha1, hv1, hw1⟩ := h1
  obtain ⟨hx2, hy2, ha2, hv2, hw2⟩ := h2
  exact ⟨hx2.trans hx1, hy2.trans hy1, ha2.trans ha1, fun h => hv2 (hv1 h),
    land_absorb_trans hw2 hw1⟩

theorem rowsEvolve_refl (r : List MazeCell) : rowsEvolve r r := by
  refine ⟨rfl, fun i c c2 hc hc2 => ?_⟩
  rw [hc] at hc2
  cases hc2
  exact cellEvolves_refl c

theorem rowsEvolve_trans {r1 r2 r3 : List MazeCell} (h1 : rowsEvolve r1 r2)
    (h2 : rowsEvolve r2 r3) : rowsEvolve r1 r3 := by
  refine ⟨h2.1.trans h1.1, fun i c c3 hc hc3 => ?_⟩
  have hi : i < r2.length := by
    rw [h1.1]
    exact (List.getElem?_eq_some_iff.mp hc).1
  obtain ⟨c2, hc2⟩ : ∃ c2, r2[i]? = some c2 := ⟨r2[i], List.getElem?_eq_getElem hi⟩
  exact cellEvolves_trans (h1.2 i c c2 hc hc2) (h2.2 i c2 c3 hc2 hc3)

theorem mazeEvolves_refl (m : Maze) : mazeEvolves m m := by
  refine ⟨rfl, rfl, rfl, fun j r r2 hr hr2 => ?_⟩
  rw [hr] at hr2
  cases hr2
  exact rowsEvolve_refl r

theorem mazeEvolves_trans {m1 m2 m3 : Maze} (h1 : mazeEvolves m1 m2)
    (h2 : mazeEvolves m2 m3) : mazeEvolves m1 m3 := by
  refine ⟨h2.1.trans h1.1, h2.2.1.trans h1.2.1, h2.2.2.1.trans h1.2.2.1,
    fun j r1 r3 hr1 hr3 => ?_⟩
  have hj : j < m2.cells.length := by
    rw [h1.2.2.1]
    exact (List.getElem?_eq_some_iff.mp hr1).1
  obtain ⟨r2, hr2⟩ : ∃ r2, m2.cells[j]? = some r2 := ⟨m2.cells[j], List.getElem?_eq_getElem hj⟩
  exact rowsEvolve_trans (h1.2.2.2 j r1 r2 hr1 hr2) (h2.2.2.2 j r2 r3 hr2 hr3)

theorem listGetI_some_elim {α : Type} {l : List α} {i : Int} {a : α}
    (h : listGetI l i = some a) : 0 ≤ i ∧ l[i.toNat]? = some a := by
  unfold listGetI at h
  split at h
  · exact ⟨by assumption, h⟩
  · cases h

/-- Decompose a successful lookup into its row and cell components. -/
theorem cellAt_some_elim {m : Maze} {c : Coordinate} {cell : MazeCell}
    (h : m.cellAt c = some cell) :
    0 ≤ c.x ∧ 0 ≤ c.y ∧
      ∃ row, m.cells[c.y.toNat]? = some row ∧ row[c.x.toNat]? = some cell := by
  unfold Maze.cellAt at h
  cases hrow : listGetI m.cells c.y with
  | none =>
    simp only [hrow] at h
    exact Option.noConfusion h
  | some row =>
    simp only [hrow] at h
    obtain ⟨hy, hrow'⟩ := listGetI_some_elim hrow
    obtain ⟨hx, hcell⟩ := listGetI_some_elim h
    exact ⟨hx, hy, row, hrow', hcell⟩

/-- Assemble a lookup from its row and cell components. -/
theorem cellAtN_intro {m : Maze} {row : List MazeCell} {cell : MazeCell} (x y : Nat)
    (hrow : m.cells[y]? = some row) (hcell : row[x]? = some cell) :
    cellAtN m x y = some cell := by
  unfold cellAtN Maze.cellAt
  simp only [listGetI_ofNat, hrow, hcell]

/-- Pointwise lookup along an evolution, forward direction. -/
theorem mazeEvolves_cellAt {m m2 : Maze} (h : mazeEvolves m m2) {c : Coordinate}
    {cell : MazeCell} (hc : m.cellAt c = some cell) :
    ∃ cell2, m2.cellAt c = some cell2 ∧ cellEvolves cell cell2 := by
  obtain ⟨-, -, hlen, hrows⟩ := h
  obtain ⟨hx, hy, row, hrow, hcell⟩ := cellAt_some_elim hc
  have hjlt : c.y.toNat < m2.cells.length := by
    rw [hlen]
    exact (List.getElem?_eq_some_iff.mp hrow).1
  obtain ⟨row2, hrow2⟩ : ∃ row2, m2.cells[c.y.toNat]? = some row2 :=
    ⟨m2.cells[c.y.toNat], List.getElem?_eq_getElem hjlt⟩
  have hre := hrows c.y.toNat row row2 hrow hrow2
  have hilt : c.x.toNat < row2.length := by
    rw [hre.1]
    exact (List.getElem?_eq_some_iff.mp hcell).1
  obtain ⟨cell2, hcell2⟩ : ∃ cell2, row2[c.x.toNat]? = some cell2 :=
    ⟨row2[c.x.toNat], List.getElem?_eq_getElem hilt⟩
  refine ⟨cell2, ?_, hre.2 c.x.toNat cell cell2 hcell hcell2⟩
  rw [cellAt_nonneg m2 c hx hy]
  exact cellAtN_intro c.x.toNat c.y.toNat hrow2 hcell2

/-- Pointwise lookup along an evolution, backward direction. -/
theorem mazeEvolves_cellAt_rev {m m2 : Maze} (h : mazeEvolves m m2) {c : Coordinate}
    {cell2 : MazeCell} (hc2 : m2.cellAt c = some cell2) :
    ∃ cell, m.cellAt c = some cell ∧ cellEvolves cell cell2 := by
  obtain ⟨-, -, hlen, hrows⟩ := h
  obtain ⟨hx, hy, row2, hrow2, hcell2⟩ := cellAt_some_elim hc2
  have hjlt : c.y.toNat < m.cells.length := by
    rw [← hlen]
    exact (List.getElem?_eq_some_iff.mp hrow2).1
  obtain ⟨row, hrow⟩ : ∃ row, m.cells[c.y.toNat]? = some row :=
    ⟨m.cells[c.y.toNat], List.getElem?_eq_getElem hjlt⟩
  have hre := hrows c.y.toNat row row2 hrow hrow2
  have hilt : c.x.toNat < row.length := by
    rw [← hre.1]
    exact (List.getElem?_eq_some_iff.mp hcell2).1
  obtain ⟨cell, hcell⟩ : ∃ cell, row[c.x.toNat]? = some cell :=
    ⟨row[c.x.toNat], List.getElem?_eq_getElem hilt⟩
  refine ⟨cell, ?_, hre.2 c.x.toNat cell cell2 hcell hcell2⟩
  rw [cellAt_nonneg m c hx hy]
  exact cellAtN_intro c.x.toNat c.y.toNat hrow hcell

theorem visitedAtC_mono {m m2 : Maze} (h : mazeEvolves m m2) {c : Coordinate}
    (hv : visitedAtC m c) : visitedAtC m2 c := by
  obtain ⟨cell, hc, hvis⟩ := hv
  obtain ⟨cell2, hc2, he⟩ := mazeEvolves_cellAt h hc
  exact ⟨cell2, hc2, he.2.2.2.1 hvis⟩

theorem mazeEvolves_modifyCell (m : Maze) (c : Coordinate) (f : MazeCell → MazeCell)
    (hf : ∀ cell, cellEvolves cell (f cell)) : mazeEvolves m (m.modifyCell c f) := by
  refine ⟨rfl, rfl, (modifyCell_cells_length m c f).symm ▸ rfl, fun j r r2 hr hr2 => ?_⟩
  have key : (m.modifyCell c f).cells[j]? =
      if c.y = (j : Int) then (listGetI m.cells c.y).map (fun row => listSetI row c.x f)
      else m.cells[j]? := by
    have := listGetI_setI m.cells c.y (j : Int) (fun row => listSetI row c.x f)
    rw [listGetI_ofNat] at this
    exact this
  rw [hr2] at key
  rcases eq_or_ne c.y (j : Int) with hcy | hcy
  · rw [if_pos hcy, hcy, listGetI_ofNat, hr] at key
    simp only [Option.map_some'] at key
    cases key
    refine ⟨(listSetI_length r c.x f).symm ▸ rfl, fun i cc cc2 hcc hcc2 => ?_⟩
    have key2 : (listSetI r c.x f)[i]? =
        if c.x = (i : Int) then (listGetI r c.x).map f else r[i]? := by
      have := listGetI_setI r c.x (i : Int) f
      rw [listGetI_ofNat] at this
      exact this
    rw [hcc2] at key2
    rcases eq_or_ne c.x (i : Int) with hcx | hcx
    · rw [if_pos hcx, hcx, listGetI_ofNat, hcc] at key2
      simp only [Option.map_some'] at key2
      cases key2
      exact hf cc
    · rw [if_neg hcx, hcc] at key2
      cases key2
      exact cellEvolves_refl cc
  · rw [if_neg hcy, hr] at key
    cases key
    exact rowsEvolve_refl r

theorem cellEvolves_setVisited (cell : MazeCell) :
    cellEvolves cell { cell with visited := true } := by
  refine ⟨rfl, rfl, rfl, fun _ => rfl, ?_⟩
  apply Nat.eq_of_testBit_eq
  intro i
  rw [Nat.testBit_land, Bool.and_self]

theorem cellEvolves_clearWall (cell : MazeCell) (w : Nat) :
    cellEvolves cell { cell with walls := jsAndNot cell.walls w } := by
  refine ⟨rfl, rfl, rfl, fun h => h, ?_⟩
  apply Nat.eq_of_testBit_eq
  intro i
  unfold jsAndNot
  simp only [Nat.testBit_land]
  cases cell.walls.testBit i <;> cases (w ^^^ (2 ^ 32 - 1)).testBit i <;> rfl

theorem mazeEvolves_setVisited (m : Maze) (c : Coordinate) :
    mazeEvolves m (m.setVisited c) :=
  mazeEvolves_modifyCell m c _ cellEvolves_setVisited

theorem mazeEvolves_breakAt (m : Maze) (a b : Coordinate) (w : Nat) :
    mazeEvolves m (m.breakAt a b w) := by
  unfold Maze.breakAt
  exact mazeEvolves_trans
    (mazeEvolves_modifyCell m a _ (fun cell => cellEvolves_clearWall cell w))
    (mazeEvolves_modifyCell _ b _ (fun cell => cellEvolves_clearWall cell (oppositeWall w)))

theorem mazeEvolves_breakStepX (m : Maze) (coord next : Coordinate) :
    mazeEvolves m (breakStepX m coord next) := by
  unfold breakStepX
  split
  · exact mazeEvolves_breakAt m coord next WALL_RIGHT
  · split
    · exact mazeEvolves_breakAt m coord next WALL_LEFT
    · exact mazeEvolves_refl m

theorem mazeEvolves_breakStepY (m : Maze) (coord next : Coordinate) :
    mazeEvolves m (breakStepY m coord next) := by
  unfold breakStepY
  split
  · exact mazeEvolves_breakAt m coord next WALL_BOTTOM
  · split
    · exact mazeEvolves_breakAt m coord next WALL_TOP
    · exact mazeEvolves_refl m

theorem genLoop_evolves (rs : Nat → Nat)
    (rec : Maze → Nat → Coordinate → Option (Except JSError (Maze × Nat)))
    (hrec : ∀ m k c m2 k2, rec m k c = some (.ok (m2, k2)) → mazeEvolves m m2) :
    ∀ (lf : Nat) (m : Maze) (k : Nat) (coord : Coordinate) (adj : List Coordinate)
      {m2 : Maze} {k2 : Nat},
      genLoop rs rec lf m k coord adj = some (.ok (m2, k2)) → mazeEvolves m m2 := by
  intro lf
  induction lf with
  | zero =>
    intro m k coord adj m2 k2 h
    cases adj with
    | nil =>
      simp only [genLoop, Option.some.injEq, Except.ok.injEq, Prod.mk.injEq] at h
      obtain ⟨rfl, rfl⟩ := h
      exact mazeEvolves_refl m
    | cons a as =>
      simp only [genLoop] at h
      exact Option.noConfusion h
  | succ lf ih =>
    intro m k coord adj m2 k2 h
    cases adj with
    | nil =>
      simp only [genLoop, Option.some.injEq, Except.ok.injEq, Prod.mk.injEq] at h
      obtain ⟨rfl, rfl⟩ := h
      exact mazeEvolves_refl m
    | cons a as =>
      simp only [genLoop] at h
      set next := (a :: as).getD (rs k % (a :: as).length) a with hnd
      cases hnext : m.cellAt next with
      | none =>
        simp only [hnext] at h
        simp at h
      | some ncell =>
        simp only [hnext] at h
        set m3 := breakStepY (breakStepX m coord next) coord next with hm3
        have hev3 : mazeEvolves m m3 :=
          mazeEvolves_trans (mazeEvolves_breakStepX m coord next)
            (mazeEvolves_breakStepY (breakStepX m coord next) coord next)
        cases hr : rec m3 (k + 1) next with
        | none =>
          simp only [hr] at h
          exact Option.noConfusion h
        | some v =>
          simp only [hr] at h
          cases v with
          | error e => simp at h
          | ok p =>
            obtain ⟨m4, k4⟩ := p
            simp only at h
            have hev4 : mazeEvolves m m4 := mazeEvolves_trans hev3 (hrec _ _ _ _ _ hr)
            cases hcur : m4.cellAt coord with
            | none =>
              simp only [hcur] at h
              simp at h
            | some cur2 =>
              simp only [hcur] at h
              cases hadj2 : getUnvisitedListAux m4 cur2.adjacentCells with
              | error e =>
                simp only [hadj2] at h
                simp at h
              | ok adj2 =>
                simp only [hadj2] at h
                exact mazeEvolves_trans hev4 (ih m4 k4 coord adj2 h)

theorem generate_evolves (rs : Nat → Nat) :
    ∀ (d : Nat) (m : Maze) (k : Nat) (coord : Coordinate) {m2 : Maze} {k2 : Nat},
      Maze.generate rs d m k coord = some (.ok (m2, k2)) →
      mazeEvolves m m2 ∧ visitedAtC m2 coord := by
  intro d
  induction d with
  | zero =>
    intro m k coord m2 k2 h
    simp only [Maze.generate] at h
    exact Option.noConfusion h
  | succ d ih =>
    intro m k coord m2 k2 h
    simp only [Maze.generate, MazeCell.getUnvisitedAdjacents] at h
    cases hcur : m.cellAt coord with
    | none => simp only [hcur] at h; simp at h
    | some current =>
      simp only [hcur] at h
      cases hadj : getUnvisitedListAux (m.setVisited coord) current.adjacentCells with
      | error e => simp only [hadj] at h; simp at h
      | ok adj =>
        simp only [hadj] at h
        have hloop := genLoop_evolves rs (Maze.generate rs d)
          (fun m k c m2 k2 hh => (ih m k c hh).1) adj.length
          (m.setVisited coord) k coord adj h
        have h1 : (m.setVisited coord).cellAt coord =
            some { current with visited := true } := by
          rw [cellAt_setVisited, if_pos rfl, hcur]
          rfl
        refine ⟨mazeEvolves_trans (mazeEvolves_setVisited m coord) hloop, ?_⟩
        exact visitedAtC_mono hloop ⟨{ current with visited := true }, h1, rfl⟩

/-! ## The snapshot trace ends at the state the call returns -/

theorem genLoopStates_last (rs : Nat → Nat)
    (rec : Maze → Nat → Coordinate → Option (Except JSError (Maze × Nat)))
    (recS : Maze → Nat → Coordinate → List Maze)
    (hrec : ∀ m k c m2 k2, rec m k c = some (.ok (m2, k2)) →
      (recS m k c).getLast? = some m2) :
    ∀ (lf : Nat) (m : Maze) (k : Nat) (coord : Coordinate) (adj : List Coordinate)
      {m2 : Maze} {k2 : Nat},
      genLoop rs rec lf m k coord adj = some (.ok (m2, k2)) →
      (genLoopStates rs rec recS lf m k coord adj = [] ∧ m2 = m) ∨
      (genLoopStates rs rec recS lf m k coord adj).getLast? = some m2 := by
  intro lf
  induction lf with
  | zero =>
    intro m k coord adj m2 k2 h
    cases adj with
    | nil =>
      simp only [genLoop, Option.some.injEq, Except.ok.injEq, Prod.mk.injEq] at h
      exact Or.inl ⟨rfl, h.1.symm⟩
    | cons a as =>
      simp only [genLoop] at h
      exact Option.noConfusion h
  | succ lf ih =>
    intro m k coord adj m2 k2 h
    cases adj with
    | nil =>
      simp only [genLoop, Option.some.injEq, Except.ok.injEq, Prod.mk.injEq] at h
      exact Or.inl ⟨rfl, h.1.symm⟩
    | cons a as =>
      simp only [genLoop] at h
      simp only [genLoopStates]
      set next := (a :: as).getD (rs k % (a :: as).length) a with hnd
      cases hnext : m.cellAt next with
      | none =>
        simp only [hnext] at h
        simp at h
      | some ncell =>
        simp only [hnext] at h
        set m3 := breakStepY (breakStepX m coord next) coord next with hm3
        cases hr : rec m3 (k + 1) next with
        | none =>
          simp only [hr] at h
          exact Option.noConfusion h
        | some v =>
          simp only [hr] at h
          cases v with
          | error e => simp at h
          | ok p =>
            obtain ⟨m4, k4⟩ := p
            simp only at h
            have hlast4 : (recS m3 (k + 1) next).getLast? = some m4 := hrec _ _ _ _ _ hr
            have hne4 : recS m3 (k + 1) next ≠ [] := by
              intro hnil
              rw [hnil] at hlast4
              exact Option.noConfusion hlast4
            cases hcur : m4.cellAt coord with
            | none =>
              simp only [hcur] at h
              simp at h
            | some cur2 =>
              simp only [hcur] at h
              cases hadj2 : getUnvisitedListAux m4 cur2.adjacentCells with
              | error e =>
                simp only [hadj2] at h
                simp at h
              | ok adj2 =>
                simp only [hadj2] at h
                rcases ih m4 k4 coord adj2 h with ⟨hrest, rfl⟩ | hrest
                · apply Or.inr
                  simp only [hcur, hadj2, hrest, List.getLast?_append, List.getLast?_nil,
                    hlast4, Option.none_or, Option.or_some]
                · apply Or.inr
                  simp only [hcur, hadj2, List.getLast?_append, hrest, Option.or_some]

theorem generateStates_last (rs : Nat → Nat) :
    ∀ (d : Nat) (m : Maze) (k : Nat) (coord : Coordinate) {m2 : Maze} {k2 : Nat},
      Maze.generate rs d m k coord = some (.ok (m2, k2)) →
      (Maze.generateStates rs d m k coord).getLast? = some m2 := by
  intro d
  induction d with
  | zero =>
    intro m k coord m2 k2 h
    simp only [Maze.generate] at h
    exact Option.noConfusion h
  | succ d ih =>
    intro m k coord m2 k2 h
    simp only [Maze.generate, MazeCell.getUnvisitedAdjacents] at h
    simp only [Maze.generateStates, MazeCell.getUnvisitedAdjacents]
    cases hcur : m.cellAt coord with
    | none =>
      simp only [hcur] at h
      simp at h
    | some current =>
      simp only [hcur] at h
      cases hadj : getUnvisitedListAux (m.setVisited coord) current.adjacentCells with
      | error e =>
        simp only [hadj] at h
        simp at h
      | ok adj =>
        simp only [hadj] at h
        rcases genLoopStates_last rs (Maze.generate rs d) (Maze.generateStates rs d)
          (fun m k c m2 k2 hh => ih m k c hh) adj.length (m.setVisited coord) k coord adj h with
          ⟨hnil, rfl⟩ | hlast
        · simp only [hadj, hnil]
          rfl
        · simp only [hadj, List.getLast?_cons, hlast]
          rfl

/-! ## The snapshot trace is a chain of evolutions -/

theorem chain_glue {α : Type} {R : α → α → Prop} :
    ∀ {l1 : List α} {x y : α} {l2 : List α},
      List.Chain' R (x :: l1) → l1.getLast?.getD x = y → List.Chain' R (y :: l2) →
      List.Chain' R (x :: l1 ++ l2) := by
  intro l1
  induction l1 with
  | nil =>
    intro x y l2 _ hlast h2
    simp only [List.getLast?_nil, Option.getD_none] at hlast
    subst hlast
    exact h2
  | cons a l1 ih =>
    intro x y l2 h1 hlast h2
    rw [List.chain'_cons] at h1
    show List.Chain' R (x :: a :: (l1 ++ l2))
    rw [List.chain'_cons]
    refine ⟨h1.1, ih h1.2 ?_ h2⟩
    rw [List.getLast?_cons] at hlast
    simp only [Option.getD_some] at hlast
    exact hlast

theorem breakStepX_self {m : Maze} {coord next : Coordinate} (h : next.x = coord.x) :
    breakStepX m coord next = m := by
  unfold breakStepX
  rw [h]
  simp

theorem breakStepY_self {m : Maze} {coord next : Coordinate} (h : next.y = coord.y) :
    breakStepY m coord next = m := by
  unfold breakStepY
  rw [h]
  simp

theorem genLoopStates_chain (rs : Nat → Nat)
    (rec : Maze → Nat → Coordinate → Option (Except JSError (Maze × Nat)))
    (recS : Maze → Nat → Coordinate → List Maze)
    (hrecChain : ∀ m k c, List.Chain' mazeEvolves (m :: recS m k c))
    (hrecLast : ∀ m k c m2 k2, rec m k c = some (.ok (m2, k2)) →
      (recS m k c).getLast? = some m2) :
    ∀ (lf : Nat) (m : Maze) (k : Nat) (coord : Coordinate) (adj : List Coordinate),
      List.Chain' mazeEvolves (m :: genLoopStates rs rec recS lf m k coord adj) := by
  intro lf
  induction lf with
  | zero =>
    intro m k coord adj
    cases adj <;> simp [genLoopStates]
  | succ lf ih =>
    intro m k coord adj
    cases adj with
    | nil => simp [genLoopStates]
    | cons a as =>
      simp only [genLoopStates]
      set next := (a :: as).getD (rs k % (a :: as).length) a with hnd
      cases hnext : m.cellAt next with
      | none => simp [hnext]
      | some ncell =>
        simp only [hnext]
        set m2 := breakStepX m coord next with hm2
        set m3 := breakStepY m2 coord next with hm3
        have htail : List.Chain' mazeEvolves
            (m3 :: (recS m3 (k + 1) next ++
              (match rec m3 (k + 1) next with
               | some (.ok (m4, k2)) =>
                 match m4.cellAt coord with
                 | some cur2 =>
                   match getUnvisitedListAux m4 cur2.adjacentCells with
                   | .ok adj2 => genLoopStates rs rec recS lf m4 k2 coord adj2
                   | .error _ => []
                 | none => []
               | _ => []))) := by
          cases hr : rec m3 (k + 1) next with
          | none =>
            simp only [hr, List.append_nil]
            exact hrecChain m3 (k + 1) next
          | some v =>
            cases v with
            | error e =>
              simp only [hr, List.append_nil]
              exact hrecChain m3 (k + 1) next
            | ok p =>
              obtain ⟨m4, k4⟩ := p
              simp only [hr]
              cases hcur : m4.cellAt coord with
              | none =>
                simp only [hcur, List.append_nil]
                exact hrecChain m3 (k + 1) next
              | some cur2 =>
                simp only [hcur]
                cases hadj2 : getUnvisitedListAux m4 cur2.adjacentCells with
                | error e =>
                  simp only [hadj2, List.append_nil]
                  exact hrecChain m3 (k + 1) next
                | ok adj2 =>
                  simp only [hadj2]
                  refine chain_glue (hrecChain m3 (k + 1) next) ?_ (ih m4 k4 coord adj2)
                  rw [hrecLast _ _ _ _ _ hr]
                  rfl
        have hevm2 : mazeEvolves m m2 := by
          rw [hm2]
          exact mazeEvolves_breakStepX m coord next
        have hevm23 : mazeEvolves m2 m3 := by
          rw [hm3]
          exact mazeEvolves_breakStepY m2 coord next
        rcases eq_or_ne next.x coord.x with hx | hx
        · rcases eq_or_ne next.y coord.y with hy | hy
          · have e2 : m2 = m := hm2.trans (breakStepX_self hx)
            have e3 : m3 = m2 := hm3.trans (breakStepY_self hy)
            simp only [if_neg (not_not_intro hx), if_neg (not_not_intro hy),
              List.nil_append]
            rw [← e2, ← e3]
            exact htail
          · have e2 : m2 = m := hm2.trans (breakStepX_self hx)
            simp only [if_neg (not_not_intro hx), if_pos hy, List.nil_append,
              List.cons_append, List.append_assoc]
            refine List.chain'_cons.mpr ⟨?_, htail⟩
            rw [← e2]
            exact hevm23
        · rcases eq_or_ne next.y coord.y with hy | hy
          · have e3 : m3 = m2 := hm3.trans (breakStepY_self hy)
            simp only [if_pos hx, if_neg (not_not_intro hy), List.append_nil,
              List.cons_append, List.nil_append, List.append_assoc]
            refine List.chain'_cons.mpr ⟨hevm2, ?_⟩
            rw [← e3]
            exact htail
          · simp only [if_pos hx, if_pos hy, List.cons_append, List.nil_append,
              List.append_assoc]
            exact List.chain'_cons.mpr ⟨hevm2, List.chain'_cons.mpr ⟨hevm23, htail⟩⟩

theorem generateStates_chain (rs : Nat → Nat) :
    ∀ (d : Nat) (m : Maze) (k : Nat) (coord : Coordinate),
      List.Chain' mazeEvolves (m :: Maze.generateStates rs d m k coord) := by
  intro d
  induction d with
  | zero =>
    intro m k coord
    simp [Maze.generateStates]
  | succ d ih =>
    intro m k coord
    simp only [Maze.generateStates, MazeCell.getUnvisitedAdjacents]
    cases hcur : m.cellAt coord with
    | none => simp [hcur]
    | some current =>
      simp only [hcur]
      refine List.chain'_cons.mpr ⟨mazeEvolves_setVisited m coord, ?_⟩
      cases hadj : getUnvisitedListAux (m.setVisited coord) current.adjacentCells with
      | error e => simp [hadj]
      | ok adj =>
        simp only [hadj]
        exact genLoopStates_chain rs (Maze.generate rs d) (Maze.generateStates rs d)
          (ih) (fun m k c m2 k2 hh => generateStates_last rs d m k c hh)
          adj.length (m.setVisited coord) k coord adj

/-! ## Pointwise description of a wall break -/

theorem coordN_eq_iff (x y u v : Nat) :
    ((⟨(x : Int), (y : Int)⟩ : Coordinate) = ⟨(u : Int), (v : Int)⟩) ↔ (x = u ∧ y = v) := by
  rw [Coordinate.mk.injEq]
  omega

theorem oppositeWall_right : oppositeWall WALL_RIGHT = WALL_LEFT := by decide

theorem oppositeWall_left : oppositeWall WALL_LEFT = WALL_RIGHT := by decide

theorem oppositeWall_bottom : oppositeWall WALL_BOTTOM = WALL_TOP := by decide

theorem oppositeWall_top : oppositeWall WALL_TOP = WALL_BOTTOM := by decide

/-- After breaking the wall pair between `(x, y)` and `(x+1, y)`, the grid
reads the same everywhere except that `(x, y)` lost its right wall bit and
`(x+1, y)` its left wall bit. -/
def horizClearDesc (m m2 : Maze) (x y : Nat) : Prop :=
  ∀ u v : Nat, cellAtN m2 u v =
    if u = x ∧ v = y then
      (cellAtN m x y).map (fun c => { c with walls := jsAndNot c.walls WALL_RIGHT })
    else if u = x + 1 ∧ v = y then
      (cellAtN m (x + 1) y).map (fun c => { c with walls := jsAndNot c.walls WALL_LEFT })
    else cellAtN m u v

/-- After breaking the wall pair between `(x, y)` and `(x, y+1)`, the grid
reads the same everywhere except that `(x, y)` lost its bottom wall bit and
`(x, y+1)` its top wall bit. -/
def vertClearDesc (m m2 : Maze) (x y : Nat) : Prop :=
  ∀ u v : Nat, cellAtN m2 u v =
    if u = x ∧ v = y then
      (cellAtN m x y).map (fun c => { c with walls := jsAndNot c.walls WALL_BOTTOM })
    else if u = x ∧ v = y + 1 then
      (cellAtN m x (y + 1)).map (fun c => { c with walls := jsAndNot c.walls WALL_TOP })
    else cellAtN m u v

theorem breakAt_right_desc (m : Maze) (x y : Nat) :
    horizClearDesc m
      (m.breakAt ⟨(x : Int), (y : Int)⟩ ⟨((x + 1 : Nat) : Int), (y : Int)⟩ WALL_RIGHT) x y := by
  intro u v
  have hne : (⟨(x : Int), (y : Int)⟩ : Coordinate) ≠ ⟨((x + 1 : Nat) : Int), (y : Int)⟩ := by
    rw [Ne, coordN_eq_iff]
    omega
  show (m.breakAt _ _ _).cellAt ⟨(u : Int), (v : Int)⟩ = _
  rw [cellAt_breakAt _ _ _ _ _ hne, oppositeWall_right]
  rcases Decidable.em (u = x ∧ v = y) with h1 | h1
  · obtain ⟨rfl, rfl⟩ := h1
    rw [if_pos rfl, if_pos ⟨rfl, rfl⟩]
    rfl
  · rw [if_neg (by rw [coordN_eq_iff]; omega), if_neg h1]
    rcases Decidable.em (u = x + 1 ∧ v = y) with h2 | h2
    · obtain ⟨rfl, rfl⟩ := h2
      rw [if_pos rfl, if_pos ⟨rfl, rfl⟩]
      rfl
    · rw [if_neg (by rw [coordN_eq_iff]; omega), if_neg h2]
      rfl

theorem breakAt_left_desc (m : Maze) (x y : Nat) :
    horizClearDesc m
      (m.breakAt ⟨((x + 1 : Nat) : Int), (y : Int)⟩ ⟨(x : Int), (y : Int)⟩ WALL_LEFT) x y := by
  intro u v
  have hne : (⟨((x + 1 : Nat) : Int), (y : Int)⟩ : Coordinate) ≠ ⟨(x : Int), (y : Int)⟩ := by
    rw [Ne, coordN_eq_iff]
    omega
  show (m.breakAt _ _ _).cellAt ⟨(u : Int), (v : Int)⟩ = _
  rw [cellAt_breakAt _ _ _ _ _ hne, oppositeWall_left]
  rcases Decidable.em (u = x + 1 ∧ v = y) with h2 | h2
  · obtain ⟨rfl, rfl⟩ := h2
    rw [if_pos rfl, if_neg (by omega), if_pos ⟨rfl, rfl⟩]
    rfl
  · rw [if_neg (by rw [coordN_eq_iff]; omega)]
    rcases Decidable.em (u = x ∧ v = y) with h1 | h1
    · obtain ⟨rfl, rfl⟩ := h1
      rw [if_pos rfl, if_pos ⟨rfl, rfl⟩]
      rfl
    · rw [if_neg (by rw [coordN_eq_iff]; omega), if_neg h1, if_neg h2]
      rfl

theorem breakAt_bottom_desc (m : Maze) (x y : Nat) :
    vertClearDesc m
      (m.breakAt ⟨(x : Int), (y : Int)⟩ ⟨(x : Int), ((y + 1 : Nat) : Int)⟩ WALL_BOTTOM) x y := by
  intro u v
  have hne : (⟨(x : Int), (y : Int)⟩ : Coordinate) ≠ ⟨(x : Int), ((y + 1 : Nat) : Int)⟩ := by
    rw [Ne, coordN_eq_iff]
    omega
  show (m.breakAt _ _ _).cellAt ⟨(u : Int), (v : Int)⟩ = _
  rw [cellAt_breakAt _ _ _ _ _ hne, oppositeWall_bottom]
  rcases Decidable.em (u = x ∧ v = y) with h1 | h1
  · obtain ⟨rfl, rfl⟩ := h1
    rw [if_pos rfl, if_pos ⟨rfl, rfl⟩]
    rfl
  · rw [if_neg (by rw [coordN_eq_iff]; omega), if_neg h1]
    rcases Decidable.em (u = x ∧ v = y + 1) with h2 | h2
    · obtain ⟨rfl, rfl⟩ := h2
      rw [if_pos rfl, if_pos ⟨rfl, rfl⟩]
      rfl
    · rw [if_neg (by rw [coordN_eq_iff]; omega), if_neg h2]
      rfl

theorem breakAt_top_desc (m : Maze) (x y : Nat) :
    vertClearDesc m
      (m.breakAt ⟨(x : Int), ((y + 1 : Nat) : Int)⟩ ⟨(x : Int), (y : Int)⟩ WALL_TOP) x y := by
  intro u v
  have hne : (⟨(x : Int), ((y + 1 : Nat) : Int)⟩ : Coordinate) ≠ ⟨(x : Int), (y : Int)⟩ := by
    rw [Ne, coordN_eq_iff]
    omega
  show (m.breakAt _ _ _).cellAt ⟨(u : Int), (v : Int)⟩ = _
  rw [cellAt_breakAt _ _ _ _ _ hne, oppositeWall_top]
  rcases Decidable.em (u = x ∧ v = y + 1) with h2 | h2
  · obtain ⟨rfl, rfl⟩ := h2
    rw [if_pos rfl, if_neg (by omega), if_pos ⟨rfl, rfl⟩]
    rfl
  · rw [if_neg (by rw [coordN_eq_iff]; omega)]
    rcases Decidable.em (u = x ∧ v = y) with h1 | h1
    · obtain ⟨rfl, rfl⟩ := h1
      rw [if_pos rfl, if_pos ⟨rfl, rfl⟩]
      rfl
    · rw [if_neg (by rw [coordN_eq_iff]; omega), if_neg h1, if_neg h2]
      rfl

/-- `a & ~w` keeps exactly the bits of `a` that `w` does not have (in the
32-bit range). -/
theorem jsAndNot_testBit_small (v w i : Nat) (hi : i < 32) :
    (jsAndNot v w).testBit i = (v.testBit i && !(w.testBit i)) := by
  unfold jsAndNot
  rw [Nat.testBit_land, Nat.testBit_xor, Nat.testBit_two_pow_sub_one]
  simp [hi]

theorem jsAndNot_bit_self {v w i : Nat} (hi : i < 32) (hw : w.testBit i = true) :
    (jsAndNot v w).testBit i = false := by
  rw [jsAndNot_testBit_small v w i hi, hw]
  simp

theorem jsAndNot_bit_other {v w i : Nat} (hi : i < 32) (hw : w.testBit i = false) :
    (jsAndNot v w).testBit i = v.testBit i := by
  rw [jsAndNot_testBit_small v w i hi, hw]
  simp

/-- Read one cell back through a horizontal clear description. -/
theorem horizDesc_back {m m2 : Maze} {x y : Nat} (hd : horizClearDesc m m2 x y)
    {u v : Nat} {c2 : MazeCell} (h : cellAtN m2 u v = some c2) :
    ∃ c, cellAtN m u v = some c ∧ c2.visited = c.visited ∧ c2.x = c.x ∧ c2.y = c.y ∧
      c2.adjacentCells = c.adjacentCells ∧
      ((u = x ∧ v = y ∧ c2.walls = jsAndNot c.walls WALL_RIGHT) ∨
       (u = x + 1 ∧ v = y ∧ c2.walls = jsAndNot c.walls WALL_LEFT) ∨
       (¬(u = x ∧ v = y) ∧ ¬(u = x + 1 ∧ v = y) ∧ c2.walls = c.walls)) := by
  have hdv := hd u v
  rw [h] at hdv
  rcases Decidable.em (u = x ∧ v = y) with h1 | h1
  · obtain ⟨rfl, rfl⟩ := h1
    rw [if_pos ⟨rfl, rfl⟩] at hdv
    cases hc : cellAtN m u v with
    | none => rw [hc] at hdv; cases hdv
    | some c =>
      rw [hc] at hdv
      simp only [Option.map_some', Option.some.injEq] at hdv
      subst hdv
      exact ⟨c, rfl, rfl, rfl, rfl, rfl, Or.inl ⟨rfl, rfl, rfl⟩⟩
  · rw [if_neg h1] at hdv
    rcases Decidable.em (u = x + 1 ∧ v = y) with h2 | h2
    · obtain ⟨rfl, rfl⟩ := h2
      rw [if_pos ⟨rfl, rfl⟩] at hdv
      cases hc : cellAtN m (x + 1) v with
      | none => rw [hc] at hdv; cases hdv
      | some c =>
        rw [hc] at hdv
        simp only [Option.map_some', Option.some.injEq] at hdv
        subst hdv
        exact ⟨c, rfl, rfl, rfl, rfl, rfl, Or.inr (Or.inl ⟨rfl, rfl, rfl⟩)⟩
    · rw [if_neg h2] at hdv
      exact ⟨c2, hdv ▸ rfl, rfl, rfl, rfl, rfl, Or.inr (Or.inr ⟨h1, h2, rfl⟩)⟩

/-- Read one cell back through a vertical clear description. -/
theorem vertDesc_back {m m2 : Maze} {x y : Nat} (hd : vertClearDesc m m2 x y)
    {u v : Nat} {c2 : MazeCell} (h : cellAtN m2 u v = some c2) :
    ∃ c, cellAtN m u v = some c ∧ c2.visited = c.visited ∧ c2.x = c.x ∧ c2.y = c.y ∧
      c2.adjacentCells = c.adjacentCells ∧
      ((u = x ∧ v = y ∧ c2.walls = jsAndNot c.walls WALL_BOTTOM) ∨
       (u = x ∧ v = y + 1 ∧ c2.walls = jsAndNot c.walls WALL_TOP) ∨
       (¬(u = x ∧ v = y) ∧ ¬(u = x ∧ v = y + 1) ∧ c2.walls = c.walls)) := by
  have hdv := hd u v
  rw [h] at hdv
  rcases Decidable.em (u = x ∧ v = y) with h1 | h1
  · obtain ⟨rfl, rfl⟩ := h1
    rw [if_pos ⟨rfl, rfl⟩] at hdv
    cases hc : cellAtN m u v with
    | none => rw [hc] at hdv; cases hdv
    | some c =>
      rw [hc] at hdv
      simp only [Option.map_some', Option.some.injEq] at hdv
      subst hdv
      exact ⟨c, rfl, rfl, rfl, rfl, rfl, Or.inl ⟨rfl, rfl, rfl⟩⟩
  · rw [if_neg h1] at hdv
    rcases Decidable.em (u = x ∧ v = y + 1) with h2 | h2
    · obtain ⟨rfl, rfl⟩ := h2
      rw [if_pos ⟨rfl, rfl⟩] at hdv
      cases hc : cellAtN m u (y + 1) with
      | none => rw [hc] at hdv; cases hdv
      | some c =>
        rw [hc] at hdv
        simp only [Option.map_some', Option.some.injEq] at hdv
        subst hdv
        exact ⟨c, rfl, rfl, rfl, rfl, rfl, Or.inr (Or.inl ⟨rfl, rfl, rfl⟩)⟩
    · rw [if_neg h2] at hdv
      exact ⟨c2, hdv ▸ rfl, rfl, rfl, rfl, rfl, Or.inr (Or.inr ⟨h1, h2, rfl⟩)⟩

theorem WallSym_horizClear {m m2 : Maze} {x y : Nat} (hd : horizClearDesc m m2 x y)
    (hs : WallSym m) : WallSym m2 := by
  constructor
  · intro u v a2 b2 ha2 hb2
    obtain ⟨a, ha, -, -, -, -, hwa⟩ := horizDesc_back hd ha2
    obtain ⟨b, hb, -, -, -, -, hwb⟩ := horizDesc_back hd hb2
    have hsym := hs.1 u v a b ha hb
    rcases hwa with ⟨hax, hay, hwa⟩ | ⟨hax, hay, hwa⟩ | ⟨hn1, hn2, hwa⟩
    · rcases hwb with ⟨hbx, hby, hwb⟩ | ⟨hbx, hby, hwb⟩ | ⟨hm1, hm2, hwb⟩
      · omega
      · rw [hwa, hwb, jsAndNot_bit_self (by omega) (by decide),
          jsAndNot_bit_self (by omega) (by decide)]
      · omega
    · rcases hwb with ⟨hbx, hby, hwb⟩ | ⟨hbx, hby, hwb⟩ | ⟨hm1, hm2, hwb⟩
      · omega
      · omega
      · rw [hwa, hwb, jsAndNot_bit_other (by omega) (by decide)]
        exact hsym
    · rcases hwb with ⟨hbx, hby, hwb⟩ | ⟨hbx, hby, hwb⟩ | ⟨hm1, hm2, hwb⟩
      · rw [hwa, hwb, jsAndNot_bit_other (by omega) (by decide)]
        exact hsym
      · omega
      · rw [hwa, hwb]
        exact hsym
  · intro u v a2 b2 ha2 hb2
    obtain ⟨a, ha, -, -, -, -, hwa⟩ := horizDesc_back hd ha2
    obtain ⟨b, hb, -, -, -, -, hwb⟩ := horizDesc_back hd hb2
    have hsym := hs.2 u v a b ha hb
    have ea : a2.walls.testBit 1 = a.walls.testBit 1 := by
      rcases hwa with ⟨-, -, hwa⟩ | ⟨-, -, hwa⟩ | ⟨-, -, hwa⟩ <;>
        rw [hwa] <;> first
          | rw [jsAndNot_bit_other (by omega) (by decide)]
          | rfl
    have eb : b2.walls.testBit 3 = b.walls.testBit 3 := by
      rcases hwb with ⟨-, -, hwb⟩ | ⟨-, -, hwb⟩ | ⟨-, -, hwb⟩ <;>
        rw [hwb] <;> first
          | rw [jsAndNot_bit_other (by omega) (by decide)]
          | rfl
    rw [ea, eb]
    exact hsym

theorem WallSym_vertClear {m m2 : Maze} {x y : Nat} (hd : vertClearDesc m m2 x y)
    (hs : WallSym m) : WallSym m2 := by
  constructor
  · intro u v a2 b2 ha2 hb2
    obtain ⟨a, ha, -, -, -, -, hwa⟩ := vertDesc_back hd ha2
    obtain ⟨b, hb, -, -, -, -, hwb⟩ := vertDesc_back hd hb2
    have hsym := hs.1 u v a b ha hb
    have ea : a2.walls.testBit 2 = a.walls.testBit 2 := by
      rcases hwa with ⟨-, -, hwa⟩ | ⟨-, -, hwa⟩ | ⟨-, -, hwa⟩ <;>
        rw [hwa] <;> first
          | rw [jsAndNot_bit_other (by omega) (by decide)]
          | rfl
    have eb : b2.walls.testBit 0 = b.walls.testBit 0 := by
      rcases hwb with ⟨-, -, hwb⟩ | ⟨-, -, hwb⟩ | ⟨-, -, hwb⟩ <;>
        rw [hwb] <;> first
          | rw [jsAndNot_bit_other (by omega) (by decide)]
          | rfl
    rw [ea, eb]
    exact hsym
  · intro u v a2 b2 ha2 hb2
    obtain ⟨a, ha, -, -, -, -, hwa⟩ := vertDesc_back hd ha2
    obtain ⟨b, hb, -, -, -, -, hwb⟩ := vertDesc_back hd hb2
    have hsym := hs.2 u v a b ha hb
    rcases hwa with ⟨hax, hay, hwa⟩ | ⟨hax, hay, hwa⟩ | ⟨hn1, hn2, hwa⟩
    · rcases hwb with ⟨hbx, hby, hwb⟩ | ⟨hbx, hby, hwb⟩ | ⟨hm1, hm2, hwb⟩
      · omega
      · rw [hwa, hwb, jsAndNot_bit_self (by omega) (by decide),
          jsAndNot_bit_self (by omega) (by decide)]
      · omega
    · rcases hwb with ⟨hbx, hby, hwb⟩ | ⟨hbx, hby, hwb⟩ | ⟨hm1, hm2, hwb⟩
      · omega
      · omega
      · rw [hwa, hwb, jsAndNot_bit_other (by omega) (by decide)]
        exact hsym
    · rcases hwb with ⟨hbx, hby, hwb⟩ | ⟨hbx, hby, hwb⟩ | ⟨hm1, hm2, hwb⟩
      · rw [hwa, hwb, jsAndNot_bit_other (by omega) (by decide)]
        exact hsym
      · omega
      · rw [hwa, hwb]
        exact hsym

/-- The walls are unchanged pointwise, so symmetry transfers. -/
theorem WallSym_of_walls_eq {m m2 : Maze}
    (hw : ∀ u v : Nat, (cellAtN m2 u v).map MazeCell.walls = (cellAtN m u v).map MazeCell.walls)
    (hs : WallSym m) : WallSym m2 := by
  constructor
  · intro u v a2 b2 ha2 hb2
    have h1 := hw u v
    have h2 := hw (u + 1) v
    rw [ha2] at h1
    rw [hb2] at h2
    cases hc1 : cellAtN m u v with
    | none => rw [hc1] at h1; cases h1
    | some a =>
      cases hc2 : cellAtN m (u + 1) v with
      | none => rw [hc2] at h2; cases h2
      | some b =>
        rw [hc1] at h1
        rw [hc2] at h2
        simp only [Option.map_some', Option.some.injEq] at h1 h2
        rw [h1, h2]
        exact hs.1 u v a b hc1 hc2
  · intro u v a2 b2 ha2 hb2
    have h1 := hw u v
    have h2 := hw u (v + 1)
    rw [ha2] at h1
    rw [hb2] at h2
    cases hc1 : cellAtN m u v with
    | none => rw [hc1] at h1; cases h1
    | some a =>
      cases hc2 : cellAtN m u (v + 1) with
      | none => rw [hc2] at h2; cases h2
      | some b =>
        rw [hc1] at h1
        rw [hc2] at h2
        simp only [Option.map_some', Option.some.injEq] at h1 h2
        rw [h1, h2]
        exact hs.2 u v a b hc1 hc2

theorem setVisited_walls_eq (m : Maze) (c : Coordinate) :
    ∀ u v : Nat, (cellAtN (m.setVisited c) u v).map MazeCell.walls =
      (cellAtN m u v).map MazeCell.walls := by
  intro u v
  show ((m.setVisited c).cellAt ⟨(u : Int), (v : Int)⟩).map MazeCell.walls = _
  rw [cellAt_setVisited]
  split
  · rename_i heq
    unfold cellAtN
    rw [← heq]
    cases m.cellAt c <;> rfl
  · rfl

theorem WallSym_setVisited {m : Maze} (c : Coordinate) (hs : WallSym m) :
    WallSym (m.setVisited c) :=
  WallSym_of_walls_eq (setVisited_walls_eq m c) hs

/-! ## Well-formedness is preserved; unvisited-list characterisations -/

theorem WF_evolves {m m2 : Maze} (h : mazeEvolves m m2) (hwf : WF m) : WF m2 := by
  obtain ⟨hW, hH, hlen, hrows⟩ := h
  obtain ⟨hL, hRow, hCells⟩ := hwf
  refine ⟨by rw [hlen, hL, hH], ?_, ?_⟩
  · intro row2 hrow2
    obtain ⟨j, hj⟩ := List.mem_iff_getElem?.mp hrow2
    have hjlt : j < m.cells.length := by
      rw [← hlen]
      exact (List.getElem?_eq_some_iff.mp hj).1
    obtain ⟨row, hrow⟩ : ∃ row, m.cells[j]? = some row :=
      ⟨m.cells[j], List.getElem?_eq_getElem hjlt⟩
    have := (hrows j row row2 hrow hj).1
    rw [this, hW]
    exact hRow row (List.getElem?_mem hrow)
  · intro x y c2 hc2
    obtain ⟨c, hc, hev⟩ :=
      mazeEvolves_cellAt_rev ⟨hW, hH, hlen, hrows⟩ (c := ⟨(x : Int), (y : Int)⟩) hc2
    obtain ⟨hfx, hfy, hfadj⟩ := hCells x y c hc
    exact ⟨hev.1.symm ▸ hfx, hev.2.1.symm ▸ hfy, by rw [hev.2.2.1, hfadj, hW, hH]⟩

theorem getUnvisited_mem_elim {m : Maze} : ∀ {l r : List Coordinate},
    getUnvisitedListAux m l = .ok r → ∀ c2 ∈ r,
    ∃ c0 ∈ l, ∃ cell, m.cellAt c0 = some cell ∧ cell.visited = false ∧
      c2 = ⟨cell.x, cell.y⟩ := by
  intro l
  induction l with
  | nil =>
    intro r h c2 hc2
    simp only [getUnvisitedListAux, Except.ok.injEq] at h
    rw [← h] at hc2
    cases hc2
  | cons c0 rest ih =>
    intro r h c2 hc2
    simp only [getUnvisitedListAux] at h
    cases hc : m.cellAt c0 with
    | none => rw [hc] at h; cases h
    | some cell =>
      rw [hc] at h
      cases hrec : getUnvisitedListAux m rest with
      | error e => rw [hrec] at h; cases h
      | ok l2 =>
        rw [hrec] at h
        simp only [Except.ok.injEq] at h
        cases hvis : cell.visited with
        | true =>
          rw [hvis, if_pos rfl] at h
          subst h
          obtain ⟨c0x, hc0x, cellx, hcx, hvx, hex⟩ := ih hrec c2 hc2
          exact ⟨c0x, List.mem_cons_of_mem c0 hc0x, cellx, hcx, hvx, hex⟩
        | false =>
          rw [hvis] at h
          simp only [Bool.false_eq_true, if_false] at h
          subst h
          rcases List.mem_cons.mp hc2 with rfl | hc2t
          · exact ⟨c0, List.mem_cons_self c0 rest, cell, hc, hvis, rfl⟩
          · obtain ⟨c0x, hc0x, cellx, hcx, hvx, hex⟩ := ih hrec c2 hc2t
            exact ⟨c0x, List.mem_cons_of_mem c0 hc0x, cellx, hcx, hvx, hex⟩

theorem getUnvisited_nil_elim {m : Maze} : ∀ {l : List Coordinate},
    getUnvisitedListAux m l = .ok [] → ∀ c0 ∈ l,
    ∃ cell, m.cellAt c0 = some cell ∧ cell.visited = true := by
  intro l
  induction l with
  | nil =>
    intro _ c0 hc0
    cases hc0
  | cons c1 rest ih =>
    intro h c0 hc0
    simp only [getUnvisitedListAux] at h
    cases hc : m.cellAt c1 with
    | none => rw [hc] at h; cases h
    | some cell =>
      rw [hc] at h
      cases hrec : getUnvisitedListAux m rest with
      | error e => rw [hrec] at h; cases h
      | ok l2 =>
        rw [hrec] at h
        simp only [Except.ok.injEq] at h
        cases hvis : cell.visited with
        | true =>
          rw [hvis, if_pos rfl] at h
          subst h
          rcases List.mem_cons.mp hc0 with rfl | hc0t
          · exact ⟨cell, hc, hvis⟩
          · exact ih hrec c0 hc0t
        | false =>
          rw [hvis] at h
          simp only [Bool.false_eq_true, if_false] at h
          cases h
  
theorem getUnvisited_total {m : Maze} : ∀ {l : List Coordinate},
    (∀ c0 ∈ l, ∃ cell, m.cellAt c0 = some cell) →
    ∃ r, getUnvisitedListAux m l = .ok r := by
  intro l
  induction l with
  | nil => exact fun _ => ⟨[], rfl⟩
  | cons c0 rest ih =>
    intro hall
    obtain ⟨cell, hc⟩ := hall c0 (List.mem_cons_self c0 rest)
    obtain ⟨r, hr⟩ := ih (fun c hcr => hall c (List.mem_cons_of_mem c0 hcr))
    refine ⟨if cell.visited then r else ⟨cell.x, cell.y⟩ :: r, ?_⟩
    simp only [getUnvisitedListAux, hc, hr]

theorem getUnvisited_sublist {m m2 : Maze} (hev : mazeEvolves m m2) : ∀ {l r : List Coordinate},
    getUnvisitedListAux m l = .ok r →
    ∃ r2, getUnvisitedListAux m2 l = .ok r2 ∧ r2.Sublist r := by
  intro l
  induction l with
  | nil =>
    intro r h
    simp only [getUnvisitedListAux, Except.ok.injEq] at h
    exact ⟨[], rfl, h ▸ List.Sublist.refl []⟩
  | cons c0 rest ih =>
    intro r h
    simp only [getUnvisitedListAux] at h ⊢
    cases hc : m.cellAt c0 with
    | none => rw [hc] at h; cases h
    | some cell =>
      rw [hc] at h
      obtain ⟨cell2, hc2, hcev⟩ := mazeEvolves_cellAt hev hc
      cases hrec : getUnvisitedListAux m rest with
      | error e => rw [hrec] at h; cases h
      | ok l2 =>
        rw [hrec] at h
        simp only [Except.ok.injEq] at h
        obtain ⟨r2, hr2, hsub⟩ := ih hrec
        simp only [hc2, hr2]
        cases hvis : cell.visited with
        | true =>
          rw [hvis, if_pos rfl] at h
          subst h
          rw [hcev.2.2.2.1 hvis]
          simp only [if_pos rfl]
          exact ⟨r2, rfl, hsub⟩
        | false =>
          rw [hvis] at h
          simp only [Bool.false_eq_true, if_false] at h
          subst h
          cases hvis2 : cell2.visited with
          | true =>
            simp only [hvis2, if_pos rfl]
            exact ⟨r2, rfl, List.Sublist.cons _ hsub⟩
          | false =>
            simp only [hvis2, Bool.false_eq_true, if_false]
            refine ⟨⟨cell2.x, cell2.y⟩ :: r2, rfl, ?_⟩
            rw [hcev.1, hcev.2.1]
            exact List.Sublist.cons₂ _ hsub

theorem cons_getD_mem (a : Coordinate) (as : List Coordinate) (i : Nat) :
    (a :: as).getD i a ∈ a :: as := by
  rw [List.getD_eq_getElem?_getD]
  cases hl : (a :: as)[i]? with
  | none => simp [hl]
  | some b =>
    simp only [hl, Option.getD_some]
    exact List.getElem?_mem hl

theorem coord_eta_toNat {c : Coordinate} (hx : 0 ≤ c.x) (hy : 0 ≤ c.y) :
    c = ⟨(c.x.toNat : Int), (c.y.toNat : Int)⟩ := by
  obtain ⟨a, b⟩ := c
  simp only at hx hy
  rw [Coordinate.mk.injEq]
  constructor
  · rw [Int.toNat_of_nonneg hx]
  · rw [Int.toNat_of_nonneg hy]

/-- In a well-formed grid, every coordinate the unvisited-adjacents call
returns is itself one of the precomputed (orthogonal, in-bounds) neighbour
coordinates, and its cell exists and is unvisited. -/
theorem adj_mem_resetAdjacents {m : Maze} (hwf : WF m) {coord : Coordinate} {cur : MazeCell}
    (hcur : m.cellAt coord = some cur) {adj : List Coordinate}
    (hadj : getUnvisitedListAux m cur.adjacentCells = .ok adj) :
    ∀ c ∈ adj, c ∈ resetAdjacents m.width m.height coord.x.toNat coord.y.toNat ∧
      ∃ cell, m.cellAt c = some cell ∧ cell.visited = false := by
  intro c hc
  obtain ⟨hx0, hy0, -⟩ := cellAt_some_elim hcur
  obtain ⟨c0, hc0mem, cell, hcell, hvis, rfl⟩ := getUnvisited_mem_elim hadj c hc
  have hcurN : cellAtN m coord.x.toNat coord.y.toNat = some cur := by
    rw [← cellAt_nonneg m coord hx0 hy0]
    exact hcur
  have hfields := hwf.2.2 coord.x.toNat coord.y.toNat cur hcurN
  have hc0adj : c0 ∈ resetAdjacents m.width m.height coord.x.toNat coord.y.toNat := by
    rw [← hfields.2.2]
    exact hc0mem
  obtain ⟨hcx0, hcy0, -⟩ := cellAt_some_elim hcell
  have hcellN : cellAtN m c0.x.toNat c0.y.toNat = some cell := by
    rw [← cellAt_nonneg m c0 hcx0 hcy0]
    exact hcell
  have hf2 := hwf.2.2 c0.x.toNat c0.y.toNat cell hcellN
  have heq : (⟨cell.x, cell.y⟩ : Coordinate) = c0 := by
    rw [Coordinate.mk.injEq, hf2.1, hf2.2.1, Int.toNat_of_nonneg hcx0,
      Int.toNat_of_nonneg hcy0]
    exact ⟨rfl, rfl⟩
  rw [heq]
  exact ⟨hc0adj, cell, hcell, hvis⟩

/-- One loop iteration breaks exactly one geometric wall pair: whichever of
the four neighbour positions `next` occupies, the two `if/else if` blocks
perform one `breakCellWalls` whose effect is a horizontal or vertical clear
description at an in-bounds edge, with `next` one of its two endpoints. -/
theorem breakSteps_cases {m : Maze} {coord next : Coordinate} {cx cy : Nat}
    (hcoord : coord = ⟨(cx : Int), (cy : Int)⟩)
    (hmem : next ∈ resetAdjacents m.width m.height cx cy)
    (hcx : cx < m.width) (hcy : cy < m.height) :
    (∃ x y : Nat, x + 1 < m.width ∧ y < m.height ∧
       horizClearDesc m (breakStepY (breakStepX m coord next) coord next) x y ∧
       ((x = cx ∧ y = cy ∧ next = ⟨(x : Int) + 1, (y : Int)⟩) ∨
        (x + 1 = cx ∧ y = cy ∧ next = ⟨(x : Int), (y : Int)⟩))) ∨
    (∃ x y : Nat, x < m.width ∧ y + 1 < m.height ∧
       vertClearDesc m (breakStepY (breakStepX m coord next) coord next) x y ∧
       ((x = cx ∧ y = cy ∧ next = ⟨(x : Int), (y : Int) + 1⟩) ∨
        (x = cx ∧ y + 1 = cy ∧ next = ⟨(x : Int), (y : Int)⟩))) := by
  subst hcoord
  rcases (mem_resetAdjacents m.width m.height cx cy next).mp hmem with
    ⟨hb, rfl⟩ | ⟨hb, rfl⟩ | ⟨hb, rfl⟩ | ⟨hb, rfl⟩
  · -- left neighbour ⟨cx - 1, cy⟩
    have hstepx : breakStepX m ⟨(cx : Int), (cy : Int)⟩ ⟨(cx : Int) - 1, (cy : Int)⟩ =
        m.breakAt ⟨(cx : Int), (cy : Int)⟩ ⟨(cx : Int) - 1, (cy : Int)⟩ WALL_LEFT := by
      unfold breakStepX
      rw [if_neg (show ¬((cx : Int) - 1 > (cx : Int)) by omega),
        if_pos (show (cx : Int) - 1 < (cx : Int) by omega)]
    have hstepy : ∀ mm : Maze,
        breakStepY mm ⟨(cx : Int), (cy : Int)⟩ ⟨(cx : Int) - 1, (cy : Int)⟩ = mm := by
      intro mm
      exact breakStepY_self rfl
    have e1 : ((cx - 1 + 1 : Nat) : Int) = (cx : Int) := by omega
    have e2 : ((cx - 1 : Nat) : Int) = (cx : Int) - 1 := by omega
    have hd := breakAt_left_desc m (cx - 1) cy
    rw [e1, e2] at hd
    refine Or.inl ⟨cx - 1, cy, by omega, hcy, ?_, Or.inr ⟨by omega, rfl, ?_⟩⟩
    · rw [hstepy, hstepx]
      exact hd
    · rw [Coordinate.mk.injEq]
      exact ⟨by omega, rfl⟩
  · -- right neighbour ⟨cx + 1, cy⟩
    have hstepx : breakStepX m ⟨(cx : Int), (cy : Int)⟩ ⟨(cx : Int) + 1, (cy : Int)⟩ =
        m.breakAt ⟨(cx : Int), (cy : Int)⟩ ⟨(cx : Int) + 1, (cy : Int)⟩ WALL_RIGHT := by
      unfold breakStepX
      rw [if_pos (show (cx : Int) + 1 > (cx : Int) by omega)]
    have hstepy : ∀ mm : Maze,
        breakStepY mm ⟨(cx : Int), (cy : Int)⟩ ⟨(cx : Int) + 1, (cy : Int)⟩ = mm := by
      intro mm
      exact breakStepY_self rfl
    have e1 : ((cx + 1 : Nat) : Int) = (cx : Int) + 1 := by omega
    have hd := breakAt_right_desc m cx cy
    rw [e1] at hd
    refine Or.inl ⟨cx, cy, hb, hcy, ?_, Or.inl ⟨rfl, rfl, rfl⟩⟩
    rw [hstepy, hstepx]
    exact hd
  · -- top neighbour ⟨cx, cy - 1⟩
    have hstepx : breakStepX m ⟨(cx : Int), (cy : Int)⟩ ⟨(cx : Int), (cy : Int) - 1⟩ = m :=
      breakStepX_self rfl
    have hstepy : breakStepY m ⟨(cx : Int), (cy : Int)⟩ ⟨(cx : Int), (cy : Int) - 1⟩ =
        m.breakAt ⟨(cx : Int), (cy : Int)⟩ ⟨(cx : Int), (cy : Int) - 1⟩ WALL_TOP := by
      unfold breakStepY
      rw [if_neg (show ¬((cy : Int) - 1 > (cy : Int)) by omega),
        if_pos (show (cy : Int) - 1 < (cy : Int) by omega)]
    have e1 : ((cy - 1 + 1 : Nat) : Int) = (cy : Int) := by omega
    have e2 : ((cy - 1 : Nat) : Int) = (cy : Int) - 1 := by omega
    have hd := breakAt_top_desc m cx (cy - 1)
    rw [e1, e2] at hd
    refine Or.inr ⟨cx, cy - 1, hcx, by omega, ?_, Or.inr ⟨rfl, by omega, ?_⟩⟩
    · rw [hstepx, hstepy]
      exact hd
    · rw [Coordinate.mk.injEq]
      exact ⟨rfl, by omega⟩
  · -- bottom neighbour ⟨cx, cy + 1⟩
    have hstepx : breakStepX m ⟨(cx : Int), (cy : Int)⟩ ⟨(cx : Int), (cy : Int) + 1⟩ = m :=
      breakStepX_self rfl
    have hstepy : breakStepY m ⟨(cx : Int), (cy : Int)⟩ ⟨(cx : Int), (cy : Int) + 1⟩ =
        m.breakAt ⟨(cx : Int), (cy : Int)⟩ ⟨(cx : Int), (cy : Int) + 1⟩ WALL_BOTTOM := by
      unfold breakStepY
      rw [if_pos (show (cy : Int) + 1 > (cy : Int) by omega)]
    have e1 : ((cy + 1 : Nat) : Int) = (cy : Int) + 1 := by omega
    have hd := breakAt_bottom_desc m cx cy
    rw [e1] at hd
    refine Or.inr ⟨cx, cy, hcx, hb, ?_, Or.inl ⟨rfl, rfl, rfl⟩⟩
    rw [hstepx, hstepy]
    exact hd

theorem resetAdjacents_xy {w h cx cy : Nat} {next : Coordinate}
    (hmem : next ∈ resetAdjacents w h cx cy) :
    (next.x ≠ (cx : Int) → next.y = (cy : Int)) ∧
    (next.y ≠ (cy : Int) → next.x = (cx : Int)) := by
  rcases (mem_resetAdjacents w h cx cy next).mp hmem with
    ⟨hb, rfl⟩ | ⟨hb, rfl⟩ | ⟨hb, rfl⟩ | ⟨hb, rfl⟩ <;>
    constructor <;> intro hne <;> first
      | rfl
      | exact absurd rfl hne
      | (exfalso; apply hne; show _ = _; omega)

theorem cellAtN_lt_of_WF {m : Maze} (hwf : WF m) {x y : Nat} {c : MazeCell}
    (h : cellAtN m x y = some c) : x < m.width ∧ y < m.height := by
  obtain ⟨-, -, row, hrow, hcell⟩ := cellAt_some_elim h
  simp only [Int.toNat_ofNat] at hrow hcell
  constructor
  · have := hwf.2.1 row (List.getElem?_mem hrow)
    rw [← this]
    exact (List.getElem?_eq_some_iff.mp hcell).1
  · rw [← hwf.1]
    exact (List.getElem?_eq_some_iff.mp hrow).1

theorem genLoopStates_sym (rs : Nat → Nat)
    (rec : Maze → Nat → Coordinate → Option (Except JSError (Maze × Nat)))
    (recS : Maze → Nat → Coordinate → List Maze)
    (hrecSym : ∀ m k c, WF m → WallSym m → ∀ s ∈ recS m k c, WallSym s)
    (hrecLast : ∀ m k c m2 k2, rec m k c = some (.ok (m2, k2)) →
      (recS m k c).getLast? = some m2)
    (hrecEv : ∀ m k c m2 k2, rec m k c = some (.ok (m2, k2)) → mazeEvolves m m2) :
    ∀ (lf : Nat) (m : Maze) (k : Nat) (coord : Coordinate) (adj : List Coordinate),
      WF m → WallSym m →
      (∃ cur, m.cellAt coord = some cur ∧
        getUnvisitedListAux m cur.adjacentCells = .ok adj) →
      ∀ s ∈ genLoopStates rs rec recS lf m k coord adj, WallSym s := by
  intro lf
  induction lf with
  | zero =>
    intro m k coord adj _ _ _ s hs
    cases adj with
    | nil => simp [genLoopStates] at hs
    | cons a as => simp [genLoopStates] at hs
  | succ lf ih =>
    intro m k coord adj hwf hsym hadjc s hs
    cases adj with
    | nil => simp [genLoopStates] at hs
    | cons a as =>
      obtain ⟨cur, hcur, hadj⟩ := hadjc
      simp only [genLoopStates] at hs
      set next := (a :: as).getD (rs k % (a :: as).length) a with hnd
      have hnextmem : next ∈ a :: as := cons_getD_mem a as (rs k % (a :: as).length)
      obtain ⟨hx0, hy0, -⟩ := cellAt_some_elim hcur
      have hreset := adj_mem_resetAdjacents hwf hcur hadj next hnextmem
      have hcoord : coord = ⟨(coord.x.toNat : Int), (coord.y.toNat : Int)⟩ :=
        coord_eta_toNat hx0 hy0
      have hcurN : cellAtN m coord.x.toNat coord.y.toNat = some cur := by
        rw [← cellAt_nonneg m coord hx0 hy0]
        exact hcur
      obtain ⟨hcx, hcy⟩ := cellAtN_lt_of_WF hwf hcurN
      cases hnext : m.cellAt next with
      | none => simp only [hnext] at hs; cases hs
      | some ncell =>
        simp only [hnext] at hs
        set m2 := breakStepX m coord next with hm2
        set m3 := breakStepY m2 coord next with hm3
        have hm3e : m3 = breakStepY (breakStepX m coord next) coord next := hm3
        have hsym3 : WallSym m3 := by
          rcases breakSteps_cases hcoord hreset.1 hcx hcy with
            ⟨x, y, -, -, hd, -⟩ | ⟨x, y, -, -, hd, -⟩
          · rw [hm3e]
            exact WallSym_horizClear hd hsym
          · rw [hm3e]
            exact WallSym_vertClear hd hsym
        have hev3 : mazeEvolves m m3 := by
          rw [hm3e]
          exact mazeEvolves_trans (mazeEvolves_breakStepX m coord next)
            (mazeEvolves_breakStepY (breakStepX m coord next) coord next)
        have hwf3 : WF m3 := WF_evolves hev3 hwf
        rcases List.mem_append.mp hs with hs1 | hsr
        · rcases List.mem_append.mp hs1 with hsxy | hsn
          · rcases List.mem_append.mp hsxy with hsx | hsy
            · -- snapshot after the x break
              rcases Decidable.em (next.x ≠ coord.x) with hxne | hxne
              · rw [if_pos hxne] at hsx
                simp only [List.mem_singleton] at hsx
                subst hsx
                -- the y break is the identity here, so the snapshot is m3
                have hyeq : next.y = coord.y := by
                  have := (resetAdjacents_xy hreset.1).1
                  rw [hcoord]
                  exact this (by rw [hcoord] at hxne; exact hxne)
                have : m3 = m2 := hm3.trans (breakStepY_self hyeq)
                rw [← this]
                exact hsym3
              · rw [if_neg hxne] at hsx
                cases hsx
            · rcases Decidable.em (next.y ≠ coord.y) with hyne | hyne
              · rw [if_pos hyne] at hsy
                simp only [List.mem_singleton] at hsy
                subst hsy
                exact hsym3
              · rw [if_neg hyne] at hsy
                cases hsy
          · exact hrecSym m3 (k + 1) next hwf3 hsym3 s hsn
        · cases hr : rec m3 (k + 1) next with
            | none => simp only [hr] at hsr; cases hsr
            | some v =>
              cases v with
              | error e => simp only [hr] at hsr; cases hsr
              | ok p =>
                obtain ⟨m4, k4⟩ := p
                simp only [hr] at hsr
                have hlast4 := hrecLast _ _ _ _ _ hr
                have hsym4 : WallSym m4 :=
                  hrecSym m3 (k + 1) next hwf3 hsym3 m4 (List.mem_of_getLast?_eq_some hlast4)
                have hwf4 : WF m4 := WF_evolves (hrecEv _ _ _ _ _ hr) hwf3
                cases hcur2 : m4.cellAt coord with
                | none => simp only [hcur2] at hsr; cases hsr
                | some cur2 =>
                  simp only [hcur2] at hsr
                  cases hadj2 : getUnvisitedListAux m4 cur2.adjacentCells with
                  | error e => simp only [hadj2] at hsr; cases hsr
                  | ok adj2 =>
                    simp only [hadj2] at hsr
                    exact ih m4 k4 coord adj2 hwf4 hsym4 ⟨cur2, hcur2, hadj2⟩ s hsr

theorem generateStates_sym (rs : Nat → Nat) :
    ∀ (d : Nat) (m : Maze) (k : Nat) (coord : Coordinate), WF m → WallSym m →
      ∀ s ∈ Maze.generateStates rs d m k coord, WallSym s := by
  intro d
  induction d with
  | zero =>
    intro m k coord _ _ s hs
    simp [Maze.generateStates] at hs
  | succ d ih =>
    intro m k coord hwf hsym s hs
    simp only [Maze.generateStates, MazeCell.getUnvisitedAdjacents] at hs
    cases hcur : m.cellAt coord with
    | none => simp only [hcur] at hs; cases hs
    | some current =>
      simp only [hcur] at hs
      have hsym1 : WallSym (m.setVisited coord) := WallSym_setVisited coord hsym
      have hwf1 : WF (m.setVisited coord) :=
        WF_evolves (mazeEvolves_setVisited m coord) hwf
      rcases List.mem_cons.mp hs with rfl | hs2
      · exact hsym1
      · cases hadj : getUnvisitedListAux (m.setVisited coord) current.adjacentCells with
        | error e => rw [hadj] at hs2; cases hs2
        | ok adj =>
          rw [hadj] at hs2
          have hcur1 : (m.setVisited coord).cellAt coord =
              some { current with visited := true } := by
            rw [cellAt_setVisited, if_pos rfl, hcur]
            rfl
          refine genLoopStates_sym rs (Maze.generate rs d) (Maze.generateStates rs d)
            (fun m k c hw hsy => ih m k c hw hsy)
            (fun m k c m2 k2 hh => generateStates_last rs d m k c hh)
            (fun m k c m2 k2 hh => (generate_evolves rs d m k c hh).1)
            adj.length (m.setVisited coord) k coord adj hwf1 hsym1
            ⟨{ current with visited := true }, hcur1, hadj⟩ s hs2

/-! ## Counting broken pairs and unvisited cells -/

theorem WALL_TOP_testBit (i : Nat) : WALL_TOP.testBit i = decide (3 = i) := by
  have h : WALL_TOP = 2 ^ 3 := by decide
  rw [h, Nat.testBit_two_pow]

theorem WALL_RIGHT_testBit (i : Nat) : WALL_RIGHT.testBit i = decide (2 = i) := by
  have h : WALL_RIGHT = 2 ^ 2 := by decide
  rw [h, Nat.testBit_two_pow]

theorem WALL_BOTTOM_testBit (i : Nat) : WALL_BOTTOM.testBit i = decide (1 = i) := by
  have h : WALL_BOTTOM = 2 ^ 1 := by decide
  rw [h, Nat.testBit_two_pow]

theorem WALL_LEFT_testBit (i : Nat) : WALL_LEFT.testBit i = decide (0 = i) := by
  have h : WALL_LEFT = 2 ^ 0 := by decide
  rw [h, Nat.testBit_two_pow]

theorem horizDesc_testBit {m m2 : Maze} {x y : Nat} (hd : horizClearDesc m m2 x y)
    (u v i : Nat) (hi : i < 32)
    (h1 : ¬(u = x ∧ v = y ∧ i = 2)) (h2 : ¬(u = x + 1 ∧ v = y ∧ i = 0)) :
    (cellAtN m2 u v).map (fun c => c.walls.testBit i) =
    (cellAtN m u v).map (fun c => c.walls.testBit i) := by
  rw [hd u v]
  rcases Decidable.em (u = x ∧ v = y) with hc | hc
  · obtain ⟨rfl, rfl⟩ := hc
    rw [if_pos ⟨rfl, rfl⟩]
    cases cellAtN m u v with
    | none => rfl
    | some c =>
      simp only [Option.map_some', Option.some.injEq]
      have hwz : WALL_RIGHT.testBit i = false := by
        rw [WALL_RIGHT_testBit, decide_eq_false_iff_not]
        omega
      exact jsAndNot_bit_other hi hwz
  · rw [if_neg hc]
    rcases Decidable.em (u = x + 1 ∧ v = y) with hc2 | hc2
    · obtain ⟨rfl, rfl⟩ := hc2
      rw [if_pos ⟨rfl, rfl⟩]
      cases cellAtN m (x + 1) v with
      | none => rfl
      | some c =>
        simp only [Option.map_some', Option.some.injEq]
        have hwz : WALL_LEFT.testBit i = false := by
          rw [WALL_LEFT_testBit, decide_eq_false_iff_not]
          omega
        exact jsAndNot_bit_other hi hwz
    · rw [if_neg hc2]

theorem vertDesc_testBit {m m2 : Maze} {x y : Nat} (hd : vertClearDesc m m2 x y)
    (u v i : Nat) (hi : i < 32)
    (h1 : ¬(u = x ∧ v = y ∧ i = 1)) (h2 : ¬(u = x ∧ v = y + 1 ∧ i = 3)) :
    (cellAtN m2 u v).map (fun c => c.walls.testBit i) =
    (cellAtN m u v).map (fun c => c.walls.testBit i) := by
  rw [hd u v]
  rcases Decidable.em (u = x ∧ v = y) with hc | hc
  · obtain ⟨rfl, rfl⟩ := hc
    rw [if_pos ⟨rfl, rfl⟩]
    cases cellAtN m u v with
    | none => rfl
    | some c =>
      simp only [Option.map_some', Option.some.injEq]
      have hwz : WALL_BOTTOM.testBit i = false := by
        rw [WALL_BOTTOM_testBit, decide_eq_false_iff_not]
        omega
      exact jsAndNot_bit_other hi hwz
  · rw [if_neg hc]
    rcases Decidable.em (u = x ∧ v = y + 1) with hc2 | hc2
    · obtain ⟨rfl, rfl⟩ := hc2
      rw [if_pos ⟨rfl, rfl⟩]
      cases cellAtN m u (y + 1) with
      | none => rfl
      | some c =>
        simp only [Option.map_some', Option.some.injEq]
        have hwz : WALL_TOP.testBit i = false := by
          rw [WALL_TOP_testBit, decide_eq_false_iff_not]
          omega
        exact jsAndNot_bit_other hi hwz
    · rw [if_neg hc2]

theorem map_testBit_elim {o2 o : Option MazeCell} {i : Nat}
    (h : o2.map (fun c => c.walls.testBit i) = o.map (fun c => c.walls.testBit i)) :
    (o = none → o2 = none) ∧
    (∀ c, o = some c → ∃ c2, o2 = some c2 ∧ c2.walls.testBit i = c.walls.testBit i) := by
  cases o <;> cases o2 <;> simp_all

theorem edgeBrokenB_congr_v {m m2 : Maze} {u v : Nat}
    (hA : (cellAtN m2 u v).map (fun c => c.walls.testBit 1) =
      (cellAtN m u v).map (fun c => c.walls.testBit 1))
    (hB : (cellAtN m2 u (v + 1)).map (fun c => c.walls.testBit 3) =
      (cellAtN m u (v + 1)).map (fun c => c.walls.testBit 3)) :
    edgeBrokenB m2 ((u, v), false) = edgeBrokenB m ((u, v), false) := by
  obtain ⟨hAn, hAs⟩ := map_testBit_elim hA
  obtain ⟨hBn, hBs⟩ := map_testBit_elim hB
  cases ha : cellAtN m u v with
  | none => simp only [edgeBrokenB, ha, hAn ha]
  | some a =>
    obtain ⟨a2, ha2, hba⟩ := hAs a ha
    cases hb : cellAtN m u (v + 1) with
    | none => simp only [edgeBrokenB, ha, ha2, hb, hBn hb]
    | some b =>
      obtain ⟨b2, hb2, hbb⟩ := hBs b hb
      simp only [edgeBrokenB, ha, ha2, hb, hb2, hba, hbb]

theorem edgeBrokenB_congr_h {m m2 : Maze} {u v : Nat}
    (hA : (cellAtN m2 u v).map (fun c => c.walls.testBit 2) =
      (cellAtN m u v).map (fun c => c.walls.testBit 2))
    (hB : (cellAtN m2 (u + 1) v).map (fun c => c.walls.testBit 0) =
      (cellAtN m (u + 1) v).map (fun c => c.walls.testBit 0)) :
    edgeBrokenB m2 ((u, v), true) = edgeBrokenB m ((u, v), true) := by
  obtain ⟨hAn, hAs⟩ := map_testBit_elim hA
  obtain ⟨hBn, hBs⟩ := map_testBit_elim hB
  cases ha : cellAtN m u v with
  | none => simp only [edgeBrokenB, ha, hAn ha]
  | some a =>
    obtain ⟨a2, ha2, hba⟩ := hAs a ha
    cases hb : cellAtN m (u + 1) v with
    | none => simp only [edgeBrokenB, ha, ha2, hb, hBn hb]
    | some b =>
      obtain ⟨b2, hb2, hbb⟩ := hBs b hb
      simp only [edgeBrokenB, ha, ha2, hb, hb2, hba, hbb]

theorem edgeBrokenB_horizClear {m m2 : Maze} {x y : Nat} (hd : horizClearDesc m m2 x y)
    (e : (Nat × Nat) × Bool) (hne : e ≠ ((x, y), true)) :
    edgeBrokenB m2 e = edgeBrokenB m e := by
  obtain ⟨⟨u, v⟩, tag⟩ := e
  cases tag
  · exact edgeBrokenB_congr_v
      (horizDesc_testBit hd u v 1 (by omega) (by omega) (by omega))
      (horizDesc_testBit hd u (v + 1) 3 (by omega) (by omega) (by omega))
  · have hn : ¬(u = x ∧ v = y) := by
      intro hcand
      exact hne (by rw [hcand.1, hcand.2])
    exact edgeBrokenB_congr_h
      (horizDesc_testBit hd u v 2 (by omega) (fun hc => hn ⟨hc.1, hc.2.1⟩) (by omega))
      (horizDesc_testBit hd (u + 1) v 0 (by omega) (by omega)
        (fun hc => hn ⟨by omega, hc.2.1⟩))

theorem edgeBrokenB_vertClear {m m2 : Maze} {x y : Nat} (hd : vertClearDesc m m2 x y)
    (e : (Nat × Nat) × Bool) (hne : e ≠ ((x, y), false)) :
    edgeBrokenB m2 e = edgeBrokenB m e := by
  obtain ⟨⟨u, v⟩, tag⟩ := e
  cases tag
  · have hn : ¬(u = x ∧ v = y) := by
      intro hcand
      exact hne (by rw [hcand.1, hcand.2])
    exact edgeBrokenB_congr_v
      (vertDesc_testBit hd u v 1 (by omega) (fun hc => hn ⟨hc.1, hc.2.1⟩) (by omega))
      (vertDesc_testBit hd u (v + 1) 3 (by omega) (by omega)
        (fun hc => hn ⟨hc.1, by omega⟩))
  · exact edgeBrokenB_congr_h
      (vertDesc_testBit hd u v 2 (by omega) (by omega) (by omega))
      (vertDesc_testBit hd (u + 1) v 0 (by omega) (by omega) (by omega))

theorem brokenPairs_insert {m m2 : Maze} (hW : m2.width = m.width) (hH : m2.height = m.height)
    (e0 : (Nat × Nat) × Bool) (hmem : e0 ∈ edgeUniv m.width m.height)
    (hold : edgeBrokenB m e0 = false) (hnew : edgeBrokenB m2 e0 = true)
    (hother : ∀ e, e ≠ e0 → edgeBrokenB m2 e = edgeBrokenB m e) :
    brokenPairs m2 = brokenPairs m + 1 := by
  unfold brokenPairs
  rw [hW, hH]
  have hins : (edgeUniv m.width m.height).filter (fun e => edgeBrokenB m2 e = true) =
      insert e0 ((edgeUniv m.width m.height).filter (fun e => edgeBrokenB m e = true)) := by
    ext e
    rw [Finset.mem_insert, Finset.mem_filter, Finset.mem_filter]
    constructor
    · rintro ⟨hu, hb⟩
      rcases eq_or_ne e e0 with rfl | hne
      · exact Or.inl rfl
      · refine Or.inr ⟨hu, ?_⟩
        rw [← hother e hne]
        exact hb
    · rintro (rfl | ⟨hu, hb⟩)
      · exact ⟨hmem, hnew⟩
      · rcases eq_or_ne e e0 with rfl | hne
        · rw [hold] at hb
          cases hb
        · refine ⟨hu, ?_⟩
          rw [hother e hne]
          exact hb
  rw [hins, Finset.card_insert_of_not_mem]
  intro hmem0
  rw [Finset.mem_filter, hold] at hmem0
  cases hmem0.2

theorem unvisitedCount_congr {m m2 : Maze} (hW : m2.width = m.width) (hH : m2.height = m.height)
    (hpt : ∀ u v : Nat, unvisitedAtB m2 u v = unvisitedAtB m u v) :
    unvisitedCount m2 = unvisitedCount m := by
  unfold unvisitedCount
  rw [hW, hH]
  congr 1
  ext p
  rw [Finset.mem_filter, Finset.mem_filter, hpt p.1 p.2]

theorem unvisitedAtB_horizClear {m m2 : Maze} {x y : Nat} (hd : horizClearDesc m m2 x y) :
    ∀ u v : Nat, unvisitedAtB m2 u v = unvisitedAtB m u v := by
  intro u v
  unfold unvisitedAtB
  rw [hd u v]
  rcases Decidable.em (u = x ∧ v = y) with h1 | h1
  · obtain ⟨rfl, rfl⟩ := h1
    rw [if_pos ⟨rfl, rfl⟩]
    cases cellAtN m u v <;> rfl
  · rw [if_neg h1]
    rcases Decidable.em (u = x + 1 ∧ v = y) with h2 | h2
    · obtain ⟨rfl, rfl⟩ := h2
      rw [if_pos ⟨rfl, rfl⟩]
      cases cellAtN m (x + 1) v <;> rfl
    · rw [if_neg h2]

theorem unvisitedAtB_vertClear {m m2 : Maze} {x y : Nat} (hd : vertClearDesc m m2 x y) :
    ∀ u v : Nat, unvisitedAtB m2 u v = unvisitedAtB m u v := by
  intro u v
  unfold unvisitedAtB
  rw [hd u v]
  rcases Decidable.em (u = x ∧ v = y) with h1 | h1
  · obtain ⟨rfl, rfl⟩ := h1
    rw [if_pos ⟨rfl, rfl⟩]
    cases cellAtN m u v <;> rfl
  · rw [if_neg h1]
    rcases Decidable.em (u = x ∧ v = y + 1) with h2 | h2
    · obtain ⟨rfl, rfl⟩ := h2
      rw [if_pos ⟨rfl, rfl⟩]
      cases cellAtN m u (y + 1) <;> rfl
    · rw [if_neg h2]

theorem brokenPairs_reset (m : Maze) : brokenPairs (m.reset) = 0 := by
  unfold brokenPairs
  rw [Finset.card_eq_zero, Finset.filter_eq_empty_iff]
  intro e _
  obtain ⟨⟨x, y⟩, tag⟩ := e
  intro hpred
  cases tag
  · cases h1 : cellAtN m.reset x y with
    | none =>
      simp only [edgeBrokenB, h1] at hpred
      exact Bool.noConfusion hpred
    | some a =>
      cases h2 : cellAtN m.reset x (y + 1) with
      | none =>
        simp only [edgeBrokenB, h1, h2] at hpred
        exact Bool.noConfusion hpred
      | some b =>
        simp only [edgeBrokenB, h1, h2] at hpred
        rw [reset_walls m x y a h1, reset_walls m x (y + 1) b h2] at hpred
        exact absurd hpred (by decide)
  · cases h1 : cellAtN m.reset x y with
    | none =>
      simp only [edgeBrokenB, h1] at hpred
      exact Bool.noConfusion hpred
    | some a =>
      cases h2 : cellAtN m.reset (x + 1) y with
      | none =>
        simp only [edgeBrokenB, h1, h2] at hpred
        exact Bool.noConfusion hpred
      | some b =>
        simp only [edgeBrokenB, h1, h2] at hpred
        rw [reset_walls m x y a h1, reset_walls m (x + 1) y b h2] at hpred
        exact absurd hpred (by decide)

theorem unvisitedCount_reset (m : Maze) : unvisitedCount (m.reset) = m.width * m.height := by
  unfold unvisitedCount
  have hall : ∀ p ∈ Finset.range (m.reset).width ×ˢ Finset.range (m.reset).height,
      unvisitedAtB m.reset p.1 p.2 = true := by
    intro p hp
    rw [Finset.mem_product, Finset.mem_range, Finset.mem_range] at hp
    unfold unvisitedAtB
    rw [cellAtN_reset, if_pos ⟨hp.1, hp.2⟩]
    rfl
  rw [Finset.filter_true_of_mem hall, Finset.card_product, Finset.card_range,
    Finset.card_range]
  rfl

theorem cellAtN_setVisited (m : Maze) (cx cy u v : Nat) :
    cellAtN (m.setVisited ⟨(cx : Int), (cy : Int)⟩) u v =
    if cx = u ∧ cy = v then (cellAtN m cx cy).map (fun c => { c with visited := true })
    else cellAtN m u v := by
  show (m.setVisited _).cellAt ⟨(u : Int), (v : Int)⟩ = _
  rw [cellAt_setVisited]
  rcases Decidable.em (cx = u ∧ cy = v) with h | h
  · obtain ⟨rfl, rfl⟩ := h
    rw [if_pos rfl, if_pos ⟨rfl, rfl⟩]
    rfl
  · rw [if_neg (fun hc => h ((coordN_eq_iff cx cy u v).mp hc)), if_neg h]
    rfl

theorem unvisitedAtB_setVisited_ne (m : Maze) (cx cy u v : Nat) (h : ¬(cx = u ∧ cy = v)) :
    unvisitedAtB (m.setVisited ⟨(cx : Int), (cy : Int)⟩) u v = unvisitedAtB m u v := by
  unfold unvisitedAtB
  rw [cellAtN_setVisited, if_neg h]

theorem unvisitedAtB_setVisited_self {m : Maze} {cx cy : Nat} {c : MazeCell}
    (hc : cellAtN m cx cy = some c) :
    unvisitedAtB (m.setVisited ⟨(cx : Int), (cy : Int)⟩) cx cy = false := by
  unfold unvisitedAtB
  rw [cellAtN_setVisited, if_pos ⟨rfl, rfl⟩]
  simp only [hc, Option.map_some']
  rfl

theorem unvisitedCount_setVisited {m : Maze} {cx cy : Nat} {c : MazeCell}
    (hcx : cx < m.width) (hcy : cy < m.height)
    (hc : cellAtN m cx cy = some c) (hunv : c.visited = false) :
    unvisitedCount m = unvisitedCount (m.setVisited ⟨(cx : Int), (cy : Int)⟩) + 1 := by
  unfold unvisitedCount
  have hself : unvisitedAtB m cx cy = true := by
    unfold unvisitedAtB
    simp only [hc, hunv]
    rfl
  have hins : ((Finset.range m.width ×ˢ Finset.range m.height).filter
      (fun p => unvisitedAtB m p.1 p.2 = true)) =
      insert (cx, cy) ((Finset.range m.width ×ˢ Finset.range m.height).filter
        (fun p => unvisitedAtB (m.setVisited ⟨(cx : Int), (cy : Int)⟩) p.1 p.2 = true)) := by
    ext p
    obtain ⟨u, v⟩ := p
    rw [Finset.mem_insert, Finset.mem_filter, Finset.mem_filter, Prod.mk.injEq]
    constructor
    · rintro ⟨hu, hb⟩
      rcases Decidable.em (cx = u ∧ cy = v) with hh | hh
      · exact Or.inl ⟨hh.1.symm, hh.2.symm⟩
      · refine Or.inr ⟨hu, ?_⟩
        rw [unvisitedAtB_setVisited_ne m cx cy u v hh]
        exact hb
    · rintro (⟨rfl, rfl⟩ | ⟨hu, hb⟩)
      · refine ⟨Finset.mem_product.mpr ⟨Finset.mem_range.mpr hcx, Finset.mem_range.mpr hcy⟩, ?_⟩
        exact hself
      · rcases Decidable.em (cx = u ∧ cy = v) with hh | hh
        · obtain ⟨rfl, rfl⟩ := hh
          rw [unvisitedAtB_setVisited_self hc] at hb
          cases hb
        · refine ⟨hu, ?_⟩
          rw [← unvisitedAtB_setVisited_ne m cx cy u v hh]
          exact hb
  have hnot : (cx, cy) ∉ ((Finset.range m.width ×ˢ Finset.range m.height).filter
      (fun p => unvisitedAtB (m.setVisited ⟨(cx : Int), (cy : Int)⟩) p.1 p.2 = true)) := by
    intro hmem
    have h2 := (Finset.mem_filter.mp hmem).2
    rw [unvisitedAtB_setVisited_self hc] at h2
    cases h2
  rw [hins, Finset.card_insert_of_not_mem hnot]
  rfl

theorem horiz_iteration {m m3 : Maze} {x y : Nat}
    (hd : horizClearDesc m m3 x y)
    (hW : m3.width = m.width) (hH : m3.height = m.height)
    (hx1 : x + 1 < m.width) (hy : y < m.height)
    (hufull : UnvisitedFull m)
    {ca cb : MazeCell}
    (hca : cellAtN m x y = some ca) (hcb : cellAtN m (x + 1) y = some cb)
    (hone : ca.visited = false ∨ cb.visited = false) :
    brokenPairs m3 = brokenPairs m + 1 ∧
    cellAtN m3 x y = some { ca with walls := jsAndNot ca.walls WALL_RIGHT } ∧
    cellAtN m3 (x + 1) y = some { cb with walls := jsAndNot cb.walls WALL_LEFT } := by
  have hA : cellAtN m3 x y = some { ca with walls := jsAndNot ca.walls WALL_RIGHT } := by
    rw [hd x y, if_pos ⟨rfl, rfl⟩, hca]
    rfl
  have hB : cellAtN m3 (x + 1) y = some { cb with walls := jsAndNot cb.walls WALL_LEFT } := by
    rw [hd (x + 1) y, if_neg (by omega), if_pos ⟨rfl, rfl⟩, hcb]
    rfl
  refine ⟨?_, hA, hB⟩
  apply brokenPairs_insert hW hH ((x, y), true)
  · unfold edgeUniv
    refine Finset.mem_product.mpr ⟨Finset.mem_product.mpr ⟨?_, ?_⟩, Finset.mem_univ _⟩
    · exact Finset.mem_range.mpr (show x < m.width by omega)
    · exact Finset.mem_range.mpr hy
  · simp only [edgeBrokenB, hca, hcb]
    rcases hone with h1 | h1
    · rw [hufull x y ca hca h1, show Nat.testBit 15 2 = true from by decide]
      rfl
    · rw [hufull (x + 1) y cb hcb h1, show Nat.testBit 15 0 = true from by decide]
      simp
  · simp only [edgeBrokenB, hA, hB]
    rw [jsAndNot_bit_self (by omega) (by decide), jsAndNot_bit_self (by omega) (by decide)]
    rfl
  · intro e hne
    exact edgeBrokenB_horizClear hd e hne

theorem vert_iteration {m m3 : Maze} {x y : Nat}
    (hd : vertClearDesc m m3 x y)
    (hW : m3.width = m.width) (hH : m3.height = m.height)
    (hx : x < m.width) (hy1 : y + 1 < m.height)
    (hufull : UnvisitedFull m)
    {ca cb : MazeCell}
    (hca : cellAtN m x y = some ca) (hcb : cellAtN m x (y + 1) = some cb)
    (hone : ca.visited = false ∨ cb.visited = false) :
    brokenPairs m3 = brokenPairs m + 1 ∧
    cellAtN m3 x y = some { ca with walls := jsAndNot ca.walls WALL_BOTTOM } ∧
    cellAtN m3 x (y + 1) = some { cb with walls := jsAndNot cb.walls WALL_TOP } := by
  have hA : cellAtN m3 x y = some { ca with walls := jsAndNot ca.walls WALL_BOTTOM } := by
    rw [hd x y, if_pos ⟨rfl, rfl⟩, hca]
    rfl
  have hB : cellAtN m3 x (y + 1) = some { cb with walls := jsAndNot cb.walls WALL_TOP } := by
    rw [hd x (y + 1), if_neg (by omega), if_pos ⟨rfl, rfl⟩, hcb]
    rfl
  refine ⟨?_, hA, hB⟩
  apply brokenPairs_insert hW hH ((x, y), false)
  · unfold edgeUniv
    refine Finset.mem_product.mpr ⟨Finset.mem_product.mpr ⟨?_, ?_⟩, Finset.mem_univ _⟩
    · exact Finset.mem_range.mpr hx
    · exact Finset.mem_range.mpr (show y < m.height by omega)
  · simp only [edgeBrokenB, hca, hcb]
    rcases hone with h1 | h1
    · rw [hufull x y ca hca h1, show Nat.testBit 15 1 = true from by decide]
      rfl
    · rw [hufull x (y + 1) cb hcb h1, show Nat.testBit 15 3 = true from by decide]
      simp
  · simp only [edgeBrokenB, hA, hB]
    rw [jsAndNot_bit_self (by omega) (by decide), jsAndNot_bit_self (by omega) (by decide)]
    rfl
  · intro e hne
    exact edgeBrokenB_vertClear hd e hne

/-- Everything one wall-breaking step of the generation loop does to the
counting and invariant state: one more broken pair, visited flags untouched,
symmetry kept, all unvisited cells except `next` still fully walled, the wall
pair between `coord` and `next` broken, and walls elsewhere unchanged. -/
theorem break_iteration {m : Maze} {coord next : Coordinate} {cx cy : Nat}
    (hsym : WallSym m) (hufull : UnvisitedFull m)
    (hcoord : coord = ⟨(cx : Int), (cy : Int)⟩) (hcx : cx < m.width) (hcy : cy < m.height)
    (hmem : next ∈ resetAdjacents m.width m.height cx cy)
    {cur : MazeCell} (hcur : cellAtN m cx cy = some cur) (hvis : cur.visited = true)
    {ncell : MazeCell} (hnc : m.cellAt next = some ncell) (hnvis : ncell.visited = false) :
    brokenPairs (breakStepY (breakStepX m coord next) coord next) = brokenPairs m + 1 ∧
    (∀ u v, unvisitedAtB (breakStepY (breakStepX m coord next) coord next) u v =
      unvisitedAtB m u v) ∧
    WallSym (breakStepY (breakStepX m coord next) coord next) ∧
    UnvisitedFullExcept (breakStepY (breakStepX m coord next) coord next) next ∧
    BrokenAdj (breakStepY (breakStepX m coord next) coord next) coord next ∧
    (∀ u v c2 c, cellAtN (breakStepY (breakStepX m coord next) coord next) u v = some c2 →
      cellAtN m u v = some c → ¬(u = cx ∧ v = cy) → next ≠ ⟨(u : Int), (v : Int)⟩ →
      c2.walls = c.walls) := by
  have hev : mazeEvolves m (breakStepY (breakStepX m coord next) coord next) :=
    mazeEvolves_trans (mazeEvolves_breakStepX m coord next)
      (mazeEvolves_breakStepY (breakStepX m coord next) coord next)
  have hW := hev.1
  have hH := hev.2.1
  have hcoordx : coord.x = (cx : Int) := by rw [hcoord]
  have hcoordy : coord.y = (cy : Int) := by rw [hcoord]
  rcases breakSteps_cases hcoord hmem hcx hcy with
    ⟨x, y, hxw, hyh, hd, htag⟩ | ⟨x, y, hxw, hyh, hd, htag⟩
  · -- horizontal break between (x, y) and (x+1, y)
    rcases htag with ⟨h1, h2, hnext⟩ | ⟨h1, h2, hnext⟩
    · -- coord is at (x, y), next at (x+1, y)
      have hnx : next.x = (x : Int) + 1 := by rw [hnext]
      have hny : next.y = (y : Int) := by rw [hnext]
      have hca : cellAtN m x y = some cur := by
        rw [h1, h2]
        exact hcur
      have hcb : cellAtN m (x + 1) y = some ncell := by
        show m.cellAt ⟨((x + 1 : Nat) : Int), (y : Int)⟩ = some ncell
        have hc : ((x + 1 : Nat) : Int) = (x : Int) + 1 := by omega
        rw [hc, ← hnext]
        exact hnc
      obtain ⟨hbp, hA, hB⟩ := horiz_iteration hd hW hH hxw hyh hufull hca hcb (Or.inr hnvis)
      refine ⟨hbp, unvisitedAtB_horizClear hd, WallSym_horizClear hd hsym, ?_, ?_, ?_⟩
      · intro u v c2 hc2 hnep hun
        obtain ⟨c, hcm, hviseq, -, -, -, hwcase⟩ := horizDesc_back hd hc2
        have hcun : c.visited = false := by
          rw [← hviseq]
          exact hun
        rcases hwcase with ⟨hu, hv, hwc⟩ | ⟨hu, hv, hwc⟩ | ⟨-, -, hwc⟩
        · subst hu
          subst hv
          rw [hca] at hcm
          cases hcm
          rw [hvis] at hcun
          cases hcun
        · exfalso
          apply hnep
          rw [hnx, hny]
          constructor
          · omega
          · omega
        · rw [hwc]
          exact hufull u v c hcm hcun
      · have hcoordA : (breakStepY (breakStepX m coord next) coord next).cellAt coord =
            some { cur with walls := jsAndNot cur.walls WALL_RIGHT } := by
          have hcc : coord = ⟨(x : Int), (y : Int)⟩ := by
            rw [hcoord, ← h1, ← h2]
          have hcg : (breakStepY (breakStepX m coord next) coord next).cellAt coord =
              cellAtN (breakStepY (breakStepX m coord next) coord next) x y :=
            congrArg _ hcc
          rw [hcg]
          exact hA
        have hnextB : (breakStepY (breakStepX m coord next) coord next).cellAt next =
            some { ncell with walls := jsAndNot ncell.walls WALL_LEFT } := by
          have hnn : next = ⟨((x + 1 : Nat) : Int), (y : Int)⟩ := by
            rw [hnext, Coordinate.mk.injEq]
            constructor
            · omega
            · omega
          have hng : (breakStepY (breakStepX m coord next) coord next).cellAt next =
              cellAtN (breakStepY (breakStepX m coord next) coord next) (x + 1) y :=
            congrArg _ hnn
          rw [hng]
          exact hB
        refine ⟨_, _, hcoordA, hnextB, Or.inl ⟨?_, ?_, ?_, ?_⟩⟩
        · rw [hnx, hcoordx]
          omega
        · rw [hny, hcoordy]
          omega
        · exact jsAndNot_bit_self (by omega) (by decide)
        · exact jsAndNot_bit_self (by omega) (by decide)
      · intro u v c2 c hc2 hcm hne1 hne2
        obtain ⟨cp, hcmp, -, -, -, -, hwcase⟩ := horizDesc_back hd hc2
        rw [hcm] at hcmp
        cases hcmp
        rcases hwcase with ⟨hu, hv, -⟩ | ⟨hu, hv, -⟩ | ⟨-, -, hwc⟩
        · exact absurd ⟨by omega, by omega⟩ hne1
        · exfalso
          apply hne2
          rw [hnext, Coordinate.mk.injEq]
          constructor
          · omega
          · omega
        · exact hwc
    · -- next is at (x, y), coord at (x+1, y)
      have hnx : next.x = (x : Int) := by rw [hnext]
      have hny : next.y = (y : Int) := by rw [hnext]
      have hca : cellAtN m x y = some ncell := by
        show m.cellAt ⟨(x : Int), (y : Int)⟩ = some ncell
        rw [← hnext]
        exact hnc
      have hcb : cellAtN m (x + 1) y = some cur := by
        rw [h1, h2]
        exact hcur
      obtain ⟨hbp, hA, hB⟩ := horiz_iteration hd hW hH hxw hyh hufull hca hcb (Or.inl hnvis)
      refine ⟨hbp, unvisitedAtB_horizClear hd, WallSym_horizClear hd hsym, ?_, ?_, ?_⟩
      · intro u v c2 hc2 hnep hun
        obtain ⟨c, hcm, hviseq, -, -, -, hwcase⟩ := horizDesc_back hd hc2
        have hcun : c.visited = false := by
          rw [← hviseq]
          exact hun
        rcases hwcase with ⟨hu, hv, hwc⟩ | ⟨hu, hv, hwc⟩ | ⟨-, -, hwc⟩
        · exfalso
          apply hnep
          rw [hnx, hny]
          constructor
          · omega
          · omega
        · subst hu
          subst hv
          rw [hcb] at hcm
          cases hcm
          rw [hvis] at hcun
          cases hcun
        · rw [hwc]
          exact hufull u v c hcm hcun
      · have hcoordA : (breakStepY (breakStepX m coord next) coord next).cellAt coord =
            some { cur with walls := jsAndNot cur.walls WALL_LEFT } := by
          have hcc : coord = ⟨((x + 1 : Nat) : Int), (y : Int)⟩ := by
            rw [hcoord, ← h1, ← h2]
          have hcg : (breakStepY (breakStepX m coord next) coord next).cellAt coord =
              cellAtN (breakStepY (breakStepX m coord next) coord next) (x + 1) y :=
            congrArg _ hcc
          rw [hcg]
          exact hB
        have hnextB : (breakStepY (breakStepX m coord next) coord next).cellAt next =
            some { ncell with walls := jsAndNot ncell.walls WALL_RIGHT } := by
          have hng : (breakStepY (breakStepX m coord next) coord next).cellAt next =
              cellAtN (breakStepY (breakStepX m coord next) coord next) x y :=
            congrArg _ hnext
          rw [hng]
          exact hA
        refine ⟨_, _, hcoordA, hnextB, Or.inr (Or.inl ⟨?_, ?_, ?_, ?_⟩)⟩
        · rw [hnx, hcoordx]
          omega
        · rw [hny, hcoordy]
          omega
        · exact jsAndNot_bit_self (by omega) (by decide)
        · exact jsAndNot_bit_self (by omega) (by decide)
      · intro u v c2 c hc2 hcm hne1 hne2
        obtain ⟨cp, hcmp, -, -, -, -, hwcase⟩ := horizDesc_back hd hc2
        rw [hcm] at hcmp
        cases hcmp
        rcases hwcase with ⟨hu, hv, -⟩ | ⟨hu, hv, -⟩ | ⟨-, -, hwc⟩
        · exfalso
          apply hne2
          rw [hnext, Coordinate.mk.injEq]
          constructor
          · omega
          · omega
        · exact absurd ⟨by omega, by omega⟩ hne1
        · exact hwc
  · -- vertical break between (x, y) and (x, y+1)
    rcases htag with ⟨h1, h2, hnext⟩ | ⟨h1, h2, hnext⟩
    · -- coord is at (x, y), next at (x, y+1)
      have hnx : next.x = (x : Int) := by rw [hnext]
      have hny : next.y = (y : Int) + 1 := by rw [hnext]
      have hca : cellAtN m x y = some cur := by
        rw [h1, h2]
        exact hcur
      have hcb : cellAtN m x (y + 1) = some ncell := by
        show m.cellAt ⟨(x : Int), ((y + 1 : Nat) : Int)⟩ = some ncell
        have hc : ((y + 1 : Nat) : Int) = (y : Int) + 1 := by omega
        rw [hc, ← hnext]
        exact hnc
      obtain ⟨hbp, hA, hB⟩ := vert_iteration hd hW hH hxw hyh hufull hca hcb (Or.inr hnvis)
      refine ⟨hbp, unvisitedAtB_vertClear hd, WallSym_vertClear hd hsym, ?_, ?_, ?_⟩
      · intro u v c2 hc2 hnep hun
        obtain ⟨c, hcm, hviseq, -, -, -, hwcase⟩ := vertDesc_back hd hc2
        have hcun : c.visited = false := by
          rw [← hviseq]
          exact hun
        rcases hwcase with ⟨hu, hv, hwc⟩ | ⟨hu, hv, hwc⟩ | ⟨-, -, hwc⟩
        · subst hu
          subst hv
          rw [hca] at hcm
          cases hcm
          rw [hvis] at hcun
          cases hcun
        · exfalso
          apply hnep
          rw [hnx, hny]
          constructor
          · omega
          · omega
        · rw [hwc]
          exact hufull u v c hcm hcun
      · have hcoordA : (breakStepY (breakStepX m coord next) coord next).cellAt coord =
            some { cur with walls := jsAndNot cur.walls WALL_BOTTOM } := by
          have hcc : coord = ⟨(x : Int), (y : Int)⟩ := by
            rw [hcoord, ← h1, ← h2]
          have hcg : (breakStepY (breakStepX m coord next) coord next).cellAt coord =
              cellAtN (breakStepY (breakStepX m coord next) coord next) x y :=
            congrArg _ hcc
          rw [hcg]
          exact hA
        have hnextB : (breakStepY (breakStepX m coord next) coord next).cellAt next =
            some { ncell with walls := jsAndNot ncell.walls WALL_TOP } := by
          have hnn : next = ⟨(x : Int), ((y + 1 : Nat) : Int)⟩ := by
            rw [hnext, Coordinate.mk.injEq]
            constructor
            · omega
            · omega
          have hng : (breakStepY (breakStepX m coord next) coord next).cellAt next =
              cellAtN (breakStepY (breakStepX m coord next) coord next) x (y + 1) :=
            congrArg _ hnn
          rw [hng]
          exact hB
        refine ⟨_, _, hcoordA, hnextB, Or.inr (Or.inr (Or.inl ⟨?_, ?_, ?_, ?_⟩))⟩
        · rw [hnx, hcoordx]
          omega
        · rw [hny, hcoordy]
          omega
        · exact jsAndNot_bit_self (by omega) (by decide)
        · exact jsAndNot_bit_self (by omega) (by decide)
      · intro u v c2 c hc2 hcm hne1 hne2
        obtain ⟨cp, hcmp, -, -, -, -, hwcase⟩ := vertDesc_back hd hc2
        rw [hcm] at hcmp
        cases hcmp
        rcases hwcase with ⟨hu, hv, -⟩ | ⟨hu, hv, -⟩ | ⟨-, -, hwc⟩
        · exact absurd ⟨by omega, by omega⟩ hne1
        · exfalso
          apply hne2
          rw [hnext, Coordinate.mk.injEq]
          constructor
          · omega
          · omega
        · exact hwc
    · -- next is at (x, y), coord at (x, y+1)
      have hnx : next.x = (x : Int) := by rw [hnext]
      have hny : next.y = (y : Int) := by rw [hnext]
      have hca : cellAtN m x y = some ncell := by
        show m.cellAt ⟨(x : Int), (y : Int)⟩ = some ncell
        rw [← hnext]
        exact hnc
      have hcb : cellAtN m x (y + 1) = some cur := by
        rw [h1, h2]
        exact hcur
      obtain ⟨hbp, hA, hB⟩ := vert_iteration hd hW hH hxw hyh hufull hca hcb (Or.inl hnvis)
      refine ⟨hbp, unvisitedAtB_vertClear hd, WallSym_vertClear hd hsym, ?_, ?_, ?_⟩
      · intro u v c2 hc2 hnep hun
        obtain ⟨c, hcm, hviseq, -, -, -, hwcase⟩ := vertDesc_back hd hc2
        have hcun : c.visited = false := by
          rw [← hviseq]
          exact hun
        rcases hwcase with ⟨hu, hv, hwc⟩ | ⟨hu, hv, hwc⟩ | ⟨-, -, hwc⟩
        · exfalso
          apply hnep
          rw [hnx, hny]
          constructor
          · omega
          · omega
        · subst hu
          subst hv
          rw [hcb] at hcm
          cases hcm
          rw [hvis] at hcun
          cases hcun
        · rw [hwc]
          exact hufull u v c hcm hcun
      · have hcoordA : (breakStepY (breakStepX m coord next) coord next).cellAt coord =
            some { cur with walls := jsAndNot cur.walls WALL_TOP } := by
          have hcc : coord = ⟨(x : Int), ((y + 1 : Nat) : Int)⟩ := by
            rw [hcoord, ← h1, ← h2]
          have hcg : (breakStepY (breakStepX m coord next) coord next).cellAt coord =
              cellAtN (breakStepY (breakStepX m coord next) coord next) x (y + 1) :=
            congrArg _ hcc
          rw [hcg]
          exact hB
        have hnextB : (breakStepY (breakStepX m coord next) coord next).cellAt next =
            some { ncell with walls := jsAndNot ncell.walls WALL_BOTTOM } := by
          have hng : (breakStepY (breakStepX m coord next) coord next).cellAt next =
              cellAtN (breakStepY (breakStepX m coord next) coord next) x y :=
            congrArg _ hnext
          rw [hng]
          exact hA
        refine ⟨_, _, hcoordA, hnextB, Or.inr (Or.inr (Or.inr ⟨?_, ?_, ?_, ?_⟩))⟩
        · rw [hnx, hcoordx]
          omega
        · rw [hny, hcoordy]
          omega
        · exact jsAndNot_bit_self (by omega) (by decide)
        · exact jsAndNot_bit_self (by omega) (by decide)
      · intro u v c2 c hc2 hcm hne1 hne2
        obtain ⟨cp, hcmp, -, -, -, -, hwcase⟩ := vertDesc_back hd hc2
        rw [hcm] at hcmp
        cases hcmp
        rcases hwcase with ⟨hu, hv, -⟩ | ⟨hu, hv, -⟩ | ⟨-, -, hwc⟩
        · exfalso
          apply hne2
          rw [hnext, Coordinate.mk.injEq]
          constructor
          · omega
          · omega
        · exact absurd ⟨by omega, by omega⟩ hne1
        · exact hwc

/-! ## Monotonicity of brokenness and exhaustion under evolution -/

theorem testBit_false_of_absorb {a b : Nat} (h : b &&& a = b) {i : Nat}
    (ha : a.testBit i = false) : b.testBit i = false := by
  have h2 := congrArg (fun n => n.testBit i) h
  simp only [Nat.testBit_land] at h2
  rw [ha, Bool.and_false] at h2
  exact h2.symm

theorem BrokenAdj_mono {m m2 : Maze} (hev : mazeEvolves m m2) {p q : Coordinate}
    (h : BrokenAdj m p q) : BrokenAdj m2 p q := by
  obtain ⟨a, b, ha, hb, hdir⟩ := h
  obtain ⟨a2, ha2, -, -, -, -, hwa⟩ := mazeEvolves_cellAt hev ha
  obtain ⟨b2, hb2, -, -, -, -, hwb⟩ := mazeEvolves_cellAt hev hb
  refine ⟨a2, b2, ha2, hb2, ?_⟩
  rcases hdir with ⟨h1, h2, h3, h4⟩ | ⟨h1, h2, h3, h4⟩ | ⟨h1, h2, h3, h4⟩ | ⟨h1, h2, h3, h4⟩
  · exact Or.inl ⟨h1, h2, testBit_false_of_absorb hwa h3, testBit_false_of_absorb hwb h4⟩
  · exact Or.inr (Or.inl
      ⟨h1, h2, testBit_false_of_absorb hwa h3, testBit_false_of_absorb hwb h4⟩)
  · exact Or.inr (Or.inr (Or.inl
      ⟨h1, h2, testBit_false_of_absorb hwa h3, testBit_false_of_absorb hwb h4⟩))
  · exact Or.inr (Or.inr (Or.inr
      ⟨h1, h2, testBit_false_of_absorb hwa h3, testBit_false_of_absorb hwb h4⟩))

theorem ReachBroken_mono {m m2 : Maze} (hev : mazeEvolves m m2) {p q : Coordinate}
    (h : ReachBroken m p q) : ReachBroken m2 p q := by
  induction h with
  | refl => exact ReachBroken.refl _
  | step hpq hadj ih => exact ReachBroken.step ih (BrokenAdj_mono hev hadj)

theorem ReachBroken_trans {m : Maze} {p q r : Coordinate} (h1 : ReachBroken m p q)
    (h2 : ReachBroken m q r) : ReachBroken m p r := by
  induction h2 with
  | refl => exact h1
  | step hqr hadj ih => exact ReachBroken.step ih hadj

theorem NoUnvisitedAdj_mono {m m2 : Maze} (hev : mazeEvolves m m2) {x y : Nat}
    (h : NoUnvisitedAdj m x y) : NoUnvisitedAdj m2 x y := by
  obtain ⟨c, hc, hnil⟩ := h
  obtain ⟨c2, hc2, -, -, hadjeq, -, -⟩ := mazeEvolves_cellAt hev hc
  obtain ⟨r2, hr2, hsub⟩ := getUnvisited_sublist hev hnil
  refine ⟨c2, hc2, ?_⟩
  rw [hadjeq, hr2, List.sublist_nil.mp hsub]

theorem unvisitedAtB_elim {m : Maze} {x y : Nat} (h : unvisitedAtB m x y = true) :
    ∃ c, cellAtN m x y = some c ∧ c.visited = false := by
  unfold unvisitedAtB at h
  cases hc : cellAtN m x y with
  | none =>
    simp only [hc] at h
    cases h
  | some c =>
    simp only [hc] at h
    refine ⟨c, rfl, ?_⟩
    cases hcv : c.visited
    · rfl
    · rw [hcv] at h
      cases h

theorem unvisitedAtB_intro {m : Maze} {x y : Nat} {c : MazeCell}
    (hc : cellAtN m x y = some c) (hv : c.visited = false) : unvisitedAtB m x y = true := by
  unfold unvisitedAtB
  simp only [hc, hv]
  rfl

theorem visited_of_evolve_back {m m2 : Maze} (hev : mazeEvolves m m2)
    (hpt : ∀ u v, unvisitedAtB m2 u v = unvisitedAtB m u v) {u v : Nat} {c2 : MazeCell}
    (hc2 : cellAtN m2 u v = some c2) (hvis : c2.visited = true) :
    ∃ c1, cellAtN m u v = some c1 ∧ c1.visited = true := by
  obtain ⟨c1, hc1, -⟩ := mazeEvolves_cellAt_rev hev hc2
  have hc1N : cellAtN m u v = some c1 := hc1
  refine ⟨c1, hc1N, ?_⟩
  have h := hpt u v
  unfold unvisitedAtB at h
  simp only [hc2, hc1N] at h
  have h2 := Bool.not_inj h
  rw [hvis] at h2
  exact h2.symm

theorem brokenPairs_of_walls_eq {m m2 : Maze} (hW : m2.width = m.width)
    (hH : m2.height = m.height)
    (hw : ∀ u v : Nat, (cellAtN m2 u v).map MazeCell.walls = (cellAtN m u v).map MazeCell.walls) :
    brokenPairs m2 = brokenPairs m := by
  have hbit : ∀ u v i : Nat, (cellAtN m2 u v).map (fun c => c.walls.testBit i) =
      (cellAtN m u v).map (fun c => c.walls.testBit i) := by
    intro u v i
    calc (cellAtN m2 u v).map (fun c => c.walls.testBit i)
        = ((cellAtN m2 u v).map MazeCell.walls).map (fun w => w.testBit i) := by
          rw [Option.map_map]
          rfl
      _ = ((cellAtN m u v).map MazeCell.walls).map (fun w => w.testBit i) := by rw [hw]
      _ = (cellAtN m u v).map (fun c => c.walls.testBit i) := by
          rw [Option.map_map]
          rfl
  unfold brokenPairs
  rw [hW, hH]
  congr 1
  apply Finset.filter_congr
  intro e _
  obtain ⟨⟨u, v⟩, tag⟩ := e
  cases tag
  · rw [edgeBrokenB_congr_v (hbit u v 1) (hbit u (v + 1) 3)]
  · rw [edgeBrokenB_congr_h (hbit u v 2) (hbit (u + 1) v 0)]

theorem brokenPairs_setVisited (m : Maze) (c : Coordinate) :
    brokenPairs (m.setVisited c) = brokenPairs m :=
  brokenPairs_of_walls_eq rfl rfl (setVisited_walls_eq m c)

theorem UnvisitedFull_setVisited {m : Maze} {cx cy : Nat}
    (hufe : UnvisitedFullExcept m ⟨(cx : Int), (cy : Int)⟩) :
    UnvisitedFull (m.setVisited ⟨(cx : Int), (cy : Int)⟩) := by
  intro u v c2 hc2 hun
  rw [cellAtN_setVisited] at hc2
  rcases Decidable.em (cx = u ∧ cy = v) with h | h
  · rw [if_pos h] at hc2
    cases hcm : cellAtN m cx cy with
    | none =>
      rw [hcm] at hc2
      cases hc2
    | some c =>
      rw [hcm] at hc2
      cases hc2
      exact Bool.noConfusion hun
  · rw [if_neg h] at hc2
    refine hufe u v c2 hc2 (fun hcon => h ?_) hun
    have h1 : (u : Int) = (cx : Int) := hcon.1
    have h2 : (v : Int) = (cy : Int) := hcon.2
    constructor
    · omega
    · omega

/-- Invariant of the `while` loop of `generate`: given that `adj` is the
current list of unvisited neighbours of the (already visited) cell at
`(cx, cy)` and that the recursive calls satisfy the generation
postcondition, a normal exit preserves symmetry and fullness-of-unvisited,
keeps `brokenPairs + unvisitedCount` constant, exhausts the cell at
`(cx, cy)`, and every newly visited cell is reachable from `(cx, cy)`
through broken walls and is itself exhausted. -/
theorem genLoop_post (rs : Nat → Nat)
    (rec : Maze → Nat → Coordinate → Option (Except JSError (Maze × Nat)))
    (hrecEv : ∀ m k c m2 k2, rec m k c = some (.ok (m2, k2)) → mazeEvolves m m2)
    (hrecPost : ∀ m k c m2 k2, WF m → WallSym m → UnvisitedFullExcept m c →
      rec m k c = some (.ok (m2, k2)) →
      WallSym m2 ∧ UnvisitedFull m2 ∧
      brokenPairs m2 + unvisitedCount m2 =
        brokenPairs m + unvisitedCount (m.setVisited c) ∧
      (∀ u v c2, cellAtN m2 u v = some c2 → c2.visited = true →
        (∃ c1, cellAtN m u v = some c1 ∧ c1.visited = true) ∨
        (ReachBroken m2 c ⟨(u : Int), (v : Int)⟩ ∧ NoUnvisitedAdj m2 u v))) :
    ∀ (lf : Nat) (m : Maze) (k : Nat) (cx cy : Nat) (adj : List Coordinate)
      (m2 : Maze) (k2 : Nat) (cur : MazeCell),
      WF m → WallSym m → UnvisitedFull m →
      cellAtN m cx cy = some cur → cur.visited = true →
      getUnvisitedListAux m cur.adjacentCells = .ok adj →
      genLoop rs rec lf m k ⟨(cx : Int), (cy : Int)⟩ adj = some (.ok (m2, k2)) →
      WallSym m2 ∧ UnvisitedFull m2 ∧
      brokenPairs m2 + unvisitedCount m2 = brokenPairs m + unvisitedCount m ∧
      NoUnvisitedAdj m2 cx cy ∧
      (∀ u v c2, cellAtN m2 u v = some c2 → c2.visited = true →
        (∃ c1, cellAtN m u v = some c1 ∧ c1.visited = true) ∨
        (ReachBroken m2 ⟨(cx : Int), (cy : Int)⟩ ⟨(u : Int), (v : Int)⟩ ∧
          NoUnvisitedAdj m2 u v)) := by
  intro lf
  induction lf with
  | zero =>
    intro m k cx cy adj m2 k2 cur hwf hsym hufull hcur hvis hadj hrun
    cases adj with
    | nil =>
      simp only [genLoop, Option.some.injEq, Except.ok.injEq, Prod.mk.injEq] at hrun
      obtain ⟨rfl, rfl⟩ := hrun
      exact ⟨hsym, hufull, rfl, ⟨cur, hcur, hadj⟩,
        fun u v c2 hc2 hv => Or.inl ⟨c2, hc2, hv⟩⟩
    | cons a as =>
      simp only [genLoop] at hrun
      exact Option.noConfusion hrun
  | succ lf ih =>
    intro m k cx cy adj m2 k2 cur hwf hsym hufull hcur hvis hadj hrun
    cases adj with
    | nil =>
      simp only [genLoop, Option.some.injEq, Except.ok.injEq, Prod.mk.injEq] at hrun
      obtain ⟨rfl, rfl⟩ := hrun
      exact ⟨hsym, hufull, rfl, ⟨cur, hcur, hadj⟩,
        fun u v c2 hc2 hv => Or.inl ⟨c2, hc2, hv⟩⟩
    | cons a as =>
      simp only [genLoop] at hrun
      set next := (a :: as).getD (rs k % (a :: as).length) a with hnd
      cases hnc : m.cellAt next with
      | none =>
        simp only [hnc] at hrun
        simp at hrun
      | some ncell =>
        simp only [hnc] at hrun
        have hnmem : next ∈ a :: as := cons_getD_mem a as (rs k % (a :: as).length)
        have hcurC : m.cellAt ⟨(cx : Int), (cy : Int)⟩ = some cur := hcur
        obtain ⟨hrmem0, cell, hcell, hcellvis⟩ :=
          adj_mem_resetAdjacents hwf hcurC hadj next hnmem
        simp only [Int.toNat_ofNat] at hrmem0
        rw [hnc] at hcell
        cases hcell
        have hlt := cellAtN_lt_of_WF hwf hcur
        obtain ⟨hbp3, hpt3, hsym3, hufe3, hbadj3, -⟩ :=
          break_iteration hsym hufull rfl hlt.1 hlt.2 hrmem0 hcur hvis hnc hcellvis
        set m3 := breakStepY (breakStepX m ⟨(cx : Int), (cy : Int)⟩ next)
          ⟨(cx : Int), (cy : Int)⟩ next with hm3
        have hev3 : mazeEvolves m m3 :=
          mazeEvolves_trans
            (mazeEvolves_breakStepX m ⟨(cx : Int), (cy : Int)⟩ next)
            (mazeEvolves_breakStepY (breakStepX m ⟨(cx : Int), (cy : Int)⟩ next)
              ⟨(cx : Int), (cy : Int)⟩ next)
        have hwf3 : WF m3 := WF_evolves hev3 hwf
        cases hr : rec m3 (k + 1) next with
        | none =>
          simp only [hr] at hrun
          exact Option.noConfusion hrun
        | some res =>
          simp only [hr] at hrun
          cases res with
          | error e => simp at hrun
          | ok p =>
            obtain ⟨m4, k4⟩ := p
            simp only at hrun
            obtain ⟨hsym4, hufull4, hcnt4, hclause4⟩ :=
              hrecPost m3 (k + 1) next m4 k4 hwf3 hsym3 hufe3 hr
            have hev34 : mazeEvolves m3 m4 := hrecEv m3 (k + 1) next m4 k4 hr
            have hev4 : mazeEvolves m m4 := mazeEvolves_trans hev3 hev34
            cases hcur4 : m4.cellAt ⟨(cx : Int), (cy : Int)⟩ with
            | none =>
              simp only [hcur4] at hrun
              simp at hrun
            | some cur2 =>
              simp only [hcur4] at hrun
              cases hadj4 : getUnvisitedListAux m4 cur2.adjacentCells with
              | error e =>
                simp only [hadj4] at hrun
                simp at hrun
              | ok adj2 =>
                simp only [hadj4] at hrun
                have hvis2 : cur2.visited = true := by
                  obtain ⟨cur2b, hcur2b, -, -, -, hmono, -⟩ :=
                    mazeEvolves_cellAt hev4 hcurC
                  rw [hcur4] at hcur2b
                  cases hcur2b
                  exact hmono hvis
                have hcur4N : cellAtN m4 cx cy = some cur2 := hcur4
                obtain ⟨hsym2, hufull2, hcnt2, hnua2, hclause2⟩ :=
                  ih m4 k4 cx cy adj2 m2 k2 cur2 (WF_evolves hev4 hwf) hsym4 hufull4
                    hcur4N hvis2 hadj4 hrun
                -- counting through this iteration
                obtain ⟨hnx0, hny0, -⟩ := cellAt_some_elim hnc
                have hncN : cellAtN m next.x.toNat next.y.toNat = some ncell := by
                  rw [← cellAt_nonneg m next hnx0 hny0]
                  exact hnc
                have hm3un : unvisitedAtB m3 next.x.toNat next.y.toNat = true := by
                  rw [hpt3 next.x.toNat next.y.toNat]
                  exact unvisitedAtB_intro hncN hcellvis
                obtain ⟨c3, hc3, hc3v⟩ := unvisitedAtB_elim hm3un
                have hlt3 := cellAtN_lt_of_WF hwf3 hc3
                have hstep := unvisitedCount_setVisited hlt3.1 hlt3.2 hc3 hc3v
                have hneta := coord_eta_toNat hnx0 hny0
                have hsv : unvisitedCount (m3.setVisited next) =
                    unvisitedCount (m3.setVisited
                      ⟨(next.x.toNat : Int), (next.y.toNat : Int)⟩) :=
                  congrArg (fun c0 => unvisitedCount (m3.setVisited c0)) hneta
                have hcnt3 : unvisitedCount m3 = unvisitedCount m :=
                  unvisitedCount_congr hev3.1 hev3.2.1 hpt3
                refine ⟨hsym2, hufull2, by omega, hnua2, ?_⟩
                intro u v c2 hc2 hvc2
                rcases hclause2 u v c2 hc2 hvc2 with ⟨c1, hc1, hc1v⟩ | ⟨hreach, hnuav⟩
                · rcases hclause4 u v c1 hc1 hc1v with ⟨c0, hc0, hc0v⟩ | ⟨hreach4, hnua4v⟩
                  · exact Or.inl (visited_of_evolve_back hev3 hpt3 hc0 hc0v)
                  · right
                    have hevm42 : mazeEvolves m4 m2 :=
                      genLoop_evolves rs rec hrecEv lf m4 k4
                        ⟨(cx : Int), (cy : Int)⟩ adj2 hrun
                    constructor
                    · have h1 : ReachBroken m2 next ⟨(u : Int), (v : Int)⟩ :=
                        ReachBroken_mono hevm42 hreach4
                      have h2 : BrokenAdj m2 ⟨(cx : Int), (cy : Int)⟩ next :=
                        BrokenAdj_mono (mazeEvolves_trans hev34 hevm42) hbadj3
                      exact ReachBroken_trans (ReachBroken.step (ReachBroken.refl _) h2) h1
                    · exact NoUnvisitedAdj_mono hevm42 hnua4v
                · exact Or.inr ⟨hreach, hnuav⟩

/-- Postcondition of `generate` (any recursion depth): starting from a
well-formed, symmetric grid whose unvisited cells (except possibly the
start) are fully walled, a normal return keeps symmetry, leaves every
unvisited cell fully walled, adds exactly one broken wall-pair per newly
visited cell, and every newly visited cell is reachable from the start
through broken walls and has no unvisited neighbour left. -/
theorem generate_post (rs : Nat → Nat) :
    ∀ (d : Nat) (m : Maze) (k : Nat) (c : Coordinate) (m2 : Maze) (k2 : Nat),
      WF m → WallSym m → UnvisitedFullExcept m c →
      Maze.generate rs d m k c = some (.ok (m2, k2)) →
      WallSym m2 ∧ UnvisitedFull m2 ∧
      brokenPairs m2 + unvisitedCount m2 =
        brokenPairs m + unvisitedCount (m.setVisited c) ∧
      (∀ u v c2, cellAtN m2 u v = some c2 → c2.visited = true →
        (∃ c1, cellAtN m u v = some c1 ∧ c1.visited = true) ∨
        (ReachBroken m2 c ⟨(u : Int), (v : Int)⟩ ∧ NoUnvisitedAdj m2 u v)) := by
  intro d
  induction d with
  | zero =>
    intro m k c m2 k2 _ _ _ h
    simp only [Maze.generate] at h
    exact Option.noConfusion h
  | succ d ih =>
    intro m k c m2 k2 hwf hsym hufe h
    simp only [Maze.generate, MazeCell.getUnvisitedAdjacents] at h
    cases hcur : m.cellAt c with
    | none =>
      simp only [hcur] at h
      simp at h
    | some current =>
      simp only [hcur] at h
      cases hadj : getUnvisitedListAux (m.setVisited c) current.adjacentCells with
      | error e =>
        simp only [hadj] at h
        simp at h
      | ok adj =>
        simp only [hadj] at h
        obtain ⟨hx0, hy0, -⟩ := cellAt_some_elim hcur
        set cx := c.x.toNat with hcxd
        set cy := c.y.toNat with hcyd
        have hceta : c = ⟨(cx : Int), (cy : Int)⟩ := coord_eta_toNat hx0 hy0
        have hcurN : cellAtN m cx cy = some current := by
          rw [← cellAt_nonneg m c hx0 hy0]
          exact hcur
        rw [hceta] at h hadj
        have hufeN : UnvisitedFullExcept m ⟨(cx : Int), (cy : Int)⟩ := by
          rw [← hceta]
          exact hufe
        have hcur1 : cellAtN (m.setVisited ⟨(cx : Int), (cy : Int)⟩) cx cy =
            some { current with visited := true } := by
          rw [cellAtN_setVisited, if_pos ⟨rfl, rfl⟩, hcurN]
          rfl
        obtain ⟨hsym2, hufull2, hcnt, hnua, hclause⟩ :=
          genLoop_post rs (Maze.generate rs d)
            (fun m k c m2 k2 hr => (generate_evolves rs d m k c hr).1)
            (fun m k c m2 k2 hwf hsym hufe hr => ih m k c m2 k2 hwf hsym hufe hr)
            adj.length (m.setVisited ⟨(cx : Int), (cy : Int)⟩) k cx cy adj m2 k2
            { current with visited := true }
            (WF_evolves (mazeEvolves_setVisited m _) hwf)
            (WallSym_setVisited _ hsym)
            (UnvisitedFull_setVisited hufeN)
            hcur1 rfl hadj h
        have hbp1 : brokenPairs (m.setVisited ⟨(cx : Int), (cy : Int)⟩) = brokenPairs m :=
          brokenPairs_setVisited m _
        have hcv : unvisitedCount (m.setVisited c) =
            unvisitedCount (m.setVisited ⟨(cx : Int), (cy : Int)⟩) :=
          congrArg (fun c0 => unvisitedCount (m.setVisited c0)) hceta
        refine ⟨hsym2, hufull2, by omega, ?_⟩
        intro u v c2 hc2 hvc2
        rcases hclause u v c2 hc2 hvc2 with ⟨c1, hc1, hc1v⟩ | ⟨hreach, hnuav⟩
        · rcases Decidable.em (cx = u ∧ cy = v) with hh | hh
          · obtain ⟨rfl, rfl⟩ := hh
            right
            refine ⟨?_, hnua⟩
            rw [hceta]
            exact ReachBroken.refl _
          · left
            rw [cellAtN_setVisited, if_neg hh] at hc1
            exact ⟨c1, hc1, hc1v⟩
        · right
          rw [hceta]
          exact ⟨hreach, hnuav⟩

/-! ## Totality of lookups and strict decrease of the unvisited count -/

theorem cellAtN_total {m : Maze} (hwf : WF m) {x y : Nat} (hx : x < m.width)
    (hy : y < m.height) : ∃ c, cellAtN m x y = some c := by
  have hylen : y < m.cells.length := by
    rw [hwf.1]
    exact hy
  have hrow : m.cells[y]? = some m.cells[y] := List.getElem?_eq_getElem hylen
  have hxlen : x < m.cells[y].length := by
    rw [hwf.2.1 m.cells[y] (List.getElem_mem hylen)]
    exact hx
  refine ⟨m.cells[y][x], ?_⟩
  show m.cellAt ⟨(x : Int), (y : Int)⟩ = _
  unfold Maze.cellAt
  simp only [listGetI_ofNat, hrow]
  exact List.getElem?_eq_getElem hxlen

theorem resetAdjacents_cellAt_total {m : Maze} (hwf : WF m) {cx cy : Nat}
    (hcx : cx < m.width) (hcy : cy < m.height) :
    ∀ c0 ∈ resetAdjacents m.width m.height cx cy, ∃ cell, m.cellAt c0 = some cell := by
  intro c0 hc0
  rcases (mem_resetAdjacents m.width m.height cx cy c0).mp hc0 with
    ⟨hb, rfl⟩ | ⟨hb, rfl⟩ | ⟨hb, rfl⟩ | ⟨hb, rfl⟩
  · obtain ⟨cell, hcell⟩ := cellAtN_total hwf (show cx - 1 < m.width by omega) hcy
    refine ⟨cell, ?_⟩
    rw [show (⟨(cx : Int) - 1, (cy : Int)⟩ : Coordinate) =
      ⟨((cx - 1 : Nat) : Int), (cy : Int)⟩ from by rw [Coordinate.mk.injEq]; omega]
    exact hcell
  · obtain ⟨cell, hcell⟩ := cellAtN_total hwf (show cx + 1 < m.width from hb) hcy
    refine ⟨cell, ?_⟩
    rw [show (⟨(cx : Int) + 1, (cy : Int)⟩ : Coordinate) =
      ⟨((cx + 1 : Nat) : Int), (cy : Int)⟩ from by rw [Coordinate.mk.injEq]; omega]
    exact hcell
  · obtain ⟨cell, hcell⟩ := cellAtN_total hwf hcx (show cy - 1 < m.height by omega)
    refine ⟨cell, ?_⟩
    rw [show (⟨(cx : Int), (cy : Int) - 1⟩ : Coordinate) =
      ⟨(cx : Int), ((cy - 1 : Nat) : Int)⟩ from by rw [Coordinate.mk.injEq]; omega]
    exact hcell
  · obtain ⟨cell, hcell⟩ := cellAtN_total hwf hcx (show cy + 1 < m.height from hb)
    refine ⟨cell, ?_⟩
    rw [show (⟨(cx : Int), (cy : Int) + 1⟩ : Coordinate) =
      ⟨(cx : Int), ((cy + 1 : Nat) : Int)⟩ from by rw [Coordinate.mk.injEq]; omega]
    exact hcell

theorem unvisitedAtB_modifyCell {m : Maze} {c : Coordinate} {f : MazeCell → MazeCell}
    (hf : ∀ cell, (f cell).visited = cell.visited) (u v : Nat) :
    unvisitedAtB (m.modifyCell c f) u v = unvisitedAtB m u v := by
  have hc : cellAtN (m.modifyCell c f) u v =
      if c = ⟨(u : Int), (v : Int)⟩ then (m.cellAt c).map f
      else m.cellAt ⟨(u : Int), (v : Int)⟩ := cellAt_modifyCell m c ⟨(u : Int), (v : Int)⟩ f
  unfold unvisitedAtB
  rw [hc, show cellAtN m u v = m.cellAt ⟨(u : Int), (v : Int)⟩ from rfl]
  rcases eq_or_ne c ⟨(u : Int), (v : Int)⟩ with heq | hne
  · rw [if_pos heq, heq]
    cases hm : m.cellAt ⟨(u : Int), (v : Int)⟩ with
    | none => rfl
    | some cell =>
      show (!(f cell).visited) = (!cell.visited)
      rw [hf cell]
  · rw [if_neg hne]

theorem unvisitedAtB_breakAt (m : Maze) (a b : Coordinate) (w : Nat) (u v : Nat) :
    unvisitedAtB (m.breakAt a b w) u v = unvisitedAtB m u v := by
  show unvisitedAtB ((m.modifyCell a
      fun cell => { cell with walls := jsAndNot cell.walls w }).modifyCell b
      fun cell => { cell with walls := jsAndNot cell.walls (oppositeWall w) }) u v = _
  rw [unvisitedAtB_modifyCell (show ∀ cell : MazeCell,
      ({ cell with walls := jsAndNot cell.walls (oppositeWall w) } : MazeCell).visited =
        cell.visited from fun cell => rfl),
    unvisitedAtB_modifyCell (show ∀ cell : MazeCell,
      ({ cell with walls := jsAndNot cell.walls w } : MazeCell).visited =
        cell.visited from fun cell => rfl)]

theorem unvisitedAtB_breakStepX (m : Maze) (coord next : Coordinate) (u v : Nat) :
    unvisitedAtB (breakStepX m coord next) u v = unvisitedAtB m u v := by
  unfold breakStepX
  split
  · rw [unvisitedAtB_breakAt]
  · split
    · rw [unvisitedAtB_breakAt]
    · rfl

theorem unvisitedAtB_breakStepY (m : Maze) (coord next : Coordinate) (u v : Nat) :
    unvisitedAtB (breakStepY m coord next) u v = unvisitedAtB m u v := by
  unfold breakStepY
  split
  · rw [unvisitedAtB_breakAt]
  · split
    · rw [unvisitedAtB_breakAt]
    · rfl

theorem unvisitedAtB_breakSteps (m : Maze) (coord next : Coordinate) (u v : Nat) :
    unvisitedAtB (breakStepY (breakStepX m coord next) coord next) u v =
    unvisitedAtB m u v := by
  rw [unvisitedAtB_breakStepY, unvisitedAtB_breakStepX]

theorem unvisited_filter_subset {m m2 : Maze} (hev : mazeEvolves m m2) :
    ((Finset.range m.width ×ˢ Finset.range m.height).filter
      (fun p => unvisitedAtB m2 p.1 p.2 = true)) ⊆
    ((Finset.range m.width ×ˢ Finset.range m.height).filter
      (fun p => unvisitedAtB m p.1 p.2 = true)) := by
  intro p hp
  rw [Finset.mem_filter] at hp ⊢
  refine ⟨hp.1, ?_⟩
  obtain ⟨c2, hc2, hc2v⟩ := unvisitedAtB_elim hp.2
  have hc2C : m2.cellAt ⟨(p.1 : Int), (p.2 : Int)⟩ = some c2 := hc2
  obtain ⟨c1, hc1, -, -, -, hmono, -⟩ := mazeEvolves_cellAt_rev hev hc2C
  have hc1N : cellAtN m p.1 p.2 = some c1 := hc1
  apply unvisitedAtB_intro hc1N
  cases hcv : c1.visited
  · rfl
  · rw [hmono hcv] at hc2v
    cases hc2v

theorem unvisitedCount_mono {m m2 : Maze} (hev : mazeEvolves m m2) :
    unvisitedCount m2 ≤ unvisitedCount m := by
  unfold unvisitedCount
  rw [hev.1, hev.2.1]
  exact Finset.card_le_card (unvisited_filter_subset hev)

theorem unvisitedCount_lt {m m2 : Maze} (hev : mazeEvolves m m2) {x y : Nat}
    (hx : x < m.width) (hy : y < m.height)
    (h1 : unvisitedAtB m x y = true) (h2 : unvisitedAtB m2 x y = false) :
    unvisitedCount m2 < unvisitedCount m := by
  unfold unvisitedCount
  rw [hev.1, hev.2.1]
  apply Finset.card_lt_card
  rw [Finset.ssubset_iff_of_subset (unvisited_filter_subset hev)]
  refine ⟨(x, y), ?_, ?_⟩
  · rw [Finset.mem_filter]
    exact ⟨Finset.mem_product.mpr ⟨Finset.mem_range.mpr hx, Finset.mem_range.mpr hy⟩, h1⟩
  · intro hmem
    rw [Finset.mem_filter, h2] at hmem
    cases hmem.2

/-- The loop terminates normally when the recursion depth budget `d` covers
the number of unvisited cells and the loop fuel covers the length of the
current unvisited-adjacents list. -/
theorem genLoop_terminates (rs : Nat → Nat) (d : Nat)
    (ihgen : ∀ (m : Maze) (k : Nat) (c : Coordinate) (cell : MazeCell),
      WF m → m.cellAt c = some cell → unvisitedCount (m.setVisited c) < d →
      ∃ m2 k2, Maze.generate rs d m k c = some (.ok (m2, k2))) :
    ∀ (lf : Nat) (m : Maze) (k : Nat) (cx cy : Nat) (adj : List Coordinate) (cur : MazeCell),
      WF m → cellAtN m cx cy = some cur → cur.visited = true →
      getUnvisitedListAux m cur.adjacentCells = .ok adj →
      adj.length ≤ lf → unvisitedCount m ≤ d →
      ∃ m2 k2, genLoop rs (Maze.generate rs d) lf m k ⟨(cx : Int), (cy : Int)⟩ adj =
        some (.ok (m2, k2)) := by
  intro lf
  induction lf with
  | zero =>
    intro m k cx cy adj cur hwf hcur hvis hadj hlen hcnt
    cases adj with
    | nil => exact ⟨m, k, rfl⟩
    | cons a as =>
      simp only [List.length_cons] at hlen
      omega
  | succ lf ih =>
    intro m k cx cy adj cur hwf hcur hvis hadj hlen hcnt
    cases adj with
    | nil => exact ⟨m, k, rfl⟩
    | cons a as =>
      set next := (a :: as).getD (rs k % (a :: as).length) a with hnd
      have hnmem : next ∈ a :: as := cons_getD_mem a as (rs k % (a :: as).length)
      have hcurC : m.cellAt ⟨(cx : Int), (cy : Int)⟩ = some cur := hcur
      obtain ⟨hrmem0, ncell, hnc, hncv⟩ := adj_mem_resetAdjacents hwf hcurC hadj next hnmem
      simp only [Int.toNat_ofNat] at hrmem0
      obtain ⟨hnx0, hny0, -⟩ := cellAt_some_elim hnc
      have hneta := coord_eta_toNat hnx0 hny0
      have hncN : cellAtN m next.x.toNat next.y.toNat = some ncell := by
        rw [← cellAt_nonneg m next hnx0 hny0]
        exact hnc
      set m3 := breakStepY (breakStepX m ⟨(cx : Int), (cy : Int)⟩ next)
        ⟨(cx : Int), (cy : Int)⟩ next with hm3
      have hev3 : mazeEvolves m m3 :=
        mazeEvolves_trans
          (mazeEvolves_breakStepX m ⟨(cx : Int), (cy : Int)⟩ next)
          (mazeEvolves_breakStepY (breakStepX m ⟨(cx : Int), (cy : Int)⟩ next)
            ⟨(cx : Int), (cy : Int)⟩ next)
      have hwf3 : WF m3 := WF_evolves hev3 hwf
      have hpt3 : ∀ u v, unvisitedAtB m3 u v = unvisitedAtB m u v := by
        intro u v
        rw [hm3]
        exact unvisitedAtB_breakSteps m ⟨(cx : Int), (cy : Int)⟩ next u v
      have hm3un : unvisitedAtB m3 next.x.toNat next.y.toNat = true := by
        rw [hpt3]
        exact unvisitedAtB_intro hncN hncv
      obtain ⟨c3, hc3, hc3v⟩ := unvisitedAtB_elim hm3un
      have hlt3 := cellAtN_lt_of_WF hwf3 hc3
      have hstep := unvisitedCount_setVisited hlt3.1 hlt3.2 hc3 hc3v
      have hc3C : m3.cellAt next = some c3 := by
        rw [cellAt_nonneg m3 next hnx0 hny0]
        exact hc3
      have hcnt3 : unvisitedCount m3 = unvisitedCount m :=
        unvisitedCount_congr hev3.1 hev3.2.1 hpt3
      have hsv : unvisitedCount (m3.setVisited next) =
          unvisitedCount (m3.setVisited ⟨(next.x.toNat : Int), (next.y.toNat : Int)⟩) :=
        congrArg (fun c0 => unvisitedCount (m3.setVisited c0)) hneta
      obtain ⟨m4, k4, hrgen⟩ := ihgen m3 (k + 1) next c3 hwf3 hc3C (by omega)
      have hev34 := (generate_evolves rs d m3 (k + 1) next hrgen).1
      have hvisited4 := (generate_evolves rs d m3 (k + 1) next hrgen).2
      have hev4 : mazeEvolves m m4 := mazeEvolves_trans hev3 hev34
      have hwf4 : WF m4 := WF_evolves hev4 hwf
      obtain ⟨cur2, hcur4, -, -, hadjeq, hmono, -⟩ := mazeEvolves_cellAt hev4 hcurC
      have hvis4 : cur2.visited = true := hmono hvis
      obtain ⟨adj2, hadj2, hsub⟩ := getUnvisited_sublist hev4 hadj
      have hadj2c : getUnvisitedListAux m4 cur2.adjacentCells = .ok adj2 := by
        rw [hadjeq]
        exact hadj2
      have hnotmem : next ∉ adj2 := by
        intro hmem
        obtain ⟨-, cellv, hcellv, hcvv⟩ := adj_mem_resetAdjacents hwf4 hcur4 hadj2c next hmem
        obtain ⟨vc, hvc, hvcv⟩ := hvisited4
        rw [hvc] at hcellv
        cases hcellv
        rw [hvcv] at hcvv
        cases hcvv
      have hlen2 : adj2.length ≤ lf := by
        have hle := hsub.length_le
        rcases Nat.lt_or_ge adj2.length (a :: as).length with hlt | hge
        · simp only [List.length_cons] at hlen hlt
          omega
        · have heq : adj2.length = (a :: as).length := by omega
          rw [hsub.eq_of_length heq] at hnotmem
          exact absurd hnmem hnotmem
      have hunb4 : unvisitedAtB m4 next.x.toNat next.y.toNat = false := by
        obtain ⟨vc, hvc, hvcv⟩ := hvisited4
        have hvcN : cellAtN m4 next.x.toNat next.y.toNat = some vc := by
          rw [← cellAt_nonneg m4 next hnx0 hny0]
          exact hvc
        unfold unvisitedAtB
        simp only [hvcN, hvcv]
        rfl
      have hcnt4 : unvisitedCount m4 < unvisitedCount m3 :=
        unvisitedCount_lt hev34 hlt3.1 hlt3.2 hm3un hunb4
      obtain ⟨m2, k2, hloop⟩ := ih m4 k4 cx cy adj2 cur2 hwf4
        (show cellAtN m4 cx cy = some cur2 from hcur4) hvis4 hadj2c hlen2 (by omega)
      refine ⟨m2, k2, ?_⟩
      simp only [genLoop]
      rw [← hnd]
      simp only [hnc]
      rw [← hm3]
      simp only [hrgen, hcur4, hadj2c]
      exact hloop

/-- `generate` terminates normally whenever the fuel exceeds the number of
unvisited cells remaining after marking the start. -/
theorem generate_terminates (rs : Nat → Nat) :
    ∀ (fuel : Nat) (m : Maze) (k : Nat) (c : Coordinate) (cell : MazeCell),
      WF m → m.cellAt c = some cell →
      unvisitedCount (m.setVisited c) < fuel →
      ∃ m2 k2, Maze.generate rs fuel m k c = some (.ok (m2, k2)) := by
  intro fuel
  induction fuel with
  | zero =>
    intro m k c cell _ _ h
    omega
  | succ d ih =>
    intro m k c cell hwf hcell hcnt
    obtain ⟨hx0, hy0, -⟩ := cellAt_some_elim hcell
    have hcellN : cellAtN m c.x.toNat c.y.toNat = some cell := by
      rw [← cellAt_nonneg m c hx0 hy0]
      exact hcell
    have hlt := cellAtN_lt_of_WF hwf hcellN
    have hceta := coord_eta_toNat hx0 hy0
    have hev1 : mazeEvolves m (m.setVisited c) := mazeEvolves_setVisited m c
    have hwf1 : WF (m.setVisited c) := WF_evolves hev1 hwf
    have hadjlist : cell.adjacentCells =
        resetAdjacents m.width m.height c.x.toNat c.y.toNat :=
      (hwf.2.2 _ _ _ hcellN).2.2
    have htot : ∀ c0 ∈ cell.adjacentCells, ∃ cl, (m.setVisited c).cellAt c0 = some cl := by
      intro c0 hc0
      rw [hadjlist] at hc0
      obtain ⟨cl, hcl⟩ := resetAdjacents_cellAt_total hwf hlt.1 hlt.2 c0 hc0
      obtain ⟨cl2, hcl2, -⟩ := mazeEvolves_cellAt hev1 hcl
      exact ⟨cl2, hcl2⟩
    obtain ⟨adj, hadj⟩ := getUnvisited_total htot
    have hcur1C : (m.setVisited c).cellAt c = some { cell with visited := true } := by
      rw [cellAt_setVisited, if_pos rfl, hcell]
      rfl
    have hcur1N : cellAtN (m.setVisited c) c.x.toNat c.y.toNat =
        some { cell with visited := true } := by
      rw [← cellAt_nonneg (m.setVisited c) c hx0 hy0]
      exact hcur1C
    have hadj1 : getUnvisitedListAux (m.setVisited c)
        ({ cell with visited := true } : MazeCell).adjacentCells = .ok adj := hadj
    obtain ⟨m2, k2, hloop⟩ := genLoop_terminates rs d ih adj.length (m.setVisited c) k
      c.x.toNat c.y.toNat adj { cell with visited := true } hwf1 hcur1N rfl hadj1
      le_rfl (by omega)
    refine ⟨m2, k2, ?_⟩
    simp only [Maze.generate, MazeCell.getUnvisitedAdjacents]
    simp only [hcell, hadj]
    rw [← hceta] at hloop
    exact hloop

theorem reset_visited (m : Maze) (x y : Nat) (c : MazeCell)
    (h : cellAtN (m.reset) x y = some c) : c.visited = false := by
  rw [cellAtN_reset] at h
  split at h
  · cases h
    rfl
  · cases h

/-! ## Completeness: the visited region is closed under adjacency -/

theorem visited_adj {m2 : Maze} (hwf : WF m2)
    {x y : Nat} {c2 : MazeCell} (hc : cellAtN m2 x y = some c2) (hv : c2.visited = true)
    (hnua : NoUnvisitedAdj m2 x y)
    {c0 : Coordinate} (hmem : c0 ∈ resetAdjacents m2.width m2.height x y) :
    ∃ cell, m2.cellAt c0 = some cell ∧ cell.visited = true := by
  obtain ⟨cc, hcc, hnil⟩ := hnua
  rw [hc] at hcc
  cases hcc
  have hadjlist := (hwf.2.2 x y c2 hc).2.2
  refine getUnvisited_nil_elim hnil c0 ?_
  rw [hadjlist]
  exact hmem

theorem visited_right {m2 : Maze} (hwf : WF m2)
    (hclosed : ∀ x y c2, cellAtN m2 x y = some c2 → c2.visited = true → NoUnvisitedAdj m2 x y)
    {x y : Nat} (h : ∃ c2, cellAtN m2 x y = some c2 ∧ c2.visited = true)
    (hb : x + 1 < m2.width) :
    ∃ c2, cellAtN m2 (x + 1) y = some c2 ∧ c2.visited = true := by
  obtain ⟨c2, hc, hv⟩ := h
  obtain ⟨cell, hcell, hcv⟩ := visited_adj hwf hc hv (hclosed x y c2 hc hv)
    ((mem_resetAdjacents m2.width m2.height x y _).mpr (Or.inr (Or.inl ⟨hb, rfl⟩)))
  refine ⟨cell, ?_, hcv⟩
  show m2.cellAt ⟨((x + 1 : Nat) : Int), (y : Int)⟩ = some cell
  rw [show (⟨((x + 1 : Nat) : Int), (y : Int)⟩ : Coordinate) =
    ⟨(x : Int) + 1, (y : Int)⟩ from by rw [Coordinate.mk.injEq]; omega]
  exact hcell

theorem visited_left {m2 : Maze} (hwf : WF m2)
    (hclosed : ∀ x y c2, cellAtN m2 x y = some c2 → c2.visited = true → NoUnvisitedAdj m2 x y)
    {x y : Nat} (h : ∃ c2, cellAtN m2 x y = some c2 ∧ c2.visited = true)
    (hb : 1 ≤ x) :
    ∃ c2, cellAtN m2 (x - 1) y = some c2 ∧ c2.visited = true := by
  obtain ⟨c2, hc, hv⟩ := h
  obtain ⟨cell, hcell, hcv⟩ := visited_adj hwf hc hv (hclosed x y c2 hc hv)
    ((mem_resetAdjacents m2.width m2.height x y _).mpr (Or.inl ⟨hb, rfl⟩))
  refine ⟨cell, ?_, hcv⟩
  show m2.cellAt ⟨((x - 1 : Nat) : Int), (y : Int)⟩ = some cell
  rw [show (⟨((x - 1 : Nat) : Int), (y : Int)⟩ : Coordinate) =
    ⟨(x : Int) - 1, (y : Int)⟩ from by rw [Coordinate.mk.injEq]; omega]
  exact hcell

theorem visited_down {m2 : Maze} (hwf : WF m2)
    (hclosed : ∀ x y c2, cellAtN m2 x y = some c2 → c2.visited = true → NoUnvisitedAdj m2 x y)
    {x y : Nat} (h : ∃ c2, cellAtN m2 x y = some c2 ∧ c2.visited = true)
    (hb : y + 1 < m2.height) :
    ∃ c2, cellAtN m2 x (y + 1) = some c2 ∧ c2.visited = true := by
  obtain ⟨c2, hc, hv⟩ := h
  obtain ⟨cell, hcell, hcv⟩ := visited_adj hwf hc hv (hclosed x y c2 hc hv)
    ((mem_resetAdjacents m2.width m2.height x y _).mpr
      (Or.inr (Or.inr (Or.inr ⟨hb, rfl⟩))))
  refine ⟨cell, ?_, hcv⟩
  show m2.cellAt ⟨(x : Int), ((y + 1 : Nat) : Int)⟩ = some cell
  rw [show (⟨(x : Int), ((y + 1 : Nat) : Int)⟩ : Coordinate) =
    ⟨(x : Int), (y : Int) + 1⟩ from by rw [Coordinate.mk.injEq]; omega]
  exact hcell

theorem visited_up {m2 : Maze} (hwf : WF m2)
    (hclosed : ∀ x y c2, cellAtN m2 x y = some c2 → c2.visited = true → NoUnvisitedAdj m2 x y)
    {x y : Nat} (h : ∃ c2, cellAtN m2 x y = some c2 ∧ c2.visited = true)
    (hb : 1 ≤ y) :
    ∃ c2, cellAtN m2 x (y - 1) = some c2 ∧ c2.visited = true := by
  obtain ⟨c2, hc, hv⟩ := h
  obtain ⟨cell, hcell, hcv⟩ := visited_adj hwf hc hv (hclosed x y c2 hc hv)
    ((mem_resetAdjacents m2.width m2.height x y _).mpr
      (Or.inr (Or.inr (Or.inl ⟨hb, rfl⟩))))
  refine ⟨cell, ?_, hcv⟩
  show m2.cellAt ⟨(x : Int), ((y - 1 : Nat) : Int)⟩ = some cell
  rw [show (⟨(x : Int), ((y - 1 : Nat) : Int)⟩ : Coordinate) =
    ⟨(x : Int), (y : Int) - 1⟩ from by rw [Coordinate.mk.injEq]; omega]
  exact hcell

/-- If the visited region is nonempty and closed under in-bounds adjacency,
it is the whole grid. -/
theorem all_visited {m2 : Maze} (hwf : WF m2)
    (hclosed : ∀ x y c2, cellAtN m2 x y = some c2 → c2.visited = true → NoUnvisitedAdj m2 x y)
    {cx cy : Nat}
    (hstart : ∃ c2, cellAtN m2 cx cy = some c2 ∧ c2.visited = true) :
    ∀ x y, x < m2.width → y < m2.height →
      ∃ c2, cellAtN m2 x y = some c2 ∧ c2.visited = true := by
  have hrowR : ∀ dd : Nat, cx + dd < m2.width →
      ∃ c2, cellAtN m2 (cx + dd) cy = some c2 ∧ c2.visited = true := by
    intro dd
    induction dd with
    | zero => intro _; exact hstart
    | succ dd ih =>
      intro hb
      have hprev := ih (by omega)
      have hb2 : cx + dd + 1 < m2.width := by omega
      exact visited_right hwf hclosed hprev hb2
  have hrowL : ∀ dd : Nat, dd ≤ cx →
      ∃ c2, cellAtN m2 (cx - dd) cy = some c2 ∧ c2.visited = true := by
    intro dd
    induction dd with
    | zero => intro _; exact hstart
    | succ dd ih =>
      intro hb
      have hprev := ih (by omega)
      have hres := visited_left hwf hclosed hprev (by omega)
      rw [show cx - dd - 1 = cx - (dd + 1) from by omega] at hres
      exact hres
  have hrow : ∀ x, x < m2.width →
      ∃ c2, cellAtN m2 x cy = some c2 ∧ c2.visited = true := by
    intro x hx
    rcases le_or_lt cx x with h | h
    · have hres := hrowR (x - cx) (by omega)
      rw [show cx + (x - cx) = x from by omega] at hres
      exact hres
    · have hres := hrowL (cx - x) (by omega)
      rw [show cx - (cx - x) = x from by omega] at hres
      exact hres
  intro x y hx hy
  have hbase := hrow x hx
  have hcolD : ∀ dd : Nat, cy + dd < m2.height →
      ∃ c2, cellAtN m2 x (cy + dd) = some c2 ∧ c2.visited = true := by
    intro dd
    induction dd with
    | zero => intro _; exact hbase
    | succ dd ih =>
      intro hb
      have hprev := ih (by omega)
      have hb2 : cy + dd + 1 < m2.height := by omega
      exact visited_down hwf hclosed hprev hb2
  have hcolU : ∀ dd : Nat, dd ≤ cy →
      ∃ c2, cellAtN m2 x (cy - dd) = some c2 ∧ c2.visited = true := by
    intro dd
    induction dd with
    | zero => intro _; exact hbase
    | succ dd ih =>
      intro hb
      have hprev := ih (by omega)
      have hres := visited_up hwf hclosed hprev (by omega)
      rw [show cy - dd - 1 = cy - (dd + 1) from by omega] at hres
      exact hres
  rcases le_or_lt cy y with h | h
  · have hres := hcolD (y - cy) (by omega)
    rw [show cy + (y - cy) = y from by omega] at hres
    exact hres
  · have hres := hcolU (cy - y) (by omega)
    rw [show cy - (cy - y) = y from by omega] at hres
    exact hres

/-- maze.js lines 121-134: `new Maze(width, height)`.  The constructor only
stores the dimensions; `this.cells` is not assigned until `reset` runs,
modelled as the empty array. -/
def Maze.new (width height : Nat) : Maze :=
  { width := width, height := height, cells := [] }

/-- Spanning-tree property of a completed run on a freshly reset grid:
every in-bounds cell is reachable from the start through broken wall pairs,
and exactly `width * height - 1` wall pairs are broken. -/
theorem generate_spanning (rs : Nat → Nat) (m0 : Maze) (fuel k : Nat) (c : Coordinate)
    {m2 : Maze} {k2 : Nat}
    (hrun : Maze.generate rs fuel (m0.reset) k c = some (.ok (m2, k2))) :
    (∀ x y : Nat, x < m0.width → y < m0.height →
      ReachBroken m2 c ⟨(x : Int), (y : Int)⟩) ∧
    brokenPairs m2 = m0.width * m0.height - 1 := by
  have hufe : UnvisitedFullExcept (m0.reset) c :=
    fun x y cc hcc _ hv => UnvisitedFull_reset m0 x y cc hcc hv
  obtain ⟨hsym2, hufull2, hcnt, hclause⟩ :=
    generate_post rs fuel (m0.reset) k c m2 k2 (WF_reset m0) (WallSym_reset m0) hufe hrun
  obtain ⟨hev, hvisC⟩ := generate_evolves rs fuel (m0.reset) k c hrun
  have hwf2 : WF m2 := WF_evolves hev (WF_reset m0)
  have hW2 : m2.width = m0.width := hev.1
  have hH2 : m2.height = m0.height := hev.2.1
  obtain ⟨vc, hvc, hvcv⟩ := hvisC
  obtain ⟨hx0, hy0, -⟩ := cellAt_some_elim hvc
  have hvcN : cellAtN m2 c.x.toNat c.y.toNat = some vc := by
    rw [← cellAt_nonneg m2 c hx0 hy0]
    exact hvc
  have hceta := coord_eta_toNat hx0 hy0
  have hclosed : ∀ x y c2, cellAtN m2 x y = some c2 → c2.visited = true →
      NoUnvisitedAdj m2 x y := by
    intro x y c2 hc2 hv
    rcases hclause x y c2 hc2 hv with ⟨c1, hc1, hc1v⟩ | ⟨-, hnua⟩
    · rw [reset_visited m0 x y c1 hc1] at hc1v
      cases hc1v
    · exact hnua
  have hall := all_visited hwf2 hclosed ⟨vc, hvcN, hvcv⟩
  constructor
  · intro x y hx hy
    obtain ⟨c2, hc2, hv2⟩ := hall x y (by omega) (by omega)
    rcases hclause x y c2 hc2 hv2 with ⟨c1, hc1, hc1v⟩ | ⟨hreach, -⟩
    · rw [reset_visited m0 x y c1 hc1] at hc1v
      cases hc1v
    · exact hreach
  · have hcnt0 : unvisitedCount m2 = 0 := by
      unfold unvisitedCount
      rw [Finset.card_eq_zero, Finset.filter_eq_empty_iff]
      intro p hp
      rw [Finset.mem_product, Finset.mem_range, Finset.mem_range] at hp
      obtain ⟨c2, hc2, hv2⟩ := hall p.1 p.2 hp.1 hp.2
      intro hpred
      obtain ⟨c3, hc3, hc3v⟩ := unvisitedAtB_elim hpred
      rw [hc2] at hc3
      cases hc3
      rw [hv2] at hc3v
      cases hc3v
    have hbounds := cellAtN_lt_of_WF hwf2 hvcN
    have hcx : c.x.toNat < m0.width := by omega
    have hcy : c.y.toNat < m0.height := by omega
    obtain ⟨rc, hrc⟩ := cellAtN_total (WF_reset m0)
      (show c.x.toNat < (m0.reset).width from hcx)
      (show c.y.toNat < (m0.reset).height from hcy)
    have hrcv : rc.visited = false := reset_visited m0 _ _ rc hrc
    have hsetv := unvisitedCount_setVisited
      (show c.x.toNat < (m0.reset).width from hcx)
      (show c.y.toNat < (m0.reset).height from hcy) hrc hrcv
    have hrescnt : unvisitedCount (m0.reset) = m0.width * m0.height :=
      unvisitedCount_reset m0
    have hsv2 : unvisitedCount ((m0.reset).setVisited c) =
        unvisitedCount ((m0.reset).setVisited
          ⟨(c.x.toNat : Int), (c.y.toNat : Int)⟩) :=
      congrArg (fun c0 => unvisitedCount ((m0.reset).setVisited c0)) hceta
    have hbres : brokenPairs (m0.reset) = 0 := brokenPairs_reset m0
    omega

/-! ## Remaining support lemmas for the claims -/

theorem jsAndNot_clear_bit {v : Nat} (hv : v < 2 ^ 32) {b : Nat} (hb : b < 32) (i : Nat) :
    (jsAndNot v (2 ^ b)).testBit i = if i = b then false else v.testBit i := by
  rcases Nat.lt_or_ge i 32 with hi | hi
  · rw [jsAndNot_testBit_small v _ i hi, Nat.testBit_two_pow]
    rcases eq_or_ne i b with rfl | hne
    · rw [if_pos rfl]
      simp
    · rw [if_neg hne, decide_eq_false (Ne.symm hne)]
      simp
  · have hvi : v.testBit i = false :=
      Nat.testBit_lt_two_pow (lt_of_lt_of_le hv (Nat.pow_le_pow_right (by omega) hi))
    rw [if_neg (by omega)]
    show (v &&& (2 ^ b ^^^ (2 ^ 32 - 1))).testBit i = v.testBit i
    rw [Nat.testBit_land, hvi]
    rfl

theorem clear_bit_wall {v : Nat} (hv : v < 2 ^ 32) {wl b : Nat} (hwl : wl = 2 ^ b)
    (hb : b < 32) (i : Nat) :
    (jsAndNot v wl).testBit i = if 2 ^ i = wl then false else v.testBit i := by
  subst hwl
  rw [jsAndNot_clear_bit hv hb i]
  rcases eq_or_ne i b with rfl | hne
  · rw [if_pos rfl, if_pos rfl]
  · rw [if_neg hne, if_neg (fun hcon => hne (Nat.pow_right_injective (by omega) hcon))]

theorem cellAt_reset_outside (m0 : Maze) (c : Coordinate)
    (hout : c.x < 0 ∨ c.y < 0 ∨ (m0.width : Int) ≤ c.x ∨ (m0.height : Int) ≤ c.y) :
    (m0.reset).cellAt c = none := by
  rcases lt_or_ge c.x 0 with hx | hx
  · exact cellAt_neg_none _ c (Or.inl hx)
  rcases lt_or_ge c.y 0 with hy | hy
  · exact cellAt_neg_none _ c (Or.inr hy)
  have hcon : ¬(c.x.toNat < m0.width ∧ c.y.toNat < m0.height) := by
    omega
  rw [cellAt_nonneg _ c hx hy, cellAtN_reset, if_neg hcon]

theorem reset_start_cell {w h : Nat} (c : Coordinate)
    (hin : 0 ≤ c.x ∧ c.x < (w : Int) ∧ 0 ≤ c.y ∧ c.y < (h : Int)) :
    ∃ cell, ((Maze.new w h).reset).cellAt c = some cell := by
  obtain ⟨hx0, hx1, hy0, hy1⟩ := hin
  obtain ⟨cell, hcell⟩ := cellAtN_total (WF_reset (Maze.new w h))
    (show c.x.toNat < ((Maze.new w h).reset).width by
      show c.x.toNat < w
      omega)
    (show c.y.toNat < ((Maze.new w h).reset).height by
      show c.y.toNat < h
      omega)
  refine ⟨cell, ?_⟩
  rw [cellAt_nonneg _ c hx0 hy0]
  exact hcell

theorem generate_reset_exists (rs : Nat → Nat) (w h k : Nat) (c : Coordinate)
    (hw : 1 ≤ w) (hh : 1 ≤ h)
    (hin : 0 ≤ c.x ∧ c.x < (w : Int) ∧ 0 ≤ c.y ∧ c.y < (h : Int)) :
    ∃ m2 k2, Maze.generate rs (w * h) ((Maze.new w h).reset) k c =
      some (.ok (m2, k2)) := by
  obtain ⟨cell, hcell⟩ := reset_start_cell c hin
  apply generate_terminates rs (w * h) _ k c cell (WF_reset _) hcell
  obtain ⟨hx0, hx1, hy0, hy1⟩ := hin
  have hcellN : cellAtN ((Maze.new w h).reset) c.x.toNat c.y.toNat = some cell := by
    rw [← cellAt_nonneg _ c hx0 hy0]
    exact hcell
  have hrcv : cell.visited = false := reset_visited (Maze.new w h) _ _ cell hcellN
  have hsetv := unvisitedCount_setVisited
    (show c.x.toNat < ((Maze.new w h).reset).width by
      show c.x.toNat < w
      omega)
    (show c.y.toNat < ((Maze.new w h).reset).height by
      show c.y.toNat < h
      omega) hcellN hrcv
  have hrescnt : unvisitedCount ((Maze.new w h).reset) = w * h :=
    unvisitedCount_reset (Maze.new w h)
  have hceta := coord_eta_toNat hx0 hy0
  have hsv2 : unvisitedCount (((Maze.new w h).reset).setVisited c) =
      unvisitedCount (((Maze.new w h).reset).setVisited
        ⟨(c.x.toNat : Int), (c.y.toNat : Int)⟩) :=
    congrArg (fun c0 => unvisitedCount (((Maze.new w h).reset).setVisited c0)) hceta
  have hpos : 1 ≤ w * h := Nat.one_le_iff_ne_zero.mpr (by positivity)
  omega

/-! ## The claims -/

/-- C1: for every `w ≥ 1`, `h ≥ 1`, in-bounds start and random stream, a
run of `generate` on the freshly reset grid exists (with depth budget
`w * h`), and every normal run leaves every cell reachable from the start
through broken wall pairs with exactly `w * h - 1` broken pairs. -/
theorem c1 (rs : Nat → Nat) (w h k : Nat) (c : Coordinate)
    (hw : 1 ≤ w) (hh : 1 ≤ h)
    (hin : 0 ≤ c.x ∧ c.x < (w : Int) ∧ 0 ≤ c.y ∧ c.y < (h : Int)) :
    (∃ m2 k2, Maze.generate rs (w * h) ((Maze.new w h).reset) k c =
      some (.ok (m2, k2))) ∧
    (∀ fuel m2 k2,
      Maze.generate rs fuel ((Maze.new w h).reset) k c = some (.ok (m2, k2)) →
      (∀ x y : Nat, x < w → y < h → ReachBroken m2 c ⟨(x : Int), (y : Int)⟩) ∧
      brokenPairs m2 = w * h - 1) := by
  refine ⟨generate_reset_exists rs w h k c hw hh hin, ?_⟩
  intro fuel m2 k2 hrun
  exact generate_spanning rs (Maze.new w h) fuel k c hrun

theorem c1_witness :
    ∃ m2 k2, Maze.generate (fun _ => 0) (2 * 2) ((Maze.new 2 2).reset) 0 ⟨0, 0⟩ =
      some (.ok (m2, k2)) ∧ brokenPairs m2 = 2 * 2 - 1 := by
  have h := c1 (fun _ => 0) 2 2 0 ⟨0, 0⟩ (by decide) (by decide)
    (by refine ⟨le_refl 0, ?_, le_refl 0, ?_⟩ <;> decide)
  obtain ⟨m2, k2, hrun⟩ := h.1
  exact ⟨m2, k2, hrun, (h.2 (2 * 2) m2 k2 hrun).2⟩

/-- C2: the wall-symmetry invariant (facing wall bits of adjacent cells
agree) holds on the reset grid, at every intermediate snapshot of a run of
`generate`, and in every normal final state. -/
theorem c2 (rs : Nat → Nat) (fuel k : Nat) (m0 : Maze) (c : Coordinate) :
    WallSym (m0.reset) ∧
    (∀ ms ∈ Maze.generateStates rs fuel (m0.reset) k c, WallSym ms) ∧
    (∀ m2 k2, Maze.generate rs fuel (m0.reset) k c = some (.ok (m2, k2)) →
      WallSym m2) := by
  refine ⟨WallSym_reset m0, ?_, ?_⟩
  · intro ms hms
    exact generateStates_sym rs fuel (m0.reset) k c (WF_reset m0) (WallSym_reset m0) ms hms
  · intro m2 k2 hrun
    exact (generate_post rs fuel (m0.reset) k c m2 k2 (WF_reset m0) (WallSym_reset m0)
      (fun x y cc hcc _ hv => UnvisitedFull_reset m0 x y cc hcc hv) hrun).1

/-- C3: for single-bit wall arguments (and 32-bit masks), `breakCellWalls`
clears exactly the given bit on cellA and exactly the geometrically
opposite bit on cellB, leaving every other bit and every other field of
both cells unchanged. -/
theorem c3 (A B : MazeCell) (w : Nat)
    (hw : w = WALL_TOP ∨ w = WALL_RIGHT ∨ w = WALL_BOTTOM ∨ w = WALL_LEFT)
    (hA : A.walls < 2 ^ 32) (hB : B.walls < 2 ^ 32) :
    (breakCellWalls A B w).1.x = A.x ∧ (breakCellWalls A B w).1.y = A.y ∧
    (breakCellWalls A B w).1.adjacentCells = A.adjacentCells ∧
    (breakCellWalls A B w).1.visited = A.visited ∧
    (breakCellWalls A B w).2.x = B.x ∧ (breakCellWalls A B w).2.y = B.y ∧
    (breakCellWalls A B w).2.adjacentCells = B.adjacentCells ∧
    (breakCellWalls A B w).2.visited = B.visited ∧
    (oppositeWall WALL_TOP = WALL_BOTTOM ∧ oppositeWall WALL_RIGHT = WALL_LEFT ∧
      oppositeWall WALL_BOTTOM = WALL_TOP ∧ oppositeWall WALL_LEFT = WALL_RIGHT) ∧
    (∀ i : Nat, (breakCellWalls A B w).1.walls.testBit i =
      if 2 ^ i = w then false else A.walls.testBit i) ∧
    (∀ i : Nat, (breakCellWalls A B w).2.walls.testBit i =
      if 2 ^ i = oppositeWall w then false else B.walls.testBit i) := by
  refine ⟨rfl, rfl, rfl, rfl, rfl, rfl, rfl, rfl,
    ⟨by decide, by decide, by decide, by decide⟩, ?_, ?_⟩
  · intro i
    show (jsAndNot A.walls w).testBit i = _
    rcases hw with rfl | rfl | rfl | rfl
    · exact clear_bit_wall hA (show WALL_TOP = 2 ^ 3 from by decide) (by omega) i
    · exact clear_bit_wall hA (show WALL_RIGHT = 2 ^ 2 from by decide) (by omega) i
    · exact clear_bit_wall hA (show WALL_BOTTOM = 2 ^ 1 from by decide) (by omega) i
    · exact clear_bit_wall hA (show WALL_LEFT = 2 ^ 0 from by decide) (by omega) i
  · intro i
    show (jsAndNot B.walls (oppositeWall w)).testBit i = _
    rcases hw with rfl | rfl | rfl | rfl
    · exact clear_bit_wall hB (show oppositeWall WALL_TOP = 2 ^ 1 from by decide)
        (by omega) i
    · exact clear_bit_wall hB (show oppositeWall WALL_RIGHT = 2 ^ 0 from by decide)
        (by omega) i
    · exact clear_bit_wall hB (show oppositeWall WALL_BOTTOM = 2 ^ 3 from by decide)
        (by omega) i
    · exact clear_bit_wall hB (show oppositeWall WALL_LEFT = 2 ^ 2 from by decide)
        (by omega) i

theorem c3_witness :
    (breakCellWalls ⟨0, 0, 15, [], false⟩ ⟨1, 0, 15, [], false⟩ WALL_RIGHT).1.walls.testBit 2 =
      false ∧
    (breakCellWalls ⟨0, 0, 15, [], false⟩ ⟨1, 0, 15, [], false⟩ WALL_RIGHT).2.walls.testBit 0 =
      false := by
  have h := c3 ⟨0, 0, 15, [], false⟩ ⟨1, 0, 15, [], false⟩ WALL_RIGHT
    (Or.inr (Or.inl rfl)) (by decide) (by decide)
  constructor
  · rw [h.2.2.2.2.2.2.2.2.2.1 2, if_pos (by decide)]
  · rw [h.2.2.2.2.2.2.2.2.2.2 0, if_pos (by decide)]

/-- C4: the wall-bit encoding is exactly top = bit 3 (8), right = bit 2 (4),
bottom = bit 1 (2), left = bit 0 (1); a fully walled cell (as `reset`
builds) has mask 15, whose set bits are exactly bits 0-3, and a fully open
mask 0 has no set bits. -/
theorem c4 :
    WALL_TOP = 8 ∧ WALL_RIGHT = 4 ∧ WALL_BOTTOM = 2 ∧ WALL_LEFT = 1 ∧
    WALL_TOP = 2 ^ 3 ∧ WALL_RIGHT = 2 ^ 2 ∧ WALL_BOTTOM = 2 ^ 1 ∧ WALL_LEFT = 2 ^ 0 ∧
    (WALL_TOP ||| WALL_RIGHT ||| WALL_BOTTOM ||| WALL_LEFT) = 15 ∧
    (∀ (m : Maze) (x y : Nat) (cl : MazeCell),
      cellAtN (m.reset) x y = some cl → cl.walls = 15) ∧
    (∀ i : Nat, (15 : Nat).testBit i = decide (i < 4)) ∧
    (∀ i : Nat, (0 : Nat).testBit i = false) := by
  refine ⟨rfl, rfl, rfl, rfl, rfl, rfl, rfl, rfl, rfl, reset_walls, ?_, fun i => Nat.zero_testBit i⟩
  intro i
  rcases Nat.lt_or_ge i 4 with hi | hi
  · interval_cases i <;> decide
  · rw [Nat.testBit_lt_two_pow
      (lt_of_lt_of_le (by omega) (Nat.pow_le_pow_right (by omega) hi))]
    rw [decide_eq_false (by omega)]

/-- C5: `reset` depends only on the dimensions (so it erases all prior
state and is idempotent), keeps the dimensions, and yields exactly the
fully walled, unvisited grid whose per-cell neighbour lists are the
in-bounds orthogonal coordinates in source order. -/
theorem c5 (m : Maze) :
    (m.reset).width = m.width ∧ (m.reset).height = m.height ∧
    (m.reset).reset = m.reset ∧
    (∀ m2 : Maze, m2.width = m.width → m2.height = m.height → m2.reset = m.reset) ∧
    (∀ x y : Nat, cellAtN (m.reset) x y =
      if x < m.width ∧ y < m.height then
        some { x := (x : Int), y := (y : Int), walls := 15,
               adjacentCells := resetAdjacents m.width m.height x y, visited := false }
      else none) ∧
    (∀ (x y : Nat) (c0 : Coordinate), c0 ∈ resetAdjacents m.width m.height x y ↔
      ((1 ≤ x ∧ c0 = ⟨(x : Int) - 1, (y : Int)⟩) ∨
       (x + 1 < m.width ∧ c0 = ⟨(x : Int) + 1, (y : Int)⟩) ∨
       (1 ≤ y ∧ c0 = ⟨(x : Int), (y : Int) - 1⟩) ∨
       (y + 1 < m.height ∧ c0 = ⟨(x : Int), (y : Int) + 1⟩))) := by
  have hdet : ∀ m2 : Maze, m2.width = m.width → m2.height = m.height →
      m2.reset = m.reset := by
    intro m2 hw hh
    unfold Maze.reset
    rw [hw, hh]
  refine ⟨rfl, rfl, hdet (m.reset) rfl rfl, hdet, ?_, ?_⟩
  · intro x y
    rw [cellAtN_reset]
    rfl
  · intro x y c0
    exact mem_resetAdjacents m.width m.height x y c0

/-- C6 (amended): an out-of-bounds start coordinate makes the unchecked
array indexing of line 184 yield `undefined`, so `generate` on a reset grid
fails — but with a TypeError, not the RangeError the spec names. -/
theorem c6 (rs : Nat → Nat) (m0 : Maze) (fuel k : Nat) (c : Coordinate)
    (hfuel : 1 ≤ fuel)
    (hout : c.x < 0 ∨ c.y < 0 ∨ (m0.width : Int) ≤ c.x ∨ (m0.height : Int) ≤ c.y) :
    Maze.generate rs fuel (m0.reset) k c = some (.error .typeError) := by
  obtain ⟨d, rfl⟩ : ∃ d, fuel = d + 1 := ⟨fuel - 1, by omega⟩
  simp only [Maze.generate, cellAt_reset_outside m0 c hout]

theorem c6_witness :
    Maze.generate (fun _ => 0) 1 ((Maze.new 2 2).reset) 0 ⟨-1, 0⟩ =
      some (.error .typeError) :=
  c6 (fun _ => 0) (Maze.new 2 2) 1 0 ⟨-1, 0⟩ (by decide) (Or.inl (by decide))

theorem c6_counterexample :
    Maze.generate (fun _ => 0) 4 ((Maze.new 3 3).reset) 0 ⟨-1, 0⟩ =
      some (.error .typeError) ∧
    JSError.typeError ≠ JSError.rangeError := by
  constructor
  · rfl
  · decide

/-- C7 (amended): the source has no `cellWalls` accessor; the only wall-mask
read is the renderer's direct `this.cells[y][x].walls` indexing.  Modelled
as `Maze.cellWallsRead`, it returns the mask (15 on a reset grid) in bounds
and fails with a TypeError — not the RangeError the spec names — out of
bounds. -/
theorem c7 (m0 : Maze) (c : Coordinate) :
    (0 ≤ c.x ∧ c.x < (m0.width : Int) ∧ 0 ≤ c.y ∧ c.y < (m0.height : Int) →
      Maze.cellWallsRead (m0.reset) c = .ok 15) ∧
    (c.x < 0 ∨ c.y < 0 ∨ (m0.width : Int) ≤ c.x ∨ (m0.height : Int) ≤ c.y →
      Maze.cellWallsRead (m0.reset) c = .error .typeError) := by
  constructor
  · rintro ⟨hx0, hx1, hy0, hy1⟩
    obtain ⟨cell, hcell⟩ := cellAtN_total (WF_reset m0)
      (show c.x.toNat < (m0.reset).width by
        show c.x.toNat < m0.width
        omega)
      (show c.y.toNat < (m0.reset).height by
        show c.y.toNat < m0.height
        omega)
    have hc : (m0.reset).cellAt c = some cell := by
      rw [cellAt_nonneg _ c hx0 hy0]
      exact hcell
    unfold Maze.cellWallsRead
    simp only [hc]
    rw [reset_walls m0 _ _ cell hcell]
  · intro hout
    unfold Maze.cellWallsRead
    simp only [cellAt_reset_outside m0 c hout]

theorem c7_counterexample :
    Maze.cellWallsRead ((Maze.new 2 2).reset) ⟨2, 0⟩ = .error .typeError ∧
    JSError.typeError ≠ JSError.rangeError := by
  constructor
  · rfl
  · decide

/-- C8: with the random source constantly choosing index 0, `generate` from
`(0,0)` on a reset 2×2 grid is one fixed computation: it returns normally
with random counter 3, final wall masks 11/12/11/6 at
(0,0)/(1,0)/(0,1)/(1,1), and the snapshot trace shows the fixed break
sequence — right wall of (0,0)-(1,0) first (masks 11/14), then
bottom of (1,0)-(1,1) (masks 12/7), then left of (1,1)-(0,1). -/
theorem c8 :
    ∃ m2 : Maze, Maze.generate (fun _ => 0) 4 ((Maze.new 2 2).reset) 0 ⟨0, 0⟩ =
        some (.ok (m2, 3)) ∧
      Maze.cellWallsRead m2 ⟨0, 0⟩ = .ok 11 ∧ Maze.cellWallsRead m2 ⟨1, 0⟩ = .ok 12 ∧
      Maze.cellWallsRead m2 ⟨0, 1⟩ = .ok 11 ∧ Maze.cellWallsRead m2 ⟨1, 1⟩ = .ok 6 ∧
      (Maze.generateStates (fun _ => 0) 4 ((Maze.new 2 2).reset) 0 ⟨0, 0⟩).map
        (fun ms => [Maze.cellWallsRead ms ⟨0, 0⟩, Maze.cellWallsRead ms ⟨1, 0⟩,
          Maze.cellWallsRead ms ⟨0, 1⟩, Maze.cellWallsRead ms ⟨1, 1⟩]) =
        [[.ok 15, .ok 15, .ok 15, .ok 15],
         [.ok 11, .ok 14, .ok 15, .ok 15],
         [.ok 11, .ok 14, .ok 15, .ok 15],
         [.ok 11, .ok 12, .ok 15, .ok 7],
         [.ok 11, .ok 12, .ok 15, .ok 7],
         [.ok 11, .ok 12, .ok 11, .ok 6],
         [.ok 11, .ok 12, .ok 11, .ok 6]] :=
  ⟨_, rfl, rfl, rfl, rfl, rfl, rfl⟩

/-- C9: `generate` on a reset `w×h` grid from any in-bounds start and under
any random stream terminates within recursion depth `w * h` (the run with
fuel `w * h` already returns normally, never exhausting the budget). -/
theorem c9 (rs : Nat → Nat) (w h k : Nat) (c : Coordinate)
    (hw : 1 ≤ w) (hh : 1 ≤ h)
    (hin : 0 ≤ c.x ∧ c.x < (w : Int) ∧ 0 ≤ c.y ∧ c.y < (h : Int)) :
    ∃ m2 k2, Maze.generate rs (w * h) ((Maze.new w h).reset) k c =
      some (.ok (m2, k2)) :=
  generate_reset_exists rs w h k c hw hh hin

theorem c9_witness :
    ∃ m2 k2, Maze.generate (fun _ => 1) (2 * 2) ((Maze.new 2 2).reset) 0 ⟨1, 1⟩ =
      some (.ok (m2, k2)) :=
  c9 (fun _ => 1) 2 2 0 ⟨1, 1⟩ (by decide) (by decide)
    (by refine ⟨?_, ?_, ?_, ?_⟩ <;> decide)

/-- C10: generation only removes structure.  Successive snapshots of any run
stand in `mazeEvolves` (dimensions fixed; per cell: position and adjacency
unchanged, `visited` never reverts, wall mask bitwise non-increasing), any
normal result evolves from the input, and `breakCellWalls` itself changes
nothing but the two wall masks, each only by clearing bits. -/
theorem c10 (rs : Nat → Nat) (fuel : Nat) (m : Maze) (k : Nat) (c : Coordinate) :
    List.Chain' mazeEvolves (m :: Maze.generateStates rs fuel m k c) ∧
    (∀ m2 k2, Maze.generate rs fuel m k c = some (.ok (m2, k2)) → mazeEvolves m m2) ∧
    (∀ ms1 ms2 : Maze, mazeEvolves ms1 ms2 → ∀ (c0 : Coordinate) (cell : MazeCell),
      ms1.cellAt c0 = some cell → ∃ cell2, ms2.cellAt c0 = some cell2 ∧
        cell2.x = cell.x ∧ cell2.y = cell.y ∧
        cell2.adjacentCells = cell.adjacentCells ∧
        (cell.visited = true → cell2.visited = true) ∧
        cell2.walls &&& cell.walls = cell2.walls) ∧
    (∀ (A B : MazeCell) (wall : Nat),
      (breakCellWalls A B wall).1.x = A.x ∧ (breakCellWalls A B wall).1.y = A.y ∧
      (breakCellWalls A B wall).1.adjacentCells = A.adjacentCells ∧
      (breakCellWalls A B wall).1.visited = A.visited ∧
      (breakCellWalls A B wall).1.walls &&& A.walls = (breakCellWalls A B wall).1.walls ∧
      (breakCellWalls A B wall).2.x = B.x ∧ (breakCellWalls A B wall).2.y = B.y ∧
      (breakCellWalls A B wall).2.adjacentCells = B.adjacentCells ∧
      (breakCellWalls A B wall).2.visited = B.visited ∧
      (breakCellWalls A B wall).2.walls &&& B.walls = (breakCellWalls A B wall).2.walls) := by
  refine ⟨generateStates_chain rs fuel m k c,
    fun m2 k2 hrun => (generate_evolves rs fuel m k c hrun).1,
    fun ms1 ms2 hev c0 cell hc => mazeEvolves_cellAt hev hc, ?_⟩
  intro A B wall
  exact ⟨rfl, rfl, rfl, rfl, (cellEvolves_clearWall A wall).2.2.2.2,
    rfl, rfl, rfl, rfl, (cellEvolves_clearWall B (oppositeWall wall)).2.2.2.2⟩
